import Mathlib

/-!
Shallow embedding of asyncpraw's comment forest materializer
(src/asyncpraw/models/comment_forest.py): the node model, the per-discussion
identity index, `_gather_more_comments`, `_insert_comment`, `list` (flatten),
`__len__` and the `replace_more` expansion loop.

Python's mutable object graph is embedded as an explicit state (`FState`):
comment and placeholder objects are identified by a uid assigned at
deserialization time (mirroring Python object identity), each comment's
`replies._comments` list is an entry of `repl`, the submission's
`_comments_by_id` dict is `index`, each MoreComments' `_remove_from`
attribute is an entry of `rf`, and the throwaway `new_comments` lists built
by each fetch are kept in `temps` so that removal from them can be modelled
faithfully.

The fetch collaborator (`item.comments(update=False)`, external to the core)
is a parameter returning raw trees; raw nodes are loaded into fresh objects
when delivered, exactly as the deserializer creates fresh Python objects.
-/

/-- Raw node as delivered by the deserializer or the fetch collaborator:
a real comment (name, parent id, root flag, replies) or a MoreComments
placeholder (name, pending child count). -/
inductive PNode where
  | comment (name parent_id : String) (is_root : Bool) (replies : List PNode)
  | more (name : String) (count : Nat)

/-- In-memory node object: a raw node whose every node has been given an
object identity (uid), mirroring Python object identity. -/
inductive LNode where
  | comment (uid : Nat) (name parent_id : String) (is_root : Bool) (replies : List LNode)
  | more (uid : Nat) (name : String) (count : Nat)

/-- A reference to a node object as stored inside a container list:
either a comment object or a MoreComments object, by uid. -/
inductive NodeId where
  | c (uid : Nat)
  | m (uid : Nat)
deriving DecidableEq

/-- A reference to a concrete Python list that can serve as a
`_remove_from` target: the forest's own top-level `_comments`, some
comment's `replies._comments`, or the k-th fetch's throwaway
`new_comments` list. -/
inductive CRef where
  | topLevel
  | replies (uid : Nat)
  | temp (k : Nat)
deriving DecidableEq

/-- The data of a MoreComments object as carried in the priority
collection: its object identity, fullname and pending child count. -/
structure MoreObj where
  uid : Nat
  name : String
  count : Nat
deriving DecidableEq

/-- Exceptions the core can raise: `DuplicateReplaceException` from
`_insert_comment`, the `AssertionError` of the missing-parent defensive
check, Python's `ValueError` from `list.remove` on an absent element, and
`AttributeError` from reading a never-assigned `_remove_from`. -/
inductive CErr where
  | duplicateReplace
  | assertionError
  | valueError
  | attributeError
deriving DecidableEq

/-- Observable events of one `replace_more` run: a placeholder was fetched
(one API request) or skipped (budget exhausted / below threshold). -/
inductive CEv where
  | fetched (mo : MoreObj)
  | skipped (mo : MoreObj)
deriving DecidableEq

mutual

/-- Assign fresh uids to a raw node (pre-order, sequentially from `k`),
mirroring object creation at deserialization. -/
def loadTree : PNode → Nat → LNode × Nat
  | .more nm c, k => (.more k nm c, k + 1)
  | .comment nm pid rt reps, k =>
    let r := loadList reps (k + 1)
    (.comment k nm pid rt r.1, r.2)

/-- Assign fresh uids to a list of raw nodes, left to right. -/
def loadList : List PNode → Nat → List LNode × Nat
  | [], k => ([], k)
  | n :: ns, k =>
    let r := loadTree n k
    let r2 := loadList ns r.2
    (r.1 :: r2.1, r2.2)

end

/-- The container reference of a loaded object. -/
def nodeIdOf : LNode → NodeId
  | .comment u _ _ _ _ => .c u
  | .more u _ _ => .m u

mutual

/-- Size of a loaded tree (number of nodes). -/
def gSizeL : LNode → Nat
  | .more _ _ _ => 1
  | .comment _ _ _ _ reps => 1 + gSizeLs reps

/-- Size of a loaded forest. -/
def gSizeLs : List LNode → Nat
  | [] => 0
  | t :: ts => gSizeL t + gSizeLs ts

end

theorem gSizeLs_eq (ts : List LNode) : gSizeLs ts = (ts.map gSizeL).sum := by
  induction ts with
  | nil => rfl
  | cons t ts ih => simp [gSizeLs, ih]

theorem gSizeL_pos (t : LNode) : 1 ≤ gSizeL t := by
  cases t <;> simp [gSizeL]

/-- Total size of a gather queue (number of nodes still to visit). -/
def qSize (q : List (Option Nat × LNode)) : Nat :=
  (q.map (fun pt => gSizeL pt.2)).sum

/-- Fuel-driven BFS of `_gather_more_comments`; the fuel is only a
termination device, `gatherQ` below supplies enough of it exactly. -/
def gatherF : Nat → List (Option Nat × LNode) → List (Option Nat × MoreObj)
  | _, [] => []
  | 0, _ :: _ => []
  | f + 1, (p, .more u nm c) :: q => (p, ⟨u, nm, c⟩) :: gatherF f q
  | f + 1, (_, .comment u _ _ _ reps) :: q =>
    gatherF f (q ++ reps.map (fun t => (some u, t)))

theorem qSize_nil : qSize [] = 0 := rfl

theorem qSize_cons (p : Option Nat) (n : LNode) (q : List (Option Nat × LNode)) :
    qSize ((p, n) :: q) = gSizeL n + qSize q := by
  simp [qSize]

theorem qSize_append (q r : List (Option Nat × LNode)) :
    qSize (q ++ r) = qSize q + qSize r := by
  simp [qSize]

theorem qSize_map_children (u : Nat) (reps : List LNode) :
    qSize (reps.map (fun t => ((some u : Option Nat), t))) = gSizeLs reps := by
  simp only [qSize, List.map_map, Function.comp_def, gSizeLs_eq]

theorem gatherF_mono (f : Nat) : ∀ (g : Nat) (q : List (Option Nat × LNode)),
    f ≤ g → qSize q ≤ f → gatherF f q = gatherF g q := by
  induction f with
  | zero =>
    intro g q _ hq
    cases q with
    | nil => cases g <;> rfl
    | cons x q =>
      exfalso
      rw [qSize_cons] at hq
      have := gSizeL_pos x.2
      omega
  | succ f ih =>
    intro g q hg hq
    cases q with
    | nil => cases g <;> rfl
    | cons x q =>
      obtain ⟨g, rfl⟩ : ∃ g1, g = g1 + 1 := ⟨g - 1, by omega⟩
      obtain ⟨p, n⟩ := x
      cases n with
      | more u nm c =>
        simp only [gatherF]
        rw [qSize_cons, gSizeL] at hq
        rw [ih g q (by omega) (by omega)]
      | comment u nm pid rt reps =>
        simp only [gatherF]
        rw [qSize_cons, gSizeL] at hq
        rw [ih g (q ++ reps.map (fun t => (some u, t))) (by omega)]
        rw [qSize_append, qSize_map_children]
        omega

/-- BFS of `_gather_more_comments` (comment_forest.py lines 19-35): the queue
holds (BFS-parent, node) pairs; a MoreComments is emitted together with its
parent, a comment enqueues its replies. Emission order is the discovery
(heappush) order of the source. -/
def gatherQ (q : List (Option Nat × LNode)) : List (Option Nat × MoreObj) :=
  gatherF (qSize q) q

theorem gatherQ_nil : gatherQ [] = [] := rfl

theorem gatherQ_more (p : Option Nat) (u : Nat) (nm : String) (c : Nat)
    (q : List (Option Nat × LNode)) :
    gatherQ ((p, .more u nm c) :: q) = (p, ⟨u, nm, c⟩) :: gatherQ q := by
  have hs : qSize ((p, .more u nm c) :: q) = qSize q + 1 := by
    rw [qSize_cons]
    show 1 + qSize q = qSize q + 1
    omega
  show gatherF (qSize ((p, .more u nm c) :: q)) ((p, .more u nm c) :: q) = _
  rw [hs]
  rfl

theorem gatherQ_comment (p : Option Nat) (u : Nat) (nm pid : String) (rt : Bool)
    (reps : List LNode) (q : List (Option Nat × LNode)) :
    gatherQ ((p, .comment u nm pid rt reps) :: q)
      = gatherQ (q ++ reps.map (fun t => (some u, t))) := by
  have hs : qSize ((p, .comment u nm pid rt reps) :: q)
      = qSize (q ++ reps.map (fun t => (some u, t))) + 1 := by
    rw [qSize_cons, qSize_append, qSize_map_children]
    show 1 + gSizeLs reps + qSize q = _
    omega
  show gatherF (qSize ((p, .comment u nm pid rt reps) :: q)) _ = _
  rw [hs]
  show gatherF (qSize (q ++ reps.map (fun t => (some u, t))))
    (q ++ reps.map (fun t => (some u, t))) = _
  rfl

mutual

/-- Specification-side enumeration of the MoreComments contained in a loaded
tree, with their tree parents (pre-order). Used to relate the gather BFS to
the tree structure. -/
def dfsMores : Option Nat → LNode → List (Option Nat × MoreObj)
  | p, .more u nm c => [(p, ⟨u, nm, c⟩)]
  | _, .comment u _ _ _ reps => dfsMoresL (some u) reps

/-- `dfsMores` over a forest. -/
def dfsMoresL : Option Nat → List LNode → List (Option Nat × MoreObj)
  | _, [] => []
  | p, t :: ts => dfsMores p t ++ dfsMoresL p ts

end

/-- Modelled from the spec: the priority collection (heapq of MoreComments,
whose comparison lives in models/reddit/more.py, outside src/). Per the spec,
placeholders are totally ordered by pending child count descending, ties
broken by insertion order (stable); a pop returns the earliest-inserted
placeholder of maximal pending count. The collection itself is the plain
insertion-ordered list, push is append. -/
def popMax : List MoreObj → Option (MoreObj × List MoreObj)
  | [] => none
  | x :: xs =>
    match popMax xs with
    | none => some (x, [])
    | some (y, ys) => if x.count < y.count then some (y, x :: ys) else some (x, xs)

theorem popMax_none (h : List MoreObj) : popMax h = none ↔ h = [] := by
  cases h with
  | nil => simp [popMax]
  | cons x xs =>
    simp only [popMax]
    cases hx : popMax xs with
    | none => simp
    | some p => cases p with
      | mk y ys => by_cases hc : x.count < y.count <;> simp [hc]

theorem popMax_length (h : List MoreObj) (x : MoreObj) (r : List MoreObj)
    (hp : popMax h = some (x, r)) : r.length + 1 = h.length := by
  induction h generalizing x r with
  | nil => simp [popMax] at hp
  | cons a as ih =>
    simp only [popMax] at hp
    cases hx : popMax as with
    | none =>
      rw [hx] at hp
      cases hp
      have : as = [] := (popMax_none as).1 hx
      simp [this]
    | some p =>
      cases p with
      | mk y ys =>
        rw [hx] at hp
        by_cases hc : a.count < y.count
        · simp [hc] at hp
          obtain ⟨hx1, hr⟩ := hp
          subst hx1
          subst hr
          have := ih y ys hx
          simp
          omega
        · simp [hc] at hp
          obtain ⟨hx1, hr⟩ := hp
          subst hx1
          subst hr
          simp

/-- Fuel-driven repeated popping; `sortPop` supplies exactly enough fuel. -/
def sortPopF : Nat → List MoreObj → List MoreObj
  | 0, _ => []
  | f + 1, h =>
    match popMax h with
    | none => []
    | some (x, r) => x :: sortPopF f r

/-- Sequence of pops of the priority collection until empty (no pushes in
between): the stable descending order in which a run with no nested
discovery processes its placeholders. -/
def sortPop (h : List MoreObj) : List MoreObj :=
  sortPopF h.length h

theorem sortPopF_ge (f : Nat) : ∀ (g : Nat) (h : List MoreObj),
    h.length ≤ f → f ≤ g → sortPopF f h = sortPopF g h := by
  induction f with
  | zero =>
    intro g h hl _
    have : h = [] := List.length_eq_zero.1 (by omega)
    subst this
    cases g
    · rfl
    · simp [sortPopF, popMax]
  | succ f ih =>
    intro g h hl hg
    obtain ⟨g, rfl⟩ : ∃ g1, g = g1 + 1 := ⟨g - 1, by omega⟩
    cases hp : popMax h with
    | none => simp [sortPopF, hp]
    | some p =>
      obtain ⟨x, r⟩ := p
      have hlen := popMax_length h x r hp
      simp only [sortPopF, hp]
      rw [ih g r (by omega) (by omega)]

theorem sortPop_eq_pop (h : List MoreObj) (x : MoreObj) (r : List MoreObj)
    (hp : popMax h = some (x, r)) : sortPop h = x :: sortPop r := by
  have hl := popMax_length h x r hp
  show sortPopF h.length h = x :: sortPopF r.length r
  obtain ⟨n, hn⟩ : ∃ n, h.length = n + 1 := ⟨r.length, by omega⟩
  rw [hn]
  simp only [sortPopF, hp]
  rw [sortPopF_ge r.length n r (by omega) (by omega)]

theorem sortPop_nil : sortPop [] = [] := rfl

/-- First-match association lookup (used for dict / attribute maps). -/
def alook {α β : Type} [DecidableEq α] : List (α × β) → α → Option β
  | [], _ => none
  | (a, b) :: rest, k => if a = k then some b else alook rest k

/-- Replace the value of the first entry with the given key, or append a new
entry when the key is absent. -/
def aset {α β : Type} [DecidableEq α] : List (α × β) → α → β → List (α × β)
  | [], k, v => [(k, v)]
  | (a, b) :: rest, k, v =>
    if a = k then (k, v) :: rest else (a, b) :: aset rest k v

/-- The mutable object graph of one discussion during `replace_more`:
`top` is the forest's `_comments` list, `repl` maps each comment object to
the contents of its `replies._comments` list, `index` is the submission's
`_comments_by_id`, `rf` maps each MoreComments object to its `_remove_from`
target, `temps` are the throwaway `new_comments` lists of past fetches, and
`next` is the next fresh object identity. -/
structure FState where
  top : List NodeId
  repl : List (Nat × List NodeId)
  index : List (String × Nat)
  rf : List (Nat × CRef)
  temps : List (List NodeId)
  next : Nat

/-- Contents of a comment's replies list (empty when never populated). -/
def replGet (s : FState) (u : Nat) : List NodeId :=
  (alook s.repl u).getD []

/-- Resolve a container reference to its current contents. -/
def getC (s : FState) : CRef → List NodeId
  | .topLevel => s.top
  | .replies u => replGet s u
  | .temp k => s.temps.getD k []

/-- Overwrite the contents of a container. -/
def setC (s : FState) : CRef → List NodeId → FState
  | .topLevel, l => { s with top := l }
  | .replies u, l => { s with repl := aset s.repl u l }
  | .temp k, l => { s with temps := s.temps.set k l }

/-- Python `list.remove`: drop the first occurrence, `none` (ValueError)
when absent. -/
def removeFirst : List NodeId → NodeId → Option (List NodeId)
  | [], _ => none
  | y :: ys, x =>
    if y = x then some ys
    else (removeFirst ys x).map (fun r => y :: r)

/-- `item._remove_from.remove(item)` for the MoreComments object `u`:
AttributeError when `_remove_from` was never assigned, ValueError when the
target list no longer holds the item. -/
def removeNode (s : FState) (u : Nat) : Except CErr FState :=
  match alook s.rf u with
  | none => .error .attributeError
  | some c =>
    match removeFirst (getC s c) (.m u) with
    | none => .error .valueError
    | some l => .ok (setC s c l)

mutual

/-- Replies-list entries contributed by a loaded tree: one entry per comment
object, holding the ids of its reply nodes (pre-order). -/
def declTree : LNode → List (Nat × List NodeId)
  | .more _ _ _ => []
  | .comment u _ _ _ reps => (u, reps.map nodeIdOf) :: declList reps

/-- `declTree` over a forest. -/
def declList : List LNode → List (Nat × List NodeId)
  | [] => []
  | t :: ts => declTree t ++ declList ts

end

mutual

/-- Modelled from the spec: identity-index registrations performed when a
tree of comments is deserialized into a discussion. The submission's
deserializer (outside src/) registers every created Comment in
`_comments_by_id`; spec section 3, invariant 1: every reachable Comment's
identity is present in the Identity Index. -/
def regTree : LNode → List (String × Nat)
  | .more _ _ _ => []
  | .comment u nm _ _ reps => (nm, u) :: regList reps

/-- `regTree` over a forest. -/
def regList : List LNode → List (String × Nat)
  | [] => []
  | t :: ts => regTree t ++ regList ts

end

/-- `_insert_comment` (comment_forest.py lines 96-108) acting on the loaded
object `n` (a top-level element of a fetch's `new_comments`): duplicate
check against `_comments_by_id`, then `comment.submission = submission`
(which, modelled from the spec, registers a Comment - but not a
MoreComments - in the Identity Index), then placement: MoreComments and
root comments are appended to the forest's own `_comments`, any other
comment is appended to its index-resolved parent's replies, a missing
parent tripping the defensive assertion. Returns the state after the
mutations performed up to the raise, plus the raised error if any. -/
def insertOne (s : FState) : LNode → FState × Option CErr
  | .more u nm _ =>
    if (alook s.index nm).isSome then (s, some .duplicateReplace)
    else ({ s with top := s.top ++ [.m u] }, none)
  | .comment u nm pid rt _ =>
    if (alook s.index nm).isSome then (s, some .duplicateReplace)
    else
      let s1 : FState := { s with index := (nm, u) :: s.index }
      if rt then ({ s1 with top := s1.top ++ [.c u] }, none)
      else
        match alook s1.index pid with
        | none => (s1, some .assertionError)
        | some pu => (setC s1 (.replies pu) (replGet s1 pu ++ [.c u]), none)

/-- `for comment in new_comments: self._insert_comment(comment)`: sequential
insertion, aborting at the first raise with the partial mutations kept. -/
def insertAll (s : FState) : List LNode → FState × Option CErr
  | [] => (s, none)
  | n :: rest =>
    match insertOne s n with
    | (s1, some e) => (s1, some e)
    | (s1, none) => insertAll s1 rest

/-- The immutable data of one `replace_more` run: the fetch collaborator
(keyed by the placeholder's fullname) and the threshold argument. -/
structure Cfg where
  fetch : String → List PNode
  threshold : Int

/-- The `_remove_from` target chosen for a gathered placeholder
(comment_forest.py lines 28-31): the BFS parent's replies list when the
placeholder was found under a comment, otherwise the fallback container. -/
def rfTarget (fb : CRef) : Option Nat → CRef
  | some p => .replies p
  | none => fb

/-- Assign `_remove_from` targets to a gather's output. -/
def applyGather (s : FState) (g : List (Option Nat × MoreObj)) (fb : CRef) : FState :=
  g.foldl (fun s pm => { s with rf := (pm.2.uid, rfTarget fb pm.1) :: s.rf }) s

/-- The objects deserialized from a fetch of `item` in state `s`. -/
def fetchLns (cfg : Cfg) (s : FState) (item : MoreObj) : List LNode :=
  (loadList (cfg.fetch item.name) s.next).1

/-- The nested gather over a fetch's `new_comments`
(`self._gather_more_comments(new_comments, self._comments)`). -/
def fetchG (cfg : Cfg) (s : FState) (item : MoreObj) : List (Option Nat × MoreObj) :=
  gatherQ ((fetchLns cfg s item).map (fun t => ((none : Option Nat), t)))

/-- The fallback container of the nested gather: `parent_tree or tree` with
`parent_tree = self._comments`, which by Python truthiness degrades to the
throwaway `new_comments` list when the top-level list is empty. -/
def fetchFb (cfg : Cfg) (s : FState) (item : MoreObj) : CRef :=
  if s.top.isEmpty then CRef.temp s.temps.length else CRef.topLevel

/-- The state after deserializing a fetch's result and running the nested
gather: fresh objects created (counter advanced, the `new_comments` list
recorded as a temp container, every new comment's replies list recorded)
and `_remove_from` assigned to every gathered placeholder. -/
def fetchMid (cfg : Cfg) (s : FState) (item : MoreObj) : FState :=
  applyGather
    { s with
      next := (loadList (cfg.fetch item.name) s.next).2
      temps := s.temps ++ [(fetchLns cfg s item).map nodeIdOf]
      repl := s.repl ++ declList (fetchLns cfg s item) }
    (fetchG cfg s item) (fetchFb cfg s item)

/-- The fetch branch of the `replace_more` loop body (lines 203-216):
deserialize the collaborator's result, gather-and-push nested placeholders
out of it, insert every new top-level node, then remove the fetched
placeholder from its `_remove_from` target. Returns the pushed placeholders
and the new state, or the first raised error. -/
def fetchStep (cfg : Cfg) (s : FState) (item : MoreObj) :
    Except CErr (List MoreObj × FState) :=
  match insertAll (fetchMid cfg s item) (fetchLns cfg s item) with
  | (_, some e) => .error e
  | (s3, none) =>
    match removeNode s3 item.uid with
    | .error e => .error e
    | .ok s4 => .ok ((fetchG cfg s item).map (fun pm => pm.2), s4)

/-- Outcome of one check of the `while more_comments:` loop: the loop exits
(returning `more_comments + skipped`, the former empty at exit), an
exception propagates, or one iteration completed and the loop continues. -/
inductive StepOut where
  | done (res : List MoreObj) (s : FState) (tr : List CEv)
  | err (e : CErr)
  | cont (h : List MoreObj) (rem : Option Int) (s : FState)
      (sk : List MoreObj) (tr : List CEv)

/-- The skip condition of line 198: `remaining is not None and
remaining <= 0 or item.count < threshold`. -/
def skipCond (rem : Option Int) (threshold : Int) (c : Nat) : Bool :=
  (match rem with | some r => decide (r ≤ 0) | none => false)
    || decide ((c : Int) < threshold)

/-- One check-and-iteration of the `replace_more` loop (lines 196-218):
pop the highest-priority placeholder; when the budget is exhausted or its
count is below threshold, record it as skipped and remove it from its
`_remove_from` target without consuming budget; otherwise fetch, decrement
the budget when one is set, gather-and-push nested placeholders, insert the
new nodes and remove the resolved placeholder. -/
def stepF (cfg : Cfg) (h : List MoreObj) (rem : Option Int) (s : FState)
    (sk : List MoreObj) (tr : List CEv) : StepOut :=
  match popMax h with
  | none => .done sk s tr
  | some (item, rest) =>
    if skipCond rem cfg.threshold item.count then
      match removeNode s item.uid with
      | .error e => .err e
      | .ok s1 => .cont rest rem s1 (sk ++ [item]) (tr ++ [.skipped item])
    else
      match fetchStep cfg s item with
      | .error e => .err e
      | .ok (pushes, s1) =>
        .cont (rest ++ pushes) (rem.map (fun r => r - 1)) s1 sk (tr ++ [.fetched item])

/-- The `replace_more` loop driven by fuel: `none` when the fuel ran out
before the priority collection drained, otherwise the propagated exception
or the returned skip list with the final state and the run's event trace. -/
def loopF (cfg : Cfg) : Nat → List MoreObj → Option Int → FState →
    List MoreObj → List CEv → Option (Except CErr (List MoreObj × FState × List CEv))
  | 0, h, rem, s, sk, tr =>
    match stepF cfg h rem s sk tr with
    | .done res s1 tr1 => some (.ok (res, s1, tr1))
    | .err e => some (.error e)
    | .cont _ _ _ _ _ => none
  | fuel + 1, h, rem, s, sk, tr =>
    match stepF cfg h rem s sk tr with
    | .done res s1 tr1 => some (.ok (res, s1, tr1))
    | .err e => some (.error e)
    | .cont h1 rem1 s1 sk1 tr1 => loopF cfg fuel h1 rem1 s1 sk1 tr1

/-- The discussion state right after deserializing the initial comment
forest: objects loaded with fresh uids, `top` holding the top-level nodes,
every comment's replies list recorded, and (modelled from the spec,
invariant 1: registration happens in the out-of-src deserializer) every
Comment registered in the Identity Index. -/
def initState (init : List PNode) : FState :=
  let r := loadList init 0
  { top := r.1.map nodeIdOf
    repl := declList r.1
    index := regList r.1
    rf := []
    temps := []
    next := r.2 }

/-- The initial `_gather_more_comments(self._comments)` of a run on the
given initial forest, with BFS parents. -/
def gatherInit (init : List PNode) : List (Option Nat × MoreObj) :=
  gatherQ ((loadList init 0).1.map (fun t => ((none : Option Nat), t)))

/-- `replace_more(limit, threshold)` (lines 133-218) on a forest freshly
deserialized from `init`: gather all placeholders (the initial call passes
`parent_tree = None`, so the fallback is the forest's own top-level list),
then run the loop. Returns the skipped placeholders (the collection is
empty at normal exit), the final state and the event trace. -/
def replaceMore (fetch : String → List PNode) (limit : Option Int)
    (threshold : Int) (init : List PNode) (fuel : Nat) :
    Option (Except CErr (List MoreObj × FState × List CEv)) :=
  let s0 := initState init
  let g := gatherInit init
  let s1 := applyGather s0 g .topLevel
  loopF ⟨fetch, threshold⟩ fuel (g.map (fun pm => pm.2)) limit s1 [] []

/-- `list()` (comment_forest.py lines 115-131): fuel-bounded BFS flatten.
The queue starts as the top-level sequence; a comment appends its replies
to the queue, a MoreComments contributes itself without descending. `none`
when the fuel is insufficient (the Python loop would still be running). -/
def bfsListF (s : FState) : Nat → List NodeId → Option (List NodeId)
  | _, [] => some []
  | 0, _ :: _ => none
  | fuel + 1, n :: rest =>
    match n with
    | .m u => (bfsListF s fuel rest).map (fun l => NodeId.m u :: l)
    | .c u => (bfsListF s fuel (rest ++ replGet s u)).map (fun l => NodeId.c u :: l)

/-- The flatten operation of the forest in state `s`. -/
def forestList (s : FState) (fuel : Nat) : Option (List NodeId) :=
  bfsListF s fuel s.top

/-- Modelled from the spec: the nodes reachable from a node list by walking
Comment to replies, never descending into a Placeholder - the depth-first
reference enumeration against which the flatten is checked. Fuel-bounded;
one unit is burnt per visited list element. -/
def reachSpec (s : FState) : Nat → List NodeId → Option (List NodeId)
  | _, [] => some []
  | 0, _ :: _ => none
  | fuel + 1, .m u :: rest => (reachSpec s fuel rest).map (fun l => NodeId.m u :: l)
  | fuel + 1, .c u :: rest =>
    match reachSpec s fuel (replGet s u) with
    | none => none
    | some a =>
      match reachSpec s fuel rest with
      | none => none
      | some b => some (NodeId.c u :: a ++ b)

/-- `__len__` (comment_forest.py lines 89-94): `self._comments` may still be
unset (`None`); both `None` and the empty list are falsy, giving 0. -/
def commentForestLen (c : Option (List NodeId)) : Nat :=
  match c with
  | none => 0
  | some l => if l.isEmpty then 0 else l.length

mutual

/-- A raw tree containing no MoreComments placeholder anywhere. -/
def moreFreeP : PNode → Bool
  | .more _ _ => false
  | .comment _ _ _ reps => moreFreePL reps

/-- `moreFreeP` over a forest. -/
def moreFreePL : List PNode → Bool
  | [] => true
  | t :: ts => moreFreeP t && moreFreePL ts

end

/-- Number of fetch-collaborator invocations recorded in a trace. -/
def countFetched (tr : List CEv) : Nat :=
  (tr.filter (fun e => match e with | .fetched _ => true | .skipped _ => false)).length

/-- Reference trace of a run with no nested discovery: walk the stable
descending pop order, skipping while the budget is exhausted or the count
is below threshold and fetching (consuming one budget unit) otherwise. -/
def budgetTrace (rem : Option Int) (threshold : Int) : List MoreObj → List CEv
  | [] => []
  | mo :: rest =>
    if skipCond rem threshold mo.count then
      CEv.skipped mo :: budgetTrace rem threshold rest
    else
      CEv.fetched mo :: budgetTrace (rem.map (fun r => r - 1)) threshold rest

/-- Number of occurrences of the placeholder `u` across the live containers
of the forest (the top-level list and every comment's replies list; the
throwaway fetch lists are not part of the forest). -/
def occTotal (s : FState) (u : Nat) : Nat :=
  s.top.count (.m u) + (s.repl.map (fun e => e.2.count (.m u))).sum

/-- C10: `__len__` is total over both the unset (`None`) comment sequence
and an empty one, returning 0 in both cases (comment_forest.py lines
89-94: both values are falsy, selecting the `return 0` branch), and
returns the length on any populated sequence. -/
theorem len_total_unpopulated :
    commentForestLen none = 0 ∧ commentForestLen (some ([] : List NodeId)) = 0
      ∧ ∀ l : List NodeId, commentForestLen (some l) = l.length := by
  refine ⟨rfl, rfl, ?_⟩
  intro l
  cases l with
  | nil => rfl
  | cons x xs => simp [commentForestLen]

/-- C4: inserting a Comment whose identity is already registered in the
discussion's Identity Index raises `DuplicateReplaceException` before any
state is mutated (the duplicate check of comment_forest.py lines 97-98
precedes every side effect): the returned state is exactly the input
state, and the error is never swallowed. -/
theorem insert_duplicate_raises (s : FState) (u : Nat) (nm pid : String)
    (rt : Bool) (reps : List LNode) (hdup : (alook s.index nm).isSome) :
    insertOne s (.comment u nm pid rt reps) = (s, some .duplicateReplace) := by
  simp [insertOne, hdup]

/-- C4 witness. -/
theorem insert_duplicate_raises_witness :
    (alook (initState [PNode.comment "c1" "" true []]).index "c1").isSome = true
      ∧ insertOne (initState [PNode.comment "c1" "" true []])
          (.comment 7 "c1" "t3_x" true [])
        = (initState [PNode.comment "c1" "" true []], some .duplicateReplace) :=
  ⟨by rfl, insert_duplicate_raises _ 7 "c1" "t3_x" true [] (by rfl)⟩

/-- C5: a non-root Comment whose parent identity cannot be resolved in the
Identity Index at insertion time trips the defensive assertion
(comment_forest.py lines 103-106) and is appended to no container (`top`,
`repl` and `temps` are untouched; only the back-reference registration that
precedes the check has happened); and whenever the parent is already
present - the must-have-parent-before-child precondition - the assertion
branch is unreachable. -/
theorem insert_missing_parent_asserts (s : FState) (u : Nat) (nm pid : String)
    (reps : List LNode) :
    ((alook s.index nm) = none → pid ≠ nm → alook s.index pid = none →
      insertOne s (.comment u nm pid false reps)
        = ({ s with index := (nm, u) :: s.index }, some .assertionError))
    ∧ ∀ rt : Bool, (alook s.index pid).isSome →
        (insertOne s (.comment u nm pid rt reps)).2 ≠ some .assertionError := by
  constructor
  · intro hnm hne hpid
    have hif : alook ((nm, u) :: s.index) pid = none := by
      simp only [alook]
      rw [if_neg (show ¬ nm = pid from fun hh => hne hh.symm)]
      exact hpid
    simp [insertOne, hnm, hif]
  · intro rt hpar
    by_cases hdup : (alook s.index nm).isSome
    · simp [insertOne, hdup]
    · cases rt with
      | true => simp [insertOne, hdup]
      | false =>
        simp only [insertOne, hdup, Bool.false_eq_true, if_false]
        by_cases hpe : pid = nm
        · subst hpe
          simp [alook]
        · have hif : alook ((nm, u) :: s.index) pid = alook s.index pid := by
            simp only [alook]
            rw [if_neg (show ¬ nm = pid from fun hh => hpe hh.symm)]
          rw [hif]
          cases hl : alook s.index pid with
          | none => rw [hl] at hpar; simp at hpar
          | some pu => simp

/-- C5 witness. -/
theorem insert_missing_parent_asserts_witness :
    (insertOne (initState [PNode.comment "c1" "" true []])
        (.comment 7 "c2" "t1_zz" false [])
      = ({ initState [PNode.comment "c1" "" true []] with
            index := ("c2", 7) :: (initState [PNode.comment "c1" "" true []]).index },
         some .assertionError))
    ∧ (insertOne (initState [PNode.comment "c1" "" true []])
        (.comment 7 "c2" "c1" false [])).2 ≠ some .assertionError :=
  ⟨(insert_missing_parent_asserts _ 7 "c2" "t1_zz" []).1 (by rfl) (by decide) (by rfl),
   (insert_missing_parent_asserts _ 7 "c2" "c1" []).2 false (by rfl)⟩

/-- The skip condition holds exactly when a budget is set and exhausted or
the pending count is below threshold. -/
theorem skipCond_iff (rem : Option Int) (th : Int) (c : Nat) :
    skipCond rem th c = true ↔ ((∃ r, rem = some r ∧ r ≤ 0) ∨ (c : Int) < th) := by
  cases rem <;> simp [skipCond]

/-- C3: each loop iteration of `replace_more` (comment_forest.py lines
196-216) treats the popped placeholder in exactly one of two ways. If the
budget is exhausted (a set remaining count at most 0) or its pending count
is below threshold, it is skipped: recorded in the skip list and the trace,
removed from its removal target, the collection shrinks to the popped
remainder, and the remaining budget is unchanged (no fetch consumed).
Otherwise it is fetched: the trace records the fetch and the remaining
budget is decremented exactly when one is set. -/
theorem replace_more_skip_or_fetch (cfg : Cfg) (h : List MoreObj)
    (rem : Option Int) (s : FState) (sk : List MoreObj) (tr : List CEv)
    (item : MoreObj) (rest : List MoreObj)
    (hpop : popMax h = some (item, rest)) :
    (skipCond rem cfg.threshold item.count = true →
      ∀ s1, removeNode s item.uid = .ok s1 →
        stepF cfg h rem s sk tr
          = .cont rest rem s1 (sk ++ [item]) (tr ++ [.skipped item]))
    ∧ (skipCond rem cfg.threshold item.count = false →
      ∀ ps s1, fetchStep cfg s item = .ok (ps, s1) →
        stepF cfg h rem s sk tr
          = .cont (rest ++ ps) (rem.map (fun r => r - 1)) s1 sk
              (tr ++ [.fetched item])) := by
  constructor
  · intro hc s1 hrm
    simp [stepF, hpop, hc, hrm]
  · intro hc ps s1 hf
    simp [stepF, hpop, hc, hf]

/-- C3 witness. -/
theorem replace_more_skip_or_fetch_witness :
    stepF ⟨fun _ => [], 0⟩ [⟨0, "m", 5⟩] (some 0)
        ⟨[.m 0], [], [], [(0, .topLevel)], [], 1⟩ [] []
      = .cont [] (some 0) ⟨[], [], [], [(0, .topLevel)], [], 1⟩
          [⟨0, "m", 5⟩] [.skipped ⟨0, "m", 5⟩] :=
  (replace_more_skip_or_fetch ⟨fun _ => [], 0⟩ [⟨0, "m", 5⟩] (some 0)
    ⟨[.m 0], [], [], [(0, .topLevel)], [], 1⟩ [] [] ⟨0, "m", 5⟩ []
    (by rfl)).1 (by rfl) ⟨[], [], [], [(0, .topLevel)], [], 1⟩ (by rfl)

/-- The tree-shaped reference enumeration of a gather queue: every
placeholder of every queued tree, with its tree parent. -/
def dfsQ (q : List (Option Nat × LNode)) : List (Option Nat × MoreObj) :=
  q.flatMap (fun pt => dfsMores pt.1 pt.2)

theorem dfsQ_nil : dfsQ [] = [] := rfl

theorem dfsQ_cons (pt : Option Nat × LNode) (q : List (Option Nat × LNode)) :
    dfsQ (pt :: q) = dfsMores pt.1 pt.2 ++ dfsQ q := by
  simp [dfsQ]

theorem dfsQ_append (q r : List (Option Nat × LNode)) :
    dfsQ (q ++ r) = dfsQ q ++ dfsQ r := by
  simp [dfsQ]

theorem dfsQ_children (u : Nat) (reps : List LNode) :
    dfsQ (reps.map (fun t => ((some u : Option Nat), t))) = dfsMoresL (some u) reps := by
  induction reps with
  | nil => rfl
  | cons t ts ih =>
    simp only [List.map_cons, dfsQ_cons, dfsMoresL]
    rw [ih]

/-- The gather BFS emits exactly the placeholders of the queued trees with
their tree parents (as a permutation: BFS order versus tree order). -/
theorem gatherQ_perm_aux : ∀ n q, qSize q = n → (gatherQ q).Perm (dfsQ q) := by
  intro n
  induction n using Nat.strong_induction_on with
  | _ n ih =>
    intro q hq
    match q with
    | [] => simp [gatherQ_nil, dfsQ_nil]
    | (p, .more u nm c) :: q =>
      rw [gatherQ_more, dfsQ_cons]
      have hlt : qSize q < n := by
        rw [← hq, qSize_cons, gSizeL]
        omega
      exact List.Perm.cons _ (ih _ hlt q rfl)
    | (p, .comment u nm pid rt reps) :: q =>
      rw [gatherQ_comment, dfsQ_cons]
      have hlt : qSize (q ++ reps.map (fun t => (some u, t))) < n := by
        rw [← hq, qSize_cons, qSize_append, qSize_map_children, gSizeL]
        omega
      have h1 := ih _ hlt (q ++ reps.map (fun t => (some u, t))) rfl
      rw [dfsQ_append, dfsQ_children] at h1
      exact h1.trans (List.perm_append_comm.trans (by simp [dfsMores]))

theorem gatherQ_perm (q : List (Option Nat × LNode)) :
    (gatherQ q).Perm (dfsQ q) :=
  gatherQ_perm_aux (qSize q) q rfl

mutual

/-- Raw size of a raw tree. -/
def pSize : PNode → Nat
  | .more _ _ => 1
  | .comment _ _ _ reps => 1 + pSizes reps

/-- Raw size of a raw forest. -/
def pSizes : List PNode → Nat
  | [] => 0
  | t :: ts => pSize t + pSizes ts

end

mutual

/-- All object identities of a loaded tree, pre-order. -/
def uidsT : LNode → List Nat
  | .more u _ _ => [u]
  | .comment u _ _ _ reps => u :: uidsTs reps

/-- All object identities of a loaded forest. -/
def uidsTs : List LNode → List Nat
  | [] => []
  | t :: ts => uidsT t ++ uidsTs ts

end

mutual

/-- Loading a raw tree from counter `k` uses exactly the identities
`k, k+1, ...` in pre-order and leaves the counter at `k + pSize`. -/
theorem loadTree_spec (p : PNode) (k : Nat) :
    (loadTree p k).2 = k + pSize p
      ∧ uidsT (loadTree p k).1 = List.range' k (pSize p) := by
  cases p with
  | more nm c => exact ⟨rfl, rfl⟩
  | comment nm pid rt reps =>
    have h := loadList_spec reps (k + 1)
    refine ⟨?_, ?_⟩
    · show (loadList reps (k + 1)).2 = k + (1 + pSizes reps)
      rw [h.1]
      omega
    · show k :: uidsTs (loadList reps (k + 1)).1 = List.range' k (1 + pSizes reps)
      rw [h.2]
      rw [show 1 + pSizes reps = pSizes reps + 1 from by omega]
      rw [List.range'_succ]

/-- Loading a raw forest from counter `k` uses exactly the identities
`k, k+1, ...` and leaves the counter at `k + pSizes`. -/
theorem loadList_spec (ps : List PNode) (k : Nat) :
    (loadList ps k).2 = k + pSizes ps
      ∧ uidsTs (loadList ps k).1 = List.range' k (pSizes ps) := by
  cases ps with
  | nil => exact ⟨rfl, rfl⟩
  | cons p ps =>
    have h1 := loadTree_spec p k
    have h2 := loadList_spec ps (loadTree p k).2
    refine ⟨?_, ?_⟩
    · show (loadList ps (loadTree p k).2).2 = k + (pSize p + pSizes ps)
      rw [h2.1, h1.1]
      omega
    · show uidsT (loadTree p k).1 ++ uidsTs (loadList ps (loadTree p k).2).1 = _
      rw [h1.2, h2.2, h1.1]
      have hra : List.range' k (pSize p) ++ List.range' (k + pSize p) (pSizes ps)
          = List.range' k (pSize p + pSizes ps) := by
        rw [show k + pSize p = k + 1 * pSize p from by omega]
        rw [List.range'_append]
        rw [show pSizes ps + pSize p = pSize p + pSizes ps from by omega]
      rw [hra]
      rfl

end

theorem dfsQ_mapP (po : Option Nat) (reps : List LNode) :
    dfsQ (reps.map (fun t => (po, t))) = dfsMoresL po reps := by
  induction reps with
  | nil => rfl
  | cons t ts ih =>
    simp only [List.map_cons, dfsQ_cons, dfsMoresL]
    rw [ih]

mutual

/-- The placeholder identities enumerated from a tree form a sublist of all
its identities. -/
theorem dfsMores_uids_sub (po : Option Nat) (t : LNode) :
    ((dfsMores po t).map (fun pm => pm.2.uid)).Sublist (uidsT t) := by
  cases t with
  | more u nm c => exact List.Sublist.refl _
  | comment u nm pid rt reps =>
    show ((dfsMoresL (some u) reps).map (fun pm => pm.2.uid)).Sublist (u :: uidsTs reps)
    exact (dfsMoresL_uids_sub (some u) reps).trans (List.sublist_cons_self _ _)

/-- Forest version of `dfsMores_uids_sub`. -/
theorem dfsMoresL_uids_sub (po : Option Nat) (ts : List LNode) :
    ((dfsMoresL po ts).map (fun pm => pm.2.uid)).Sublist (uidsTs ts) := by
  cases ts with
  | nil => exact List.Sublist.refl _
  | cons t ts =>
    show ((dfsMores po t ++ dfsMoresL po ts).map (fun pm => pm.2.uid)).Sublist
      (uidsT t ++ uidsTs ts)
    rw [List.map_append]
    exact (dfsMores_uids_sub po t).append (dfsMoresL_uids_sub po ts)

end

/-- Placeholder identities discovered by a gather over a freshly loaded
forest are pairwise distinct. -/
theorem fetchG_uids_nodup (cfg : Cfg) (s : FState) (item : MoreObj) :
    ((fetchG cfg s item).map (fun pm => pm.2.uid)).Nodup := by
  have hperm := (gatherQ_perm ((fetchLns cfg s item).map
    (fun t => ((none : Option Nat), t)))).map (fun pm => pm.2.uid)
  rw [dfsQ_mapP] at hperm
  refine hperm.nodup_iff.2 ?_
  refine List.Nodup.sublist (dfsMoresL_uids_sub none (fetchLns cfg s item)) ?_
  have hl := (loadList_spec (cfg.fetch item.name) s.next).2
  show (uidsTs (loadList (cfg.fetch item.name) s.next).1).Nodup
  rw [hl]
  exact List.nodup_range' _ _ _ one_pos

/-- Membership in the nested gather coincides with placeholder membership
in the fetched trees. -/
theorem fetchG_mem (cfg : Cfg) (s : FState) (item : MoreObj)
    (po : Option Nat) (mo : MoreObj) :
    (po, mo) ∈ fetchG cfg s item ↔ (po, mo) ∈ dfsMoresL none (fetchLns cfg s item) := by
  have hperm := gatherQ_perm ((fetchLns cfg s item).map
    (fun t => ((none : Option Nat), t)))
  rw [dfsQ_mapP] at hperm
  exact hperm.mem_iff

theorem applyGather_eq (g : List (Option Nat × MoreObj)) :
    ∀ (s : FState) (fb : CRef),
    applyGather s g fb
      = { s with rf := (g.map (fun pm => (pm.2.uid, rfTarget fb pm.1))).reverse ++ s.rf } := by
  induction g with
  | nil => intro s fb; rfl
  | cons pm g ih =>
    intro s fb
    show applyGather { s with rf := (pm.2.uid, rfTarget fb pm.1) :: s.rf } g fb = _
    rw [ih]
    simp

theorem alook_append {α β : Type} [DecidableEq α] (l1 l2 : List (α × β)) (k : α) :
    alook (l1 ++ l2) k = ((alook l1 k).map some).getD (alook l2 k) := by
  induction l1 with
  | nil => rfl
  | cons e l1 ih =>
    obtain ⟨a, b⟩ := e
    show (if a = k then some b else alook (l1 ++ l2) k) = _
    by_cases he : a = k
    · simp [alook, he]
    · simp only [alook, if_neg he]
      exact ih

theorem alook_notmem {α β : Type} [DecidableEq α] (l : List (α × β)) (k : α)
    (hk : ∀ e ∈ l, e.1 ≠ k) : alook l k = none := by
  induction l with
  | nil => rfl
  | cons e l ih =>
    show alook (e :: l) k = none
    obtain ⟨a, b⟩ := e
    have ha : a ≠ k := hk (a, b) (List.mem_cons_self _ _)
    simp only [alook, if_neg ha]
    exact ih (fun e he => hk e (List.mem_cons_of_mem _ he))

/-- After a gather's `_remove_from` assignments, each gathered placeholder's
target resolves to its parent replies list or the fallback. -/
theorem applyGather_rf_mem (g : List (Option Nat × MoreObj)) (s : FState) (fb : CRef)
    (po : Option Nat) (mo : MoreObj)
    (hnd : (g.map (fun pm => pm.2.uid)).Nodup) (hmem : (po, mo) ∈ g) :
    alook (applyGather s g fb).rf mo.uid = some (rfTarget fb po) := by
  rw [applyGather_eq]
  show alook ((g.map (fun pm => (pm.2.uid, rfTarget fb pm.1))).reverse ++ s.rf) mo.uid = _
  rw [alook_append]
  have h1 : alook (g.map (fun pm => (pm.2.uid, rfTarget fb pm.1))).reverse mo.uid
      = some (rfTarget fb po) := by
    induction g with
    | nil => simp at hmem
    | cons pm g ih =>
      rw [List.map_cons, List.reverse_cons, alook_append]
      rcases List.mem_cons.1 hmem with heq | hmem2
      · subst heq
        have hni : ∀ e ∈ (g.map (fun pm => (pm.2.uid, rfTarget fb pm.1))).reverse,
            e.1 ≠ mo.uid := by
          intro e hee
          rw [List.mem_reverse] at hee
          obtain ⟨pm2, hpm2, rfl⟩ := List.mem_map.1 hee
          have hnin := (List.nodup_cons.1 hnd).1
          intro hc
          apply hnin
          show mo.uid ∈ List.map (fun pm => pm.2.uid) g
          have hm2 : pm2.2.uid ∈ List.map (fun pm => pm.2.uid) g :=
            List.mem_map_of_mem (fun pm => pm.2.uid) hpm2
          rw [show pm2.2.uid = mo.uid from hc] at hm2
          exact hm2
        rw [alook_notmem _ _ hni]
        simp [alook]
      · have hnd2 := (List.nodup_cons.1 hnd).2
        rw [ih hnd2 hmem2]
        rfl
  rw [h1]
  rfl

/-- Placeholders not discovered by the gather keep their `_remove_from`. -/
theorem applyGather_rf_notmem (g : List (Option Nat × MoreObj)) (s : FState) (fb : CRef)
    (u : Nat) (hu : ∀ pm ∈ g, pm.2.uid ≠ u) :
    alook (applyGather s g fb).rf u = alook s.rf u := by
  rw [applyGather_eq]
  show alook ((g.map (fun pm => (pm.2.uid, rfTarget fb pm.1))).reverse ++ s.rf) u = _
  rw [alook_append]
  rw [alook_notmem]
  · rfl
  · intro e hee
    rw [List.mem_reverse] at hee
    obtain ⟨pm2, hpm2, rfl⟩ := List.mem_map.1 hee
    exact hu pm2 hpm2

theorem setC_rf (s : FState) (c : CRef) (l : List NodeId) : (setC s c l).rf = s.rf := by
  cases c <;> rfl

theorem insertOne_rf (s : FState) (n : LNode) : (insertOne s n).1.rf = s.rf := by
  cases n with
  | more u nm c =>
    by_cases hd : (alook s.index nm).isSome <;> simp [insertOne, hd]
  | comment u nm pid rt reps =>
    by_cases hd : (alook s.index nm).isSome
    · simp [insertOne, hd]
    · cases rt with
      | true => simp [insertOne, hd]
      | false =>
        simp only [insertOne, hd, Bool.false_eq_true, if_false]
        cases hl : alook ((nm, u) :: s.index) pid with
        | none => simp [hl]
        | some pu => simp [hl, setC]

theorem insertAll_rf (lns : List LNode) : ∀ s : FState, (insertAll s lns).1.rf = s.rf := by
  induction lns with
  | nil => intro s; rfl
  | cons n lns ih =>
    intro s
    show (match insertOne s n with
      | (s1, some e) => (s1, some e)
      | (s1, none) => insertAll s1 lns).1.rf = s.rf
    cases hin : insertOne s n with
    | mk s1 oe =>
      cases oe with
      | none =>
        simp only []
        rw [ih s1]
        have := insertOne_rf s n
        rw [hin] at this
        exact this
      | some e =>
        simp only []
        have := insertOne_rf s n
        rw [hin] at this
        exact this

/-- Inversion of a successful `list.remove`. -/
theorem removeNode_ok_inv (s : FState) (u : Nat) (s1 : FState)
    (h : removeNode s u = .ok s1) :
    ∃ c l, alook s.rf u = some c ∧ removeFirst (getC s c) (.m u) = some l
      ∧ s1 = setC s c l := by
  unfold removeNode at h
  split at h
  next hr => exact absurd h (by simp)
  next c hr =>
    split at h
    next hf => exact absurd h (by simp)
    next l hf =>
      simp only [Except.ok.injEq] at h
      exact ⟨c, l, hr, hf, h.symm⟩

theorem removeNode_ok_rf (s : FState) (u : Nat) (s1 : FState)
    (h : removeNode s u = .ok s1) : s1.rf = s.rf := by
  obtain ⟨c, l, _, _, rfl⟩ := removeNode_ok_inv s u s1 h
  exact setC_rf s c l

/-- Inversion of a successful fetch branch. -/
theorem fetchStep_ok_inv (cfg : Cfg) (s : FState) (item : MoreObj) (ps : List MoreObj)
    (s1 : FState) (h : fetchStep cfg s item = .ok (ps, s1)) :
    ∃ s3, insertAll (fetchMid cfg s item) (fetchLns cfg s item) = (s3, none)
      ∧ removeNode s3 item.uid = .ok s1
      ∧ ps = (fetchG cfg s item).map (fun pm => pm.2) := by
  unfold fetchStep at h
  split at h
  next e heq => exact absurd h (by simp)
  next s3 heq =>
    split at h
    next e hrm => exact absurd h (by simp)
    next s4 hrm =>
      simp only [Except.ok.injEq, Prod.mk.injEq] at h
      refine ⟨s3, heq, ?_, h.1.symm⟩
      rw [hrm, h.2]

/-- C8 (amended): within one `replace_more` invocation, provided the
forest's top-level sequence is non-empty at fetch time, every placeholder
contained in a fetch's returned trees is discovered by the nested gather
(comment_forest.py lines 19-35 run over `new_comments` at line 208), its
removal target is set to its parent comment's replies list when it has a
parent and to the forest's top-level sequence otherwise, it is pushed into
the same priority collection, and the loop continues with it in the
collection, eligible for later pops. (The non-empty-top hypothesis is the
amendment: when the top-level list is empty, `parent_tree or tree` at line
31 degrades to the throwaway `new_comments` list instead - see the
counterexample.) -/
theorem nested_discovery_gathered (cfg : Cfg) (s : FState) (item : MoreObj)
    (ps : List MoreObj) (s1 : FState) (htop : s.top ≠ [])
    (hf : fetchStep cfg s item = .ok (ps, s1)) :
    ps = (fetchG cfg s item).map (fun pm => pm.2)
    ∧ (∀ po mo, (po, mo) ∈ dfsMoresL none (fetchLns cfg s item) →
        (po, mo) ∈ fetchG cfg s item ∧ mo ∈ ps
          ∧ alook s1.rf mo.uid = some (rfTarget CRef.topLevel po))
    ∧ (∀ h rest rem sk tr, popMax h = some (item, rest) →
        skipCond rem cfg.threshold item.count = false →
        stepF cfg h rem s sk tr
          = .cont (rest ++ ps) (rem.map (fun r => r - 1)) s1 sk
              (tr ++ [.fetched item])) := by
  obtain ⟨s3, hins, hrm, hps⟩ := fetchStep_ok_inv cfg s item ps s1 hf
  have hrf1 : s1.rf = (fetchMid cfg s item).rf := by
    rw [removeNode_ok_rf s3 item.uid s1 hrm]
    have := insertAll_rf (fetchLns cfg s item) (fetchMid cfg s item)
    rw [hins] at this
    exact this
  refine ⟨hps, ?_, ?_⟩
  · intro po mo hmem
    have hg : (po, mo) ∈ fetchG cfg s item := (fetchG_mem cfg s item po mo).2 hmem
    refine ⟨hg, ?_, ?_⟩
    · rw [hps]
      exact List.mem_map_of_mem (fun pm => pm.2) hg
    · rw [hrf1]
      show alook (applyGather _ (fetchG cfg s item) (fetchFb cfg s item)).rf mo.uid = _
      rw [applyGather_rf_mem (fetchG cfg s item) _ (fetchFb cfg s item) po mo
        (fetchG_uids_nodup cfg s item) hg]
      have hfb : fetchFb cfg s item = CRef.topLevel := by
        unfold fetchFb
        rw [if_neg]
        simp [htop]
      rw [hfb]
  · intro h rest rem sk tr hpop hsc
    simp [stepF, hpop, hsc, hf]

/-- C8 witness: a fetch of the single placeholder returns one root comment
holding a nested placeholder and one root placeholder; both are gathered,
the nested one targeting its parent's replies, the root one the top level,
and both are pushed. -/
theorem nested_discovery_gathered_witness :
    (fetchStep
        ⟨fun _ => [PNode.comment "a" "t3_x" true [PNode.more "n1" 7], PNode.more "n2" 4], 0⟩
        ⟨[.m 0], [], [], [(0, .topLevel)], [], 1⟩ ⟨0, "m0", 5⟩).isOk = true
    ∧ (∀ ps s1,
        fetchStep
            ⟨fun _ => [PNode.comment "a" "t3_x" true [PNode.more "n1" 7], PNode.more "n2" 4], 0⟩
            ⟨[.m 0], [], [], [(0, .topLevel)], [], 1⟩ ⟨0, "m0", 5⟩ = .ok (ps, s1) →
        ps = [⟨3, "n2", 4⟩, ⟨2, "n1", 7⟩]
          ∧ alook s1.rf 2 = some (CRef.replies 1)
          ∧ alook s1.rf 3 = some CRef.topLevel) := by
  refine ⟨by rfl, ?_⟩
  intro ps s1 hf
  obtain ⟨hps, hall, _⟩ := nested_discovery_gathered _ _ _ ps s1 (by simp) hf
  refine ⟨by rw [hps]; rfl, ?_, ?_⟩
  · exact (hall (some 1) ⟨2, "n1", 7⟩ (by decide)).2.2
  · exact (hall none ⟨3, "n2", 4⟩ (by decide)).2.2

theorem reachSpec_mono (s : FState) (f : Nat) :
    ∀ (ns : List NodeId) (l : List NodeId),
    reachSpec s f ns = some l → reachSpec s (f + 1) ns = some l := by
  induction f with
  | zero =>
    intro ns l h
    cases ns with
    | nil => exact h
    | cons n rest => exact absurd h (by simp [reachSpec])
  | succ f ih =>
    intro ns l h
    cases ns with
    | nil => exact h
    | cons n rest =>
      cases n with
      | m u =>
        simp only [reachSpec] at h ⊢
        cases hr : reachSpec s f rest with
        | none => rw [hr] at h; simp at h
        | some lr =>
          rw [hr] at h
          rw [ih rest lr hr]
          exact h
      | c u =>
        simp only [reachSpec] at h ⊢
        cases ha : reachSpec s f (replGet s u) with
        | none => rw [ha] at h; simp at h
        | some a =>
          rw [ha] at h
          cases hb : reachSpec s f rest with
          | none => rw [hb] at h; simp at h
          | some b =>
            rw [hb] at h
            rw [ih (replGet s u) a ha, ih rest b hb]
            exact h

theorem reachSpec_ge (s : FState) (f g : Nat) (hfg : f ≤ g) :
    ∀ (ns : List NodeId) (l : List NodeId),
    reachSpec s f ns = some l → reachSpec s g ns = some l := by
  induction g with
  | zero =>
    intro ns l h
    have : f = 0 := by omega
    subst this
    exact h
  | succ g ih =>
    intro ns l h
    by_cases hf : f = g + 1
    · subst hf; exact h
    · exact reachSpec_mono s g ns l (ih (by omega) ns l h)

/-- Splitting a depth-first enumeration across an append. -/
theorem reachSpec_append_inv (s : FState) (f : Nat) :
    ∀ (xs ys : List NodeId) (l : List NodeId),
    reachSpec s f (xs ++ ys) = some l →
    ∃ a b, reachSpec s f xs = some a ∧ reachSpec s f ys = some b ∧ l = a ++ b := by
  induction f with
  | zero =>
    intro xs ys l h
    cases xs with
    | nil => exact ⟨[], l, rfl, h, rfl⟩
    | cons n rest => exact absurd h (by simp [reachSpec])
  | succ f ih =>
    intro xs ys l h
    cases xs with
    | nil => exact ⟨[], l, rfl, h, rfl⟩
    | cons n rest =>
      cases n with
      | m u =>
        simp only [List.cons_append, List.append_eq, reachSpec] at h
        cases hr : reachSpec s f (rest ++ ys) with
        | none => rw [hr] at h; simp at h
        | some lr =>
          rw [hr] at h
          simp only [Option.map_some', Option.some.injEq] at h
          obtain ⟨a, b, ha, hb, rfl⟩ := ih rest ys lr hr
          refine ⟨.m u :: a, b, ?_, reachSpec_mono s f ys b hb, by rw [← h]; rfl⟩
          simp only [reachSpec, ha]
          rfl
      | c u =>
        simp only [List.cons_append, List.append_eq, reachSpec] at h
        cases hra : reachSpec s f (replGet s u) with
        | none => rw [hra] at h; simp at h
        | some ra =>
          rw [hra] at h
          cases hr : reachSpec s f (rest ++ ys) with
          | none => rw [hr] at h; simp at h
          | some lr =>
            rw [hr] at h
            simp only [Option.some.injEq] at h
            obtain ⟨a, b, ha, hb, rfl⟩ := ih rest ys lr hr
            refine ⟨.c u :: ra ++ a, b, ?_, reachSpec_mono s f ys b hb, by rw [← h]; simp⟩
            simp only [reachSpec, hra, ha]

/-- Joining two depth-first enumerations across an append (at some fuel). -/
theorem reachSpec_append_intro (s : FState) :
    ∀ (xs : List NodeId) (f g : Nat) (a b ys : List NodeId),
    reachSpec s f xs = some a → reachSpec s g ys = some b →
    ∃ F, reachSpec s F (xs ++ ys) = some (a ++ b) := by
  intro xs
  induction xs with
  | nil =>
    intro f g a b ys ha hb
    have ha2 : a = [] := by
      cases f <;> simp only [reachSpec, Option.some.injEq] at ha <;> exact ha.symm
    subst ha2
    exact ⟨g, hb⟩
  | cons n rest ih =>
    intro f g a b ys ha hb
    cases n with
    | m u =>
      obtain ⟨f1, rfl⟩ : ∃ f1, f = f1 + 1 :=
        ⟨f - 1, by cases f with | zero => exact absurd ha (by simp [reachSpec]) | succ f => rfl⟩
      simp only [reachSpec] at ha
      cases hr : reachSpec s f1 rest with
      | none => rw [hr] at ha; simp at ha
      | some lr =>
        rw [hr] at ha
        simp only [Option.map_some', Option.some.injEq] at ha
        obtain ⟨F, hF⟩ := ih f1 g lr b ys hr hb
        refine ⟨F + 1, ?_⟩
        simp only [List.cons_append, List.append_eq, reachSpec, hF]
        rw [← ha]
        rfl
    | c u =>
      obtain ⟨f1, rfl⟩ : ∃ f1, f = f1 + 1 :=
        ⟨f - 1, by cases f with | zero => exact absurd ha (by simp [reachSpec]) | succ f => rfl⟩
      simp only [reachSpec] at ha
      cases hra : reachSpec s f1 (replGet s u) with
      | none => rw [hra] at ha; simp at ha
      | some ra =>
        rw [hra] at ha
        cases hr : reachSpec s f1 rest with
        | none => rw [hr] at ha; simp at ha
        | some lr =>
          rw [hr] at ha
          simp only [Option.some.injEq] at ha
          obtain ⟨F, hF⟩ := ih f1 g lr b ys hr hb
          refine ⟨max F f1 + 1, ?_⟩
          simp only [List.cons_append, List.append_eq, reachSpec]
          rw [reachSpec_ge s f1 (max F f1) (by omega) _ ra hra]
          rw [reachSpec_ge s F (max F f1) (by omega) _ _ hF]
          rw [← ha]
          simp

/-- The BFS flatten enumerates the same nodes as the depth-first
reachability enumeration, as a multiset. -/
theorem bfs_reach_perm (s : FState) : ∀ (fb : Nat) (q : List NodeId) (l1 : List NodeId),
    bfsListF s fb q = some l1 → ∀ (fr : Nat) (l2 : List NodeId),
    reachSpec s fr q = some l2 → l1.Perm l2 := by
  intro fb
  induction fb with
  | zero =>
    intro q l1 hb fr l2 hr
    cases q with
    | nil =>
      cases hb
      have : l2 = [] := by
        cases fr <;> simp only [reachSpec, Option.some.injEq] at hr <;> exact hr.symm
      subst this
      exact List.Perm.refl _
    | cons n rest => exact absurd hb (by cases n <;> simp [bfsListF])
  | succ fb ih =>
    intro q l1 hb fr l2 hr
    cases q with
    | nil =>
      cases hb
      have : l2 = [] := by
        cases fr <;> simp only [reachSpec, Option.some.injEq] at hr <;> exact hr.symm
      subst this
      exact List.Perm.refl _
    | cons n rest =>
      obtain ⟨fr1, rfl⟩ : ∃ g, fr = g + 1 :=
        ⟨fr - 1, by
          cases fr with
          | zero => exact absurd hr (by cases n <;> simp [reachSpec])
          | succ g => rfl⟩
      cases n with
      | m u =>
        simp only [bfsListF] at hb
        cases hbr : bfsListF s fb rest with
        | none => rw [hbr] at hb; simp at hb
        | some lb =>
          rw [hbr] at hb
          simp only [Option.map_some', Option.some.injEq] at hb
          simp only [reachSpec] at hr
          cases hrr : reachSpec s fr1 rest with
          | none => rw [hrr] at hr; simp at hr
          | some lr =>
            rw [hrr] at hr
            simp only [Option.map_some', Option.some.injEq] at hr
            rw [← hb, ← hr]
            exact List.Perm.cons _ (ih rest lb hbr fr1 lr hrr)
      | c u =>
        simp only [bfsListF] at hb
        cases hbr : bfsListF s fb (rest ++ replGet s u) with
        | none => rw [hbr] at hb; simp at hb
        | some lb =>
          rw [hbr] at hb
          simp only [Option.map_some', Option.some.injEq] at hb
          simp only [reachSpec] at hr
          cases hra : reachSpec s fr1 (replGet s u) with
          | none => rw [hra] at hr; simp at hr
          | some ra =>
            rw [hra] at hr
            cases hrb : reachSpec s fr1 rest with
            | none => rw [hrb] at hr; simp at hr
            | some rb =>
              rw [hrb] at hr
              simp only [Option.some.injEq] at hr
              obtain ⟨F, hF⟩ :=
                reachSpec_append_intro s rest fr1 fr1 rb ra (replGet s u) hrb hra
              have hperm := ih (rest ++ replGet s u) lb hbr F (rb ++ ra) hF
              rw [← hb, ← hr]
              refine List.Perm.cons _ (hperm.trans ?_)
              exact List.perm_append_comm

/-- C7: `list()` (comment_forest.py lines 115-131) yields exactly the nodes
reachable from the forest's top-level sequence by walking Comment to
replies, never descending into a placeholder (`reachSpec`, the reference
enumeration modelled from the spec), as a permutation (BFS versus
depth-first order); in particular the number of yielded nodes equals the
number of nodes present in the tree. The operation is a pure function of
the state: it mutates neither the forest nor any node. -/
theorem flatten_reachable_perm (s : FState) (f1 f2 : Nat) (l1 l2 : List NodeId)
    (hb : forestList s f1 = some l1) (hr : reachSpec s f2 s.top = some l2) :
    l1.Perm l2 ∧ l1.length = l2.length := by
  have hp := bfs_reach_perm s f1 s.top l1 hb f2 l2 hr
  exact ⟨hp, hp.length_eq⟩

/-- C7 witness: a forest with one root comment holding a reply comment and
a placeholder, plus a top-level placeholder; BFS flatten and depth-first
reachability agree up to order and count. -/
theorem flatten_reachable_perm_witness :
    forestList (initState [PNode.comment "a" "" true
        [PNode.comment "b" "t1_a" false [], PNode.more "mm" 3], PNode.more "nn" 2]) 10
      = some [.c 0, .m 3, .c 1, .m 2]
    ∧ ([NodeId.c 0, .m 3, .c 1, .m 2].Perm [NodeId.c 0, .c 1, .m 2, .m 3]
        ∧ ([NodeId.c 0, .m 3, .c 1, .m 2] : List NodeId).length
            = ([NodeId.c 0, .c 1, .m 2, .m 3] : List NodeId).length) :=
  ⟨by rfl,
   flatten_reachable_perm
     (initState [PNode.comment "a" "" true
       [PNode.comment "b" "t1_a" false [], PNode.more "mm" 3], PNode.more "nn" 2])
     10 10 [.c 0, .m 3, .c 1, .m 2] [.c 0, .c 1, .m 2, .m 3] (by rfl) (by rfl)⟩

/-- Specification of a pop: the popped element is the earliest element of
maximal pending count; everything before it in insertion order is strictly
smaller, everything after it at most as large. -/
theorem popMax_spec (h : List MoreObj) (x : MoreObj) (r : List MoreObj)
    (hp : popMax h = some (x, r)) :
    ∃ a b, h = a ++ x :: b ∧ r = a ++ b
      ∧ (∀ y ∈ a, y.count < x.count) ∧ (∀ y ∈ b, y.count ≤ x.count) := by
  induction h generalizing x r with
  | nil => exact absurd hp (by simp [popMax])
  | cons z zs ih =>
    simp only [popMax] at hp
    cases hz : popMax zs with
    | none =>
      rw [hz] at hp
      have hnil : zs = [] := (popMax_none zs).1 hz
      subst hnil
      simp only [Option.some.injEq, Prod.mk.injEq] at hp
      exact ⟨[], [], by simp [hp.1.symm], hp.2.symm, by simp, by simp⟩
    | some p =>
      obtain ⟨y, ys⟩ := p
      rw [hz] at hp
      obtain ⟨a, b, hsplit, hr, hlt, hle⟩ := ih y ys hz
      by_cases hc : z.count < y.count
      · simp only [if_pos hc, Option.some.injEq, Prod.mk.injEq] at hp
        obtain ⟨rfl, rfl⟩ := hp
        refine ⟨z :: a, b, by simp [hsplit], by simp [hr], ?_, hle⟩
        intro w hw
        rcases List.mem_cons.1 hw with rfl | hw2
        · exact hc
        · exact hlt w hw2
      · simp only [if_neg hc, Option.some.injEq, Prod.mk.injEq] at hp
        obtain ⟨rfl, rfl⟩ := hp
        refine ⟨[], zs, rfl, rfl, by simp, ?_⟩
        intro w hw
        rw [hsplit] at hw
        rcases List.mem_append.1 hw with hw2 | hw3
        · exact le_of_lt (lt_of_lt_of_le (hlt w hw2) (by omega))
        · rcases List.mem_cons.1 hw3 with rfl | hw4
          · omega
          · exact le_trans (hle w hw4) (by omega)

/-- The pop sequence is a permutation of the collection. -/
theorem sortPop_perm (n : Nat) : ∀ h : List MoreObj, h.length = n → (sortPop h).Perm h := by
  induction n with
  | zero =>
    intro h hl
    have : h = [] := List.length_eq_zero.1 hl
    subst this
    exact List.Perm.refl _
  | succ n ih =>
    intro h hl
    cases hp : popMax h with
    | none =>
      have : h = [] := (popMax_none h).1 hp
      subst this
      simp at hl
    | some p =>
      obtain ⟨x, r⟩ := p
      rw [sortPop_eq_pop h x r hp]
      have hlen := popMax_length h x r hp
      obtain ⟨a, b, rfl, rfl, _, _⟩ := popMax_spec h x r hp
      exact (List.Perm.cons x (ih (a ++ b) (by omega))).trans List.perm_middle.symm

/-- The pop sequence is sorted by pending count, descending. -/
theorem sortPop_sorted (n : Nat) : ∀ h : List MoreObj, h.length = n →
    (sortPop h).Pairwise (fun x y => y.count ≤ x.count) := by
  induction n with
  | zero =>
    intro h hl
    have : h = [] := List.length_eq_zero.1 hl
    subst this
    simp [sortPop_nil]
  | succ n ih =>
    intro h hl
    cases hp : popMax h with
    | none =>
      have : h = [] := (popMax_none h).1 hp
      subst this
      simp at hl
    | some p =>
      obtain ⟨x, r⟩ := p
      rw [sortPop_eq_pop h x r hp]
      have hlen := popMax_length h x r hp
      refine List.pairwise_cons.2 ⟨?_, ih r (by omega)⟩
      intro y hy
      have hy2 : y ∈ r := ((sortPop_perm r.length r rfl).mem_iff).1 hy
      obtain ⟨a, b, _, hr, hlt, hle⟩ := popMax_spec h x r hp
      rw [hr] at hy2
      rcases List.mem_append.1 hy2 with hw | hw
      · exact le_of_lt (hlt y hw)
      · exact hle y hw

/-- The pop sequence is stable: elements of any fixed pending count appear
in their insertion order. -/
theorem sortPop_stable (n : Nat) : ∀ h : List MoreObj, h.length = n → ∀ c : Nat,
    (sortPop h).filter (fun mo => mo.count == c) = h.filter (fun mo => mo.count == c) := by
  induction n with
  | zero =>
    intro h hl c
    have : h = [] := List.length_eq_zero.1 hl
    subst this
    simp [sortPop_nil]
  | succ n ih =>
    intro h hl c
    cases hp : popMax h with
    | none =>
      have : h = [] := (popMax_none h).1 hp
      subst this
      simp at hl
    | some p =>
      obtain ⟨x, r⟩ := p
      rw [sortPop_eq_pop h x r hp]
      have hlen := popMax_length h x r hp
      obtain ⟨a, b, hsplit, hr, hlt, hle⟩ := popMax_spec h x r hp
      have hfa : ∀ d : Nat, x.count = d →
          a.filter (fun mo => mo.count == d) = [] := by
        intro d hd
        rw [List.filter_eq_nil_iff]
        intro y hy
        have := hlt y hy
        simp only [beq_iff_eq]
        omega
      by_cases hc : x.count = c
      · rw [List.filter_cons_of_pos (by simp [hc])]
        rw [ih r (by omega) c]
        rw [hsplit, hr]
        rw [List.filter_append, List.filter_append, hfa c hc]
        rw [List.filter_cons_of_pos (by simp [hc])]
        simp
      · rw [List.filter_cons_of_neg (by simp [hc])]
        rw [ih r (by omega) c]
        rw [hsplit, hr]
        rw [List.filter_append, List.filter_append]
        rw [List.filter_cons_of_neg (by simp [hc])]

theorem moreFreePL_iff (ps : List PNode) :
    moreFreePL ps = true ↔ ∀ t ∈ ps, moreFreeP t = true := by
  induction ps with
  | nil => simp [moreFreePL]
  | cons t ts ih =>
    show (moreFreeP t && moreFreePL ts) = true ↔ _
    rw [Bool.and_eq_true, ih]
    simp

mutual

/-- A placeholder-free raw tree loads to a tree with no placeholders to
enumerate. -/
theorem dfsMores_moreFree (p : PNode) :
    ∀ (k : Nat) (po : Option Nat), moreFreeP p = true → dfsMores po (loadTree p k).1 = [] := by
  cases p with
  | more nm c =>
    intro k po hmf
    exact absurd hmf (by simp [moreFreeP])
  | comment nm pid rt reps =>
    intro k po hmf
    show dfsMoresL (some k) (loadList reps (k + 1)).1 = []
    exact dfsMoresL_moreFree reps (k + 1) (some k) hmf

/-- Forest version of `dfsMores_moreFree`. -/
theorem dfsMoresL_moreFree (ps : List PNode) :
    ∀ (k : Nat) (po : Option Nat), moreFreePL ps = true → dfsMoresL po (loadList ps k).1 = [] := by
  cases ps with
  | nil => intro k po _; rfl
  | cons t ts =>
    intro k po hmf
    have hmf2 : moreFreeP t = true ∧ moreFreePL ts = true := by
      have hh : (moreFreeP t && moreFreePL ts) = true := hmf
      rw [Bool.and_eq_true] at hh
      exact hh
    obtain ⟨h1, h2⟩ := hmf2
    show dfsMores po (loadTree t k).1 ++ dfsMoresL po (loadList ts (loadTree t k).2).1 = []
    rw [dfsMores_moreFree t k po h1, dfsMoresL_moreFree ts (loadTree t k).2 po h2]
    rfl

end

/-- A fetch returning only comments discovers no placeholder. -/
theorem fetchG_moreFree (cfg : Cfg) (s : FState) (item : MoreObj)
    (hmf : moreFreePL (cfg.fetch item.name) = true) : fetchG cfg s item = [] := by
  have hperm := gatherQ_perm ((fetchLns cfg s item).map (fun t => ((none : Option Nat), t)))
  rw [dfsQ_mapP] at hperm
  have hnil : dfsMoresL none (fetchLns cfg s item) = [] :=
    dfsMoresL_moreFree (cfg.fetch item.name) s.next none hmf
  rw [hnil] at hperm
  exact hperm.eq_nil

/-- Trace of a completed run with a comment-only fetch collaborator: the
events are exactly the budget walk along the stable descending pop order of
the collection (no placeholder is ever pushed mid-run). -/
theorem loopF_trace_moreFree (cfg : Cfg)
    (hmf : ∀ nm, moreFreePL (cfg.fetch nm) = true) :
    ∀ (fuel : Nat) (h : List MoreObj) (rem : Option Int) (s : FState)
      (sk : List MoreObj) (tr : List CEv) (res : List MoreObj) (sF : FState)
      (trF : List CEv),
    loopF cfg fuel h rem s sk tr = some (.ok (res, sF, trF)) →
    trF = tr ++ budgetTrace rem cfg.threshold (sortPop h) := by
  intro fuel
  induction fuel with
  | zero =>
    intro h rem s sk tr res sF trF hrun
    cases hp : popMax h with
    | none =>
      have hnil : h = [] := (popMax_none h).1 hp
      subst hnil
      simp only [loopF, stepF, popMax] at hrun
      simp only [Option.some.injEq, Except.ok.injEq, Prod.mk.injEq] at hrun
      rw [← hrun.2.2]
      simp [sortPop_nil, budgetTrace]
    | some p =>
      obtain ⟨item, rest⟩ := p
      by_cases hsc : skipCond rem cfg.threshold item.count
      · cases hrm : removeNode s item.uid with
        | error e => simp [loopF, stepF, hp, hsc, hrm] at hrun
        | ok s1 => simp [loopF, stepF, hp, hsc, hrm] at hrun
      · cases hf : fetchStep cfg s item with
        | error e => simp [loopF, stepF, hp, hsc, hf] at hrun
        | ok pr =>
          obtain ⟨ps, s1⟩ := pr
          simp [loopF, stepF, hp, hsc, hf] at hrun
  | succ fuel ih =>
    intro h rem s sk tr res sF trF hrun
    cases hp : popMax h with
    | none =>
      have hnil : h = [] := (popMax_none h).1 hp
      subst hnil
      simp only [loopF, stepF, popMax] at hrun
      simp only [Option.some.injEq, Except.ok.injEq, Prod.mk.injEq] at hrun
      rw [← hrun.2.2]
      simp [sortPop_nil, budgetTrace]
    | some p =>
      obtain ⟨item, rest⟩ := p
      rw [sortPop_eq_pop h item rest hp]
      by_cases hsc : skipCond rem cfg.threshold item.count
      · cases hrm : removeNode s item.uid with
        | error e => simp [loopF, stepF, hp, hsc, hrm] at hrun
        | ok s1 =>
          simp only [loopF, stepF, hp, hsc, if_true, hrm] at hrun
          have := ih rest rem s1 (sk ++ [item]) (tr ++ [.skipped item]) res sF trF hrun
          rw [this]
          simp only [budgetTrace, hsc, if_true]
          simp
      · cases hf : fetchStep cfg s item with
        | error e => simp [loopF, stepF, hp, hsc, hf] at hrun
        | ok pr =>
          obtain ⟨ps, s1⟩ := pr
          have hps : ps = [] := by
            obtain ⟨s3, _, _, hps⟩ := fetchStep_ok_inv cfg s item ps s1 hf
            rw [hps, fetchG_moreFree cfg s item (hmf item.name)]
            rfl
          subst hps
          have hscf : skipCond rem cfg.threshold item.count = false := by
            cases hx : skipCond rem cfg.threshold item.count
            · rfl
            · exact absurd hx hsc
          simp only [loopF, stepF, hp, hscf, Bool.false_eq_true, if_false, hf,
            List.append_nil] at hrun
          have := ih rest (rem.map (fun r => r - 1)) s1 sk (tr ++ [.fetched item]) res sF trF hrun
          rw [this]
          simp only [budgetTrace, hsc, if_false]
          simp

/-- C1 counterexample: on the forest [5, 5] whose first fetch returns a new
placeholder of count 20, the fetch order is 5, 20, 5 - neither strictly
descending nor descending at all - because a placeholder discovered mid-run
can outweigh the placeholders still queued, and equal counts repeat. -/
theorem replace_more_priority_order_cex :
    (replaceMore (fun nm => if nm = "m1" then [PNode.more "m3" 20] else []) none 0
        [PNode.more "m1" 5, PNode.more "m2" 5] 10).map
      (fun r => match r with
        | .ok (_, _, tr) => some (tr.filterMap (fun e => match e with
            | .fetched mo => some mo.count
            | .skipped _ => none))
        | .error _ => none)
      = some (some [5, 20, 5])
    ∧ ¬ ([5, 20, 5] : List Nat).Pairwise (fun a b => b < a) := by
  constructor
  · rfl
  · intro hp
    have := (List.pairwise_cons.1 hp).1 20 (by simp)
    omega

/-- C1 (amended): fetches are issued in stable descending priority order of
the collection itself - a pop always returns the earliest-inserted
placeholder of maximal pending count, and popping a fixed collection to
exhaustion yields its elements with counts non-increasing and equal counts
in insertion order. Globally, in every completed run whose fetches return
no nested placeholder (so nothing is pushed mid-run), the event trace is
exactly the budget walk along that stable descending order of the initially
gathered placeholders. (The unamended global claim fails when a fetch
discovers a new placeholder with a larger count, see the counterexample.) -/
theorem replace_more_priority_order :
    (∀ (h : List MoreObj) (x : MoreObj) (r : List MoreObj), popMax h = some (x, r) →
      ∃ a b, h = a ++ x :: b ∧ r = a ++ b
        ∧ (∀ y ∈ a, y.count < x.count) ∧ (∀ y ∈ b, y.count ≤ x.count))
    ∧ (∀ h : List MoreObj, (sortPop h).Pairwise (fun x y => y.count ≤ x.count))
    ∧ (∀ (h : List MoreObj) (c : Nat),
        (sortPop h).filter (fun mo => mo.count == c)
          = h.filter (fun mo => mo.count == c))
    ∧ (∀ (fetch : String → List PNode) (limit : Option Int) (th : Int)
        (init : List PNode) (fuel : Nat) (res : List MoreObj) (sF : FState)
        (trF : List CEv),
        (∀ nm, moreFreePL (fetch nm) = true) →
        replaceMore fetch limit th init fuel = some (.ok (res, sF, trF)) →
        trF = budgetTrace limit th (sortPop ((gatherInit init).map (fun pm => pm.2)))) := by
  refine ⟨popMax_spec, fun h => sortPop_sorted h.length h rfl,
    fun h c => sortPop_stable h.length h rfl c, ?_⟩
  intro fetch limit th init fuel res sF trF hmf hrun
  simp only [replaceMore] at hrun
  have := loopF_trace_moreFree ⟨fetch, th⟩ hmf fuel
    ((gatherInit init).map (fun pm => pm.2)) limit
    (applyGather (initState init) (gatherInit init) CRef.topLevel) [] []
    res sF trF hrun
  simpa using this

/-- C1 witness: the spec's own example - pending counts [5, 50, 1, 20] with
a comment-only collaborator are fetched in the order 50, 20, 5, 1. -/
theorem replace_more_priority_order_witness :
    replaceMore (fun _ => []) (some 32) 0
        [PNode.more "m1" 5, PNode.more "m2" 50, PNode.more "m3" 1, PNode.more "m4" 20] 10
      = some (.ok ([],
          ⟨[], [], [],
            [(3, .topLevel), (2, .topLevel), (1, .topLevel), (0, .topLevel)],
            [[], [], [], []], 4⟩,
          [.fetched ⟨1, "m2", 50⟩, .fetched ⟨3, "m4", 20⟩,
           .fetched ⟨0, "m1", 5⟩, .fetched ⟨2, "m3", 1⟩]))
    ∧ [CEv.fetched ⟨1, "m2", 50⟩, .fetched ⟨3, "m4", 20⟩,
       .fetched ⟨0, "m1", 5⟩, .fetched ⟨2, "m3", 1⟩]
      = budgetTrace (some 32) 0 (sortPop ((gatherInit
          [PNode.more "m1" 5, PNode.more "m2" 50, PNode.more "m3" 1,
           PNode.more "m4" 20]).map (fun pm => pm.2))) :=
  ⟨by rfl,
   replace_more_priority_order.2.2.2 (fun _ => []) (some 32) 0
     [PNode.more "m1" 5, PNode.more "m2" 50, PNode.more "m3" 1, PNode.more "m4" 20]
     10 []
     ⟨[], [], [],
       [(3, .topLevel), (2, .topLevel), (1, .topLevel), (0, .topLevel)],
       [[], [], [], []], 4⟩
     [.fetched ⟨1, "m2", 50⟩, .fetched ⟨3, "m4", 20⟩,
      .fetched ⟨0, "m1", 5⟩, .fetched ⟨2, "m3", 1⟩]
     (fun _ => by rfl) (by rfl)⟩

/-- Occurrences of a node reference across the live containers of the
forest: the top-level list and every comment's replies list (the throwaway
fetch lists are not part of the forest). -/
def occOf (s : FState) (x : NodeId) : Nat :=
  s.top.count x + (s.repl.map (fun e => e.2.count x)).sum

theorem removeFirst_of_count_pos (x : NodeId) :
    ∀ l : List NodeId, 1 ≤ l.count x →
    ∃ l2, removeFirst l x = some l2 ∧ l2.count x + 1 = l.count x
      ∧ (∀ y : NodeId, y ≠ x → l2.count y = l.count y) := by
  intro l
  induction l with
  | nil => intro hc; simp at hc
  | cons z zs ih =>
    intro hc
    by_cases hz : z = x
    · subst hz
      refine ⟨zs, by simp [removeFirst], ?_, ?_⟩
      · rw [List.count_cons_self]
      · intro y hy
        have hzy : ¬ z = y := fun h => hy h.symm
        simp [List.count_cons, hzy]
    · have hc2 : 1 ≤ zs.count x := by
        simp only [List.count_cons, hz, if_false, beq_iff_eq, add_zero] at hc
        exact hc
      obtain ⟨l2, hrm, hcnt, hoth⟩ := ih hc2
      refine ⟨z :: l2, ?_, ?_, ?_⟩
      · simp [removeFirst, hz, hrm]
      · simp only [List.count_cons, beq_iff_eq, hz, if_false, add_zero]
        exact hcnt
      · intro y hy
        simp only [List.count_cons, hoth y hy]

theorem alook_aset_same {α β : Type} [DecidableEq α] (l : List (α × β)) (k : α) (v : β) :
    alook (aset l k v) k = some v := by
  induction l with
  | nil => simp [aset, alook]
  | cons e l ih =>
    obtain ⟨a, b⟩ := e
    by_cases ha : a = k
    · simp [aset, ha, alook]
    · simp only [aset, if_neg ha, alook]
      exact ih

theorem alook_aset_ne {α β : Type} [DecidableEq α] (l : List (α × β)) (k k2 : α) (v : β)
    (hne : k ≠ k2) : alook (aset l k v) k2 = alook l k2 := by
  induction l with
  | nil => simp [aset, alook, hne]
  | cons e l ih =>
    obtain ⟨a, b⟩ := e
    by_cases ha : a = k
    · subst ha
      simp [aset, alook, hne]
    · simp only [aset, if_neg ha, alook]
      by_cases ha2 : a = k2
      · simp [ha2]
      · rw [if_neg ha2, if_neg ha2]
        exact ih

theorem aset_keys {α β : Type} [DecidableEq α] (l : List (α × β)) (k : α) (v : β) :
    (aset l k v).map (fun e => e.1) = if k ∈ l.map (fun e => e.1)
      then l.map (fun e => e.1) else l.map (fun e => e.1) ++ [k] := by
  induction l with
  | nil => simp [aset]
  | cons e l ih =>
    obtain ⟨a, b⟩ := e
    by_cases ha : a = k
    · subst ha
      simp [aset]
    · have hka : ¬ k = a := fun h => ha h.symm
      simp only [aset, if_neg ha, List.map_cons, ih, List.mem_cons, hka, false_or]
      by_cases hm : k ∈ l.map (fun e => e.1)
      · simp [hm]
      · simp [hm]

/-- Sum of a function over the values of an association list after an
update: the old value of the key is swapped for the new one (the key's
first entry when keys are distinct; a fresh entry otherwise). -/
theorem aset_sum_count (x : NodeId) :
    ∀ (l : List (Nat × List NodeId)) (k : Nat) (v : List NodeId),
    (l.map (fun e => e.1)).Nodup →
    ((aset l k v).map (fun e => e.2.count x)).sum + ((alook l k).getD []).count x
      = (l.map (fun e => e.2.count x)).sum + v.count x := by
  intro l
  induction l with
  | nil => intro k v _; simp [aset, alook]
  | cons e l ih =>
    intro k v hnd
    obtain ⟨a, b⟩ := e
    by_cases ha : a = k
    · subst ha
      simp [aset, alook]
      omega
    · simp only [aset, if_neg ha, alook, if_neg ha, List.map_cons, List.sum_cons]
      have hnd2 := (List.nodup_cons.1 hnd).2
      have := ih k v hnd2
      omega

theorem replGet_aset_same (s : FState) (u : Nat) (l : List NodeId) :
    replGet (setC s (.replies u) l) u = l := by
  show (alook (aset s.repl u l) u).getD [] = l
  rw [alook_aset_same]
  rfl

theorem getC_setC_ne (s : FState) (c c2 : CRef) (l : List NodeId) (hne : c ≠ c2) :
    getC (setC s c l) c2 = getC s c2 := by
  cases c with
  | topLevel =>
    cases c2 with
    | topLevel => exact absurd rfl hne
    | replies u => rfl
    | temp k => rfl
  | replies u =>
    cases c2 with
    | topLevel => rfl
    | replies u2 =>
      have hu : u ≠ u2 := fun h => hne (by rw [h])
      show (alook (aset s.repl u l) u2).getD [] = (alook s.repl u2).getD []
      rw [alook_aset_ne s.repl u u2 l hu]
    | temp k => rfl
  | temp k =>
    cases c2 with
    | topLevel => rfl
    | replies u => rfl
    | temp k2 =>
      have hk : k ≠ k2 := fun h => hne (by rw [h])
      show (s.temps.set k l).getD k2 [] = s.temps.getD k2 []
      rw [List.getD_eq_getElem?_getD, List.getD_eq_getElem?_getD,
        List.getElem?_set_ne hk]

/-- Occurrence count across the forest after overwriting one live
container. -/
theorem occOf_setC (s : FState) (c : CRef) (l : List NodeId) (x : NodeId)
    (hnd : (s.repl.map (fun e => e.1)).Nodup) :
    occOf (setC s c l) x + (getC s c).count x = occOf s x + l.count x
      ∨ (∃ k, c = CRef.temp k ∧ occOf (setC s c l) x = occOf s x) := by
  cases c with
  | topLevel =>
    left
    simp only [occOf, setC, getC]
    omega
  | replies u =>
    left
    have haux := aset_sum_count x s.repl u l hnd
    simp only [occOf, setC, getC, replGet]
    omega
  | temp k =>
    right
    exact ⟨k, rfl, rfl⟩

/-- Occurrences of a node reference across a set of replies-list entries. -/
def occEntries (entries : List (Nat × List NodeId)) (x : NodeId) : Nat :=
  (entries.map (fun e => e.2.count x)).sum

theorem occEntries_append (e1 e2 : List (Nat × List NodeId)) (x : NodeId) :
    occEntries (e1 ++ e2) x = occEntries e1 x + occEntries e2 x := by
  simp [occEntries]

mutual

/-- Counting identity for a loaded tree: the placeholder `u` occurs in the
tree's own node reference plus its declared replies entries exactly as
often as the placeholder enumeration lists it. -/
theorem occ_dfs_tree (t : LNode) : ∀ (po : Option Nat) (u : Nat),
    ([nodeIdOf t].count (.m u)) + occEntries (declTree t) (.m u)
      = (dfsMores po t).countP (fun pm => pm.2.uid == u) := by
  cases t with
  | more u0 nm c =>
    intro po u
    show ([NodeId.m u0].count (.m u)) + occEntries [] (.m u)
      = ([(po, (⟨u0, nm, c⟩ : MoreObj))].countP (fun pm => pm.2.uid == u))
    by_cases hu : u0 = u
    · subst hu
      simp [occEntries, List.countP_cons]
    · simp [occEntries, List.countP_cons, hu, List.count_cons,
        (show ¬ (NodeId.m u0 = NodeId.m u) from fun h => hu (by cases h; rfl))]
  | comment u0 nm pid rt reps =>
    intro po u
    show ([NodeId.c u0].count (.m u))
        + occEntries ((u0, reps.map nodeIdOf) :: declList reps) (.m u)
      = (dfsMoresL (some u0) reps).countP (fun pm => pm.2.uid == u)
    have := occ_dfs_list reps (some u0) u
    simp only [occEntries, List.map_cons, List.sum_cons] at this ⊢
    simp only [List.count_cons, List.count_nil]
    simp
    omega

/-- Forest version of `occ_dfs_tree`. -/
theorem occ_dfs_list (ts : List LNode) : ∀ (po : Option Nat) (u : Nat),
    ((ts.map nodeIdOf).count (.m u)) + occEntries (declList ts) (.m u)
      = (dfsMoresL po ts).countP (fun pm => pm.2.uid == u) := by
  cases ts with
  | nil => intro po u; rfl
  | cons t ts =>
    intro po u
    show ((nodeIdOf t :: ts.map nodeIdOf).count (.m u))
        + occEntries (declTree t ++ declList ts) (.m u)
      = (dfsMores po t ++ dfsMoresL po ts).countP (fun pm => pm.2.uid == u)
    have h1 := occ_dfs_tree t po u
    have h2 := occ_dfs_list ts po u
    rw [occEntries_append, List.countP_append]
    simp only [List.count_cons, List.count_nil] at h1 ⊢
    simp at h1 ⊢
    omega

end

/-- Placeholder identities of a freshly loaded forest's enumeration are
pairwise distinct. -/
theorem dfsLoaded_uids_nodup (ps : List PNode) (k : Nat) :
    ((dfsMoresL none (loadList ps k).1).map (fun pm => pm.2.uid)).Nodup := by
  refine List.Nodup.sublist (dfsMoresL_uids_sub none (loadList ps k).1) ?_
  show (uidsTs (loadList ps k).1).Nodup
  rw [(loadList_spec ps k).2]
  exact List.nodup_range' _ _ _ one_pos

/-- Gather over a freshly loaded forest has pairwise distinct identities. -/
theorem gatherLoaded_uids_nodup (ps : List PNode) (k : Nat) :
    ((gatherQ ((loadList ps k).1.map (fun t => ((none : Option Nat), t)))).map
      (fun pm => pm.2.uid)).Nodup := by
  have hperm := (gatherQ_perm ((loadList ps k).1.map
    (fun t => ((none : Option Nat), t)))).map (fun pm => pm.2.uid)
  rw [dfsQ_mapP] at hperm
  exact hperm.nodup_iff.2 (dfsLoaded_uids_nodup ps k)

theorem countP_uid_eq_count (u : Nat) : ∀ l : List (Option Nat × MoreObj),
    l.countP (fun pm => pm.2.uid == u) = (l.map (fun pm => pm.2.uid)).count u := by
  intro l
  induction l with
  | nil => rfl
  | cons pm l ih =>
    rw [List.countP_cons, List.map_cons, List.count_cons, ih]

/-- A member of a duplicate-free enumeration is counted exactly once. -/
theorem countP_eq_one_of_mem (l : List (Option Nat × MoreObj)) (po : Option Nat)
    (mo : MoreObj) (hnd : (l.map (fun pm => pm.2.uid)).Nodup) (hm : (po, mo) ∈ l) :
    l.countP (fun pm => pm.2.uid == mo.uid) = 1 := by
  rw [countP_uid_eq_count]
  exact List.count_eq_one_of_mem hnd (List.mem_map_of_mem (fun pm => pm.2.uid) hm)

theorem alook_append_left {α β : Type} [DecidableEq α] (l1 l2 : List (α × β)) (k : α)
    (v : β) (h : alook l1 k = some v) : alook (l1 ++ l2) k = some v := by
  rw [alook_append, h]
  rfl

theorem alook_append_right {α β : Type} [DecidableEq α] (l1 l2 : List (α × β)) (k : α)
    (h : ∀ e ∈ l1, e.1 ≠ k) : alook (l1 ++ l2) k = alook l2 k := by
  rw [alook_append, alook_notmem l1 k h]
  rfl

mutual

/-- Keys of a tree's declared replies entries are among its identities. -/
theorem declTree_keys_sub (t : LNode) :
    ((declTree t).map (fun e => e.1)).Sublist (uidsT t) := by
  cases t with
  | more u nm c => exact List.nil_sublist _
  | comment u nm pid rt reps =>
    show (u :: (declList reps).map (fun e => e.1)).Sublist (u :: uidsTs reps)
    exact List.Sublist.cons₂ u (declList_keys_sub reps)

/-- Forest version of `declTree_keys_sub`. -/
theorem declList_keys_sub (ts : List LNode) :
    ((declList ts).map (fun e => e.1)).Sublist (uidsTs ts) := by
  cases ts with
  | nil => exact List.nil_sublist _
  | cons t ts =>
    show (((declTree t) ++ declList ts).map (fun e => e.1)).Sublist (uidsT t ++ uidsTs ts)
    rw [List.map_append]
    exact (declTree_keys_sub t).append (declList_keys_sub ts)

end

mutual

/-- Under a comment parent, every enumerated placeholder has some parent. -/
theorem dfsMores_parent_some (t : LNode) : ∀ (q : Nat) (pm : Option Nat × MoreObj),
    pm ∈ dfsMores (some q) t → ∃ p, pm.1 = some p := by
  cases t with
  | more u nm c =>
    intro q pm hm
    simp only [dfsMores, List.mem_singleton] at hm
    subst hm
    exact ⟨q, rfl⟩
  | comment u nm pid rt reps =>
    intro q pm hm
    exact dfsMoresL_parent_some reps u pm hm

/-- Forest version of `dfsMores_parent_some`. -/
theorem dfsMoresL_parent_some (ts : List LNode) : ∀ (q : Nat) (pm : Option Nat × MoreObj),
    pm ∈ dfsMoresL (some q) ts → ∃ p, pm.1 = some p := by
  cases ts with
  | nil => intro q pm hm; simp [dfsMoresL] at hm
  | cons t ts =>
    intro q pm hm
    rcases List.mem_append.1 hm with h1 | h2
    · exact dfsMores_parent_some t q pm h1
    · exact dfsMoresL_parent_some ts q pm h2

end

mutual

/-- A parentless enumerated placeholder is the tree's own root. -/
theorem dfsMores_root (t : LNode) : ∀ mo : MoreObj,
    (none, mo) ∈ dfsMores none t → nodeIdOf t = .m mo.uid := by
  cases t with
  | more u nm c =>
    intro mo hm
    simp only [dfsMores, List.mem_singleton, Prod.mk.injEq] at hm
    rw [hm.2]
    rfl
  | comment u nm pid rt reps =>
    intro mo hm
    obtain ⟨p, hp⟩ := dfsMoresL_parent_some reps u (none, mo) hm
    exact absurd hp (by simp)

/-- Forest version of `dfsMores_root`. -/
theorem dfsMoresL_root (ts : List LNode) : ∀ mo : MoreObj,
    (none, mo) ∈ dfsMoresL none ts → NodeId.m mo.uid ∈ ts.map nodeIdOf := by
  cases ts with
  | nil => intro mo hm; simp [dfsMoresL] at hm
  | cons t ts =>
    intro mo hm
    rcases List.mem_append.1 hm with h1 | h2
    · rw [List.map_cons, ← dfsMores_root t mo h1]
      exact List.mem_cons_self _ _
    · rw [List.map_cons]
      exact List.mem_cons_of_mem _ (dfsMoresL_root ts mo h2)

end

theorem alook_isSome_mem_keys {α β : Type} [DecidableEq α] (l : List (α × β)) (k : α)
    (v : β) (h : alook l k = some v) : k ∈ l.map (fun e => e.1) := by
  induction l with
  | nil => simp [alook] at h
  | cons e l ih =>
    obtain ⟨a, b⟩ := e
    by_cases hae : a = k
    · subst hae
      simp
    · simp only [alook, if_neg hae] at h
      rw [List.map_cons]
      exact List.mem_cons_of_mem _ (ih h)

mutual

/-- Placement of a parented placeholder within one loaded tree: its parent
keys a declared replies entry that contains it. -/
theorem placeT (t : LNode) : ∀ (p : Nat) (mo : MoreObj),
    (uidsT t).Nodup → (some p, mo) ∈ dfsMores none t →
    ∃ l, alook (declTree t) p = some l ∧ NodeId.m mo.uid ∈ l := by
  cases t with
  | more u nm c =>
    intro p mo _ hm
    simp [dfsMores] at hm
  | comment u nm pid rt reps =>
    intro p mo hnd hm
    have hnd2 : (u :: uidsTs reps).Nodup := hnd
    rcases placeL reps u p mo ((List.nodup_cons.1 hnd2).2)
        ((List.nodup_cons.1 hnd2).1) hm with ⟨hp, hmem⟩ | ⟨l, hal, hmem⟩
    · subst hp
      exact ⟨reps.map nodeIdOf, by simp [declTree, alook], hmem⟩
    · refine ⟨l, ?_, hmem⟩
      show alook ((u, reps.map nodeIdOf) :: declList reps) p = some l
      have hpin : p ∈ uidsTs reps :=
        (declList_keys_sub reps).subset (alook_isSome_mem_keys _ p l hal)
      have hpu : ¬ u = p := fun h => (List.nodup_cons.1 hnd2).1 (h ▸ hpin)
      simp only [alook, if_neg hpu]
      exact hal

/-- Placement within a loaded forest under a comment parent `q`: the
placeholder either sits at a root (parent `q`) or inside a declared entry. -/
theorem placeL (ts : List LNode) : ∀ (q p : Nat) (mo : MoreObj),
    (uidsTs ts).Nodup → q ∉ uidsTs ts → (some p, mo) ∈ dfsMoresL (some q) ts →
    (p = q ∧ NodeId.m mo.uid ∈ ts.map nodeIdOf)
      ∨ ∃ l, alook (declList ts) p = some l ∧ NodeId.m mo.uid ∈ l := by
  cases ts with
  | nil => intro q p mo _ _ hm; simp [dfsMoresL] at hm
  | cons t ts =>
    intro q p mo hnd hq hm
    have hnd0 : (uidsT t ++ uidsTs ts).Nodup := hnd
    rw [List.nodup_append] at hnd0
    have hq2 : q ∉ uidsTs ts := fun hqq => hq (by
      show q ∈ uidsT t ++ uidsTs ts
      exact List.mem_append.2 (Or.inr hqq))
    rcases List.mem_append.1 hm with h1 | h2
    · cases t with
      | more u nm c =>
        simp only [dfsMores, List.mem_singleton, Prod.mk.injEq, Option.some.injEq] at h1
        left
        refine ⟨h1.1, ?_⟩
        rw [List.map_cons, h1.2]
        exact List.mem_cons_self _ _
      | comment u nm pid rt reps =>
        have hndt : (u :: uidsTs reps).Nodup := hnd0.1
        rcases placeL reps u p mo (List.nodup_cons.1 hndt).2 (List.nodup_cons.1 hndt).1 h1
          with ⟨hp, hmem⟩ | ⟨l, hal, hmem⟩
        · subst hp
          right
          refine ⟨reps.map nodeIdOf, ?_, hmem⟩
          show alook (((p, reps.map nodeIdOf) :: declList reps) ++ declList ts) p = some _
          simp [alook]
        · right
          refine ⟨l, ?_, hmem⟩
          have hpin : p ∈ uidsTs reps :=
            (declList_keys_sub reps).subset (alook_isSome_mem_keys _ p l hal)
          have hup : ¬ u = p := fun h => (List.nodup_cons.1 hndt).1 (h ▸ hpin)
          show alook ((u, reps.map nodeIdOf) :: (declList reps ++ declList ts)) p = some l
          simp only [alook, if_neg hup]
          exact alook_append_left _ _ _ _ hal
    · rcases placeL ts q p mo hnd0.2.1 hq2 h2 with ⟨hp, hmem⟩ | ⟨l, hal, hmem⟩
      · left
        refine ⟨hp, ?_⟩
        rw [List.map_cons]
        exact List.mem_cons_of_mem _ hmem
      · right
        refine ⟨l, ?_, hmem⟩
        show alook (declTree t ++ declList ts) p = some l
        have hpin : p ∈ uidsTs ts :=
          (declList_keys_sub ts).subset (alook_isSome_mem_keys _ p l hal)
        have hnone : ∀ e ∈ declTree t, e.1 ≠ p := by
          intro e he heq
          have hei : e.1 ∈ uidsT t :=
            (declTree_keys_sub t).subset (List.mem_map_of_mem (fun ee => ee.1) he)
          exact hnd0.2.2 hei (heq ▸ hpin)
        rw [alook_append_right (declTree t) (declList ts) p hnone]
        exact hal

end

theorem alook_mem {α β : Type} [DecidableEq α] (l : List (α × β)) (k : α) (v : β)
    (h : alook l k = some v) : (k, v) ∈ l := by
  induction l with
  | nil => simp [alook] at h
  | cons e l ih =>
    obtain ⟨a, b⟩ := e
    by_cases hae : a = k
    · subst hae
      simp [alook] at h
      subst h
      exact List.mem_cons_self _ _
    · simp only [alook, if_neg hae] at h
      exact List.mem_cons_of_mem _ (ih h)

mutual

/-- Registered identities of a loaded tree are among its identities. -/
theorem regTree_vals_sub (t : LNode) :
    ((regTree t).map (fun e => e.2)).Sublist (uidsT t) := by
  cases t with
  | more u nm c => exact List.nil_sublist _
  | comment u nm pid rt reps =>
    show (u :: (regList reps).map (fun e => e.2)).Sublist (u :: uidsTs reps)
    exact List.Sublist.cons₂ u (regList_vals_sub reps)

/-- Forest version of `regTree_vals_sub`. -/
theorem regList_vals_sub (ts : List LNode) :
    ((regList ts).map (fun e => e.2)).Sublist (uidsTs ts) := by
  cases ts with
  | nil => exact List.nil_sublist _
  | cons t ts =>
    show ((regTree t ++ regList ts).map (fun e => e.2)).Sublist (uidsT t ++ uidsTs ts)
    rw [List.map_append]
    exact (regTree_vals_sub t).append (regList_vals_sub ts)

end

mutual

/-- An empty registration list means an empty declaration list. -/
theorem regTree_nil_decl (t : LNode) : regTree t = [] → declTree t = [] := by
  cases t with
  | more u nm c => intro _; rfl
  | comment u nm pid rt reps =>
    intro h
    exact absurd h (by simp [regTree])

/-- Forest version of `regTree_nil_decl`. -/
theorem regList_nil_decl (ts : List LNode) : regList ts = [] → declList ts = [] := by
  cases ts with
  | nil => intro _; rfl
  | cons t ts =>
    intro h
    have h2 : regTree t = [] ∧ regList ts = [] := by
      have : regTree t ++ regList ts = [] := h
      exact List.append_eq_nil.1 this
    show declTree t ++ declList ts = []
    rw [regTree_nil_decl t h2.1, regList_nil_decl ts h2.2]
    rfl

end

mutual

/-- A tree with registrations has a comment root. -/
theorem regTree_comment_root (t : LNode) : regTree t ≠ [] → ∃ u, nodeIdOf t = .c u := by
  cases t with
  | more u nm c => intro h; exact absurd rfl h
  | comment u nm pid rt reps => intro _; exact ⟨u, rfl⟩

/-- A forest with registrations has a comment among its roots. -/
theorem regList_comment_root (ts : List LNode) :
    regList ts ≠ [] → ∃ u, NodeId.c u ∈ ts.map nodeIdOf := by
  cases ts with
  | nil => intro h; exact absurd rfl h
  | cons t ts =>
    intro h
    by_cases ht : regTree t = []
    · have hts : regList ts ≠ [] := by
        intro hh
        apply h
        show regTree t ++ regList ts = []
        rw [ht, hh]
        rfl
      obtain ⟨u, hu⟩ := regList_comment_root ts hts
      exact ⟨u, by rw [List.map_cons]; exact List.mem_cons_of_mem _ hu⟩
    · obtain ⟨u, hu⟩ := regTree_comment_root t ht
      exact ⟨u, by rw [List.map_cons, ← hu]; exact List.mem_cons_self _ _⟩

end

mutual

/-- The self-parent sanity condition on raw nodes: no non-root comment
names itself as its own parent (checked through the whole tree). -/
def selfOkP : PNode → Bool
  | .more _ _ => true
  | .comment nm pid rt reps => (rt || decide (pid ≠ nm)) && selfOkPL reps

/-- Forest version of `selfOkP`. -/
def selfOkPL : List PNode → Bool
  | [] => true
  | t :: ts => selfOkP t && selfOkPL ts

end

/-- The self-parent sanity condition on a loaded root node. -/
def rootSelfOk : LNode → Prop
  | .more _ _ _ => True
  | .comment _ nm pid rt _ => rt = false → pid ≠ nm

theorem loadTree_rootSelfOk (p : PNode) (k : Nat) (h : selfOkP p = true) :
    rootSelfOk (loadTree p k).1 := by
  cases p with
  | more nm c => trivial
  | comment nm pid rt reps =>
    show rootSelfOk (.comment k nm pid rt (loadList reps (k + 1)).1)
    intro hrt
    have h2 : ((rt || decide (pid ≠ nm)) && selfOkPL reps) = true := h
    rw [Bool.and_eq_true, Bool.or_eq_true] at h2
    rcases h2.1 with h3 | h3
    · rw [hrt] at h3
      exact absurd h3 (by simp)
    · exact of_decide_eq_true h3

theorem loadList_rootSelfOk (ps : List PNode) (k : Nat) (h : selfOkPL ps = true) :
    ∀ t ∈ (loadList ps k).1, rootSelfOk t := by
  induction ps generalizing k with
  | nil => intro t ht; simp [loadList] at ht
  | cons p ps ih =>
    intro t ht
    have h2 : (selfOkP p && selfOkPL ps) = true := h
    rw [Bool.and_eq_true] at h2
    have ht2 : t ∈ (loadTree p k).1 :: (loadList ps (loadTree p k).2).1 := ht
    rcases List.mem_cons.1 ht2 with rfl | hmem
    · exact loadTree_rootSelfOk p k h2.1
    · exact ih (loadTree p k).2 h2.2 t hmem

/-- Effects of one successful `_insert_comment` on the object graph:
containers only gain the inserted root reference (placeholder occurrence
counts change only for an inserted placeholder, replies lists keep their
placeholder counts), bookkeeping stays well-formed, the index only grows,
and a comment insertion leaves the index non-empty. -/
theorem insertOne_ok (s : FState) (n : LNode) (s1 : FState)
    (hins : insertOne s n = (s1, none))
    (hkeys : (s.repl.map (fun e => e.1)).Nodup)
    (hrlt : ∀ e ∈ s.repl, e.1 < s.next)
    (hilt : ∀ e ∈ s.index, e.2 < s.next)
    (hult : ∀ u ∈ uidsT n, u < s.next) :
    s1.temps = s.temps ∧ s1.next = s.next
    ∧ (∀ v, s1.top.count (.m v) = s.top.count (.m v) + ([nodeIdOf n].count (.m v)))
    ∧ (∀ v p, (replGet s1 p).count (.m v) = (replGet s p).count (.m v))
    ∧ (∀ v, occOf s1 (.m v) = occOf s (.m v) + ([nodeIdOf n].count (.m v)))
    ∧ (∀ w, NodeId.c w ∈ s.top → NodeId.c w ∈ s1.top)
    ∧ (s1.repl.map (fun e => e.1)).Nodup
    ∧ (∀ e ∈ s1.repl, e.1 < s.next)
    ∧ (∀ e ∈ s1.index, e.2 < s.next)
    ∧ (s.index ≠ [] → s1.index ≠ [])
    ∧ ((∃ u2 nm2 pid2 rt2 reps2, n = LNode.comment u2 nm2 pid2 rt2 reps2) → s1.index ≠ [])
    ∧ (rootSelfOk n → ((∃ w, NodeId.c w ∈ s.top) ∨ s.index = []) →
        ((∃ w, NodeId.c w ∈ s1.top) ∨ s1.index = [])) := by
  cases n with
  | more u nm c =>
    by_cases hd : (alook s.index nm).isSome
    · simp [insertOne, hd] at hins
    · simp only [insertOne, hd, Bool.false_eq_true, if_false, Prod.mk.injEq] at hins
      obtain ⟨hs1, -⟩ := hins
      subst hs1
      refine ⟨rfl, rfl, ?_, fun v p => rfl, ?_, ?_, hkeys, hrlt, hilt,
        fun h => h, ?_, ?_⟩
      · intro v
        simp [List.count_append, nodeIdOf]
      · intro v
        simp only [occOf, List.count_append, nodeIdOf]
        omega
      · intro w hw
        exact List.mem_append_left _ hw
      · rintro ⟨u2, nm2, pid2, rt2, reps2, heq⟩
        cases heq
      · intro hok hP
        rcases hP with ⟨w, hw⟩ | hi
        · exact Or.inl ⟨w, List.mem_append_left _ hw⟩
        · exact Or.inr hi
  | comment u nm pid rt reps =>
    by_cases hd : (alook s.index nm).isSome
    · simp [insertOne, hd] at hins
    · have hu : u < s.next := hult u (by
        show u ∈ u :: uidsTs reps
        exact List.mem_cons_self _ _)
      cases rt with
      | true =>
        simp only [insertOne, hd, Bool.false_eq_true, if_false, if_true,
          Prod.mk.injEq] at hins
        obtain ⟨hs1, -⟩ := hins
        subst hs1
        refine ⟨rfl, rfl, ?_, fun v p => rfl, ?_, ?_, hkeys, hrlt, ?_, ?_, ?_, ?_⟩
        · intro v
          simp [List.count_append, nodeIdOf]
        · intro v
          simp only [occOf, List.count_append, nodeIdOf]
          simp
        · intro w hw
          exact List.mem_append_left _ hw
        · intro e he
          rcases List.mem_cons.1 he with rfl | he2
          · exact hu
          · exact hilt e he2
        · intro _
          simp
        · intro _
          simp
        · intro _ _
          exact Or.inl ⟨u, List.mem_append_right _ (List.mem_singleton.2 rfl)⟩
      | false =>
        simp only [insertOne, hd, Bool.false_eq_true, if_false] at hins
        cases hpu : alook ((nm, u) :: s.index) pid with
        | none =>
          rw [hpu] at hins
          simp at hins
        | some pu =>
          rw [hpu] at hins
          simp only [Prod.mk.injEq] at hins
          obtain ⟨hs1, -⟩ := hins
          have hpult : pu < s.next := by
            have hm := alook_mem _ _ _ hpu
            rcases List.mem_cons.1 hm with heq | hm2
            · cases heq
              exact hu
            · exact hilt _ hm2
          subst hs1
          have hrepl : ∀ p : Nat,
              replGet { s with index := (nm, u) :: s.index } p = replGet s p :=
            fun p => rfl
          refine ⟨rfl, rfl, fun v => by simp [setC, nodeIdOf], ?_, ?_, fun w hw => hw, ?_, ?_, ?_, ?_, ?_, ?_⟩
          · intro v p
            by_cases hp : p = pu
            · subst hp
              have := replGet_aset_same { s with index := (nm, u) :: s.index } p
                (replGet s p ++ [NodeId.c u])
              show (replGet (setC { s with index := (nm, u) :: s.index }
                (.replies p) (replGet s p ++ [NodeId.c u])) p).count (.m v) = _
              rw [this]
              simp [List.count_append]
            · show (replGet (setC { s with index := (nm, u) :: s.index }
                (.replies pu) (replGet s pu ++ [NodeId.c u])) p).count (.m v) = _
              show ((alook (aset s.repl pu (replGet s pu ++ [NodeId.c u])) p).getD []).count (.m v) = _
              rw [alook_aset_ne _ _ _ _ (fun h => hp h.symm)]
              rfl
          · intro v
            rcases occOf_setC { s with index := (nm, u) :: s.index } (.replies pu)
              (replGet s pu ++ [NodeId.c u]) (.m v) hkeys with hocc | ⟨k, hk, _⟩
            · have hocc2 : occOf (setC { s with index := (nm, u) :: s.index }
                  (.replies pu) (replGet s pu ++ [NodeId.c u])) (.m v) = occOf s (.m v) := by
                have hg : getC { s with index := (nm, u) :: s.index } (.replies pu)
                    = replGet s pu := rfl
                rw [hg] at hocc
                have ho : occOf { s with index := (nm, u) :: s.index } (.m v)
                    = occOf s (.m v) := rfl
                rw [ho] at hocc
                have hcnt : (replGet s pu ++ [NodeId.c u]).count (.m v)
                    = (replGet s pu).count (.m v) := by
                  simp [List.count_append]
                rw [hcnt] at hocc
                omega
              show occOf (setC { s with index := (nm, u) :: s.index } (.replies pu)
                (replGet { s with index := (nm, u) :: s.index } pu ++ [NodeId.c u])) (.m v) = _
              rw [show replGet { s with index := (nm, u) :: s.index } pu
                = replGet s pu from rfl]
              rw [hocc2]
              simp [nodeIdOf]
            · cases hk
          · show ((aset s.repl pu (replGet s pu ++ [NodeId.c u])).map (fun e => e.1)).Nodup
            rw [aset_keys]
            by_cases hm : pu ∈ s.repl.map (fun e => e.1)
            · rw [if_pos hm]
              exact hkeys
            · rw [if_neg hm]
              rw [List.nodup_append]
              exact ⟨hkeys, List.nodup_singleton pu, by
                intro a ha hb
                rw [List.mem_singleton] at hb
                subst hb
                exact hm ha⟩
          · show ∀ e ∈ aset s.repl pu (replGet s pu ++ [NodeId.c u]), e.1 < s.next
            intro e he
            have hkeym : e.1 ∈ (aset s.repl pu (replGet s pu ++ [NodeId.c u])).map
                (fun ee => ee.1) := List.mem_map_of_mem _ he
            rw [aset_keys] at hkeym
            by_cases hm : pu ∈ s.repl.map (fun ee => ee.1)
            · rw [if_pos hm] at hkeym
              obtain ⟨e2, he2, heq⟩ := List.mem_map.1 hkeym
              rw [← heq]
              exact hrlt e2 he2
            · rw [if_neg hm] at hkeym
              rcases List.mem_append.1 hkeym with h1 | h2
              · obtain ⟨e2, he2, heq⟩ := List.mem_map.1 h1
                rw [← heq]
                exact hrlt e2 he2
              · rw [List.mem_singleton] at h2
                rw [h2]
                exact hpult
          · intro e he
            rcases List.mem_cons.1 he with rfl | he2
            · exact hu
            · exact hilt e he2
          · intro _
            show ¬ ((nm, u) :: s.index) = []
            simp
          · intro _
            show ¬ ((nm, u) :: s.index) = []
            simp
          · intro hok hP
            rcases hP with ⟨w, hw⟩ | hi
            · exact Or.inl ⟨w, hw⟩
            · exfalso
              rw [hi] at hpu
              have hne : ¬ nm = pid := fun h => (hok rfl) h.symm
              simp only [alook, if_neg hne] at hpu
              exact absurd hpu (by simp [alook])

/-- Effects of a successful `for comment in new_comments: _insert_comment`
over a whole fetched batch. -/
theorem insertAll_ok (lns : List LNode) : ∀ (s s1 : FState),
    insertAll s lns = (s1, none) →
    (s.repl.map (fun e => e.1)).Nodup →
    (∀ e ∈ s.repl, e.1 < s.next) →
    (∀ e ∈ s.index, e.2 < s.next) →
    (∀ u ∈ uidsTs lns, u < s.next) →
    s1.temps = s.temps ∧ s1.next = s.next
    ∧ (∀ v, s1.top.count (.m v) = s.top.count (.m v) + (lns.map nodeIdOf).count (.m v))
    ∧ (∀ v p, (replGet s1 p).count (.m v) = (replGet s p).count (.m v))
    ∧ (∀ v, occOf s1 (.m v) = occOf s (.m v) + (lns.map nodeIdOf).count (.m v))
    ∧ (∀ w, NodeId.c w ∈ s.top → NodeId.c w ∈ s1.top)
    ∧ (s1.repl.map (fun e => e.1)).Nodup
    ∧ (∀ e ∈ s1.repl, e.1 < s.next)
    ∧ (∀ e ∈ s1.index, e.2 < s.next)
    ∧ (s.index ≠ [] → s1.index ≠ [])
    ∧ ((∃ u2 nm2 pid2 rt2 reps2, LNode.comment u2 nm2 pid2 rt2 reps2 ∈ lns) → s1.index ≠ [])
    ∧ ((∀ t ∈ lns, rootSelfOk t) → ((∃ w, NodeId.c w ∈ s.top) ∨ s.index = []) →
        ((∃ w, NodeId.c w ∈ s1.top) ∨ s1.index = [])) := by
  induction lns with
  | nil =>
    intro s s1 hins hkeys hrlt hilt hult
    have hs : s1 = s := by
      simp only [insertAll, Prod.mk.injEq] at hins
      exact hins.1.symm
    subst hs
    refine ⟨rfl, rfl, fun v => by simp, fun v p => rfl, fun v => by simp,
      fun w hw => hw, hkeys, hrlt, hilt, fun h => h, ?_, fun _ hP => hP⟩
    rintro ⟨u2, nm2, pid2, rt2, reps2, hmem⟩
    simp at hmem
  | cons n rest ih =>
    intro s s1 hins hkeys hrlt hilt hult
    have hins2 : insertAll s (n :: rest)
        = match insertOne s n with
          | (s2, some e) => (s2, some e)
          | (s2, none) => insertAll s2 rest := rfl
    rw [hins2] at hins
    cases hone : insertOne s n with
    | mk s2 oe =>
      rw [hone] at hins
      cases oe with
      | some e => simp at hins
      | none =>
        simp only [] at hins
        have hu1 : ∀ u ∈ uidsT n, u < s.next := by
          intro u hu
          exact hult u (by
            show u ∈ uidsT n ++ uidsTs rest
            exact List.mem_append.2 (Or.inl hu))
        obtain ⟨htm, hnx, htopm, hreplm, hocc, htopc, hkeys2, hrlt2, hilt2,
          hidxne, hidxc, hPimp⟩ :=
          insertOne_ok s n s2 hone hkeys hrlt hilt hu1
        have hu2 : ∀ u ∈ uidsTs rest, u < s2.next := by
          intro u hu
          rw [hnx]
          exact hult u (by
            show u ∈ uidsT n ++ uidsTs rest
            exact List.mem_append.2 (Or.inr hu))
        have hrlt2b : ∀ e ∈ s2.repl, e.1 < s2.next := by
          rw [hnx]; exact hrlt2
        have hilt2b : ∀ e ∈ s2.index, e.2 < s2.next := by
          rw [hnx]; exact hilt2
        obtain ⟨htm3, hnx3, htopm3, hreplm3, hocc3, htopc3, hkeys3, hrlt3, hilt3,
          hidxne3, hidxc3, hPimp3⟩ :=
          ih s2 s1 hins hkeys2 hrlt2b hilt2b hu2
        refine ⟨htm3.trans htm, hnx3.trans hnx, ?_, ?_, ?_, ?_, hkeys3, ?_, ?_, ?_, ?_, ?_⟩
        · intro v
          have hsplit : List.count (NodeId.m v) (nodeIdOf n :: List.map nodeIdOf rest)
              = List.count (NodeId.m v) [nodeIdOf n]
                + List.count (NodeId.m v) (List.map nodeIdOf rest) := by
            rw [show nodeIdOf n :: List.map nodeIdOf rest
              = [nodeIdOf n] ++ List.map nodeIdOf rest from rfl, List.count_append]
          rw [htopm3 v, htopm v, List.map_cons, hsplit]
          omega
        · intro v p
          rw [hreplm3 v p, hreplm v p]
        · intro v
          have hsplit : List.count (NodeId.m v) (nodeIdOf n :: List.map nodeIdOf rest)
              = List.count (NodeId.m v) [nodeIdOf n]
                + List.count (NodeId.m v) (List.map nodeIdOf rest) := by
            rw [show nodeIdOf n :: List.map nodeIdOf rest
              = [nodeIdOf n] ++ List.map nodeIdOf rest from rfl, List.count_append]
          rw [hocc3 v, hocc v, List.map_cons, hsplit]
          omega
        · intro w hw
          exact htopc3 w (htopc w hw)
        · intro e he
          rw [← hnx]
          exact hrlt3 e he
        · intro e he
          rw [← hnx]
          exact hilt3 e he
        · intro h
          exact hidxne3 (hidxne h)
        · rintro ⟨u2, nm2, pid2, rt2, reps2, hmem⟩
          rcases List.mem_cons.1 hmem with heq | hmem2
          · exact hidxne3 (hidxc ⟨u2, nm2, pid2, rt2, reps2, heq.symm⟩)
          · exact hidxc3 ⟨u2, nm2, pid2, rt2, reps2, hmem2⟩
        · intro hok hP
          exact hPimp3 (fun t ht => hok t (List.mem_cons_of_mem _ ht))
            (hPimp (hok n (List.mem_cons_self _ _)) hP)

/-- The loop invariant of `replace_more` relating the object graph to the
priority collection: collection identities are distinct and already
allocated, the replies map is well-formed, every queued placeholder's
`_remove_from` names a live container (never a throwaway list) holding its
unique occurrence in the forest, no stray placeholder exists outside the
collection, and a populated index implies a comment at top level. -/
structure LoopInv (s : FState) (h : List MoreObj) : Prop where
  hnodup : (h.map (fun mo => mo.uid)).Nodup
  hult : ∀ mo ∈ h, mo.uid < s.next
  hrkeys : (s.repl.map (fun e => e.1)).Nodup
  hrlt : ∀ e ∈ s.repl, e.1 < s.next
  hilt : ∀ e ∈ s.index, e.2 < s.next
  hloc : ∀ mo ∈ h, ∃ c, alook s.rf mo.uid = some c
      ∧ (getC s c).count (.m mo.uid) = 1
      ∧ occOf s (.m mo.uid) = 1
      ∧ (c = CRef.topLevel ∨ ∃ p, c = CRef.replies p ∧ s.index ≠ [])
  hghost : ∀ u, (∀ mo ∈ h, mo.uid ≠ u) → occOf s (.m u) = 0
  htopc : (∃ w, NodeId.c w ∈ s.top) ∨ s.index = []

theorem popMax_mem (h : List MoreObj) (item : MoreObj) (rest : List MoreObj)
    (hp : popMax h = some (item, rest)) :
    item ∈ h ∧ ∀ mo ∈ rest, mo ∈ h := by
  obtain ⟨a, b, rfl, rfl, -, -⟩ := popMax_spec h item rest hp
  constructor
  · exact List.mem_append.2 (Or.inr (List.mem_cons_self _ _))
  · intro mo hmo
    rcases List.mem_append.1 hmo with h1 | h2
    · exact List.mem_append.2 (Or.inl h1)
    · exact List.mem_append.2 (Or.inr (List.mem_cons_of_mem _ h2))

theorem popMax_rest_nodup (h : List MoreObj) (item : MoreObj) (rest : List MoreObj)
    (hp : popMax h = some (item, rest)) (hnd : (h.map (fun mo => mo.uid)).Nodup) :
    (rest.map (fun mo => mo.uid)).Nodup ∧ ∀ mo ∈ rest, mo.uid ≠ item.uid := by
  obtain ⟨a, b, rfl, rfl, -, -⟩ := popMax_spec h item rest hp
  rw [List.map_append, List.map_cons] at hnd
  rw [List.nodup_middle] at hnd
  rw [List.nodup_cons, ← List.map_append] at hnd
  refine ⟨hnd.2, ?_⟩
  intro mo hmo heq
  exact hnd.1 (heq ▸ List.mem_map_of_mem (fun mo => mo.uid) hmo)

/-- Effects of a successful removal of the placeholder `u` from a live
container holding exactly one occurrence of it. -/
theorem removeNode_effects (s : FState) (u : Nat) (c : CRef)
    (hrf : alook s.rf u = some c)
    (hcnt : (getC s c).count (.m u) = 1)
    (hkeys : (s.repl.map (fun e => e.1)).Nodup)
    (hct : c = CRef.topLevel ∨ ∃ p, c = CRef.replies p) :
    ∃ s1, removeNode s u = .ok s1
      ∧ s1.rf = s.rf ∧ s1.index = s.index ∧ s1.next = s.next ∧ s1.temps = s.temps
      ∧ s1.repl.map (fun e => e.1) = s.repl.map (fun e => e.1)
      ∧ (∀ x : NodeId, x ≠ .m u → ∀ c2, (getC s1 c2).count x = (getC s c2).count x)
      ∧ (∀ x : NodeId, x ≠ .m u → occOf s1 x = occOf s x)
      ∧ occOf s1 (.m u) + 1 = occOf s (.m u)
      ∧ (∀ w, NodeId.c w ∈ s.top → NodeId.c w ∈ s1.top) := by
  obtain ⟨l2, hrm, hc1, hoth⟩ := removeFirst_of_count_pos (.m u) (getC s c) (by omega)
  have hrn : removeNode s u = .ok (setC s c l2) := by
    unfold removeNode
    rw [hrf]
    show (match removeFirst (getC s c) (NodeId.m u) with
      | none => (Except.error CErr.valueError : Except CErr FState)
      | some l => Except.ok (setC s c l)) = _
    rw [hrm]
  have hgetsame : getC (setC s c l2) c = l2 := by
    rcases hct with rfl | ⟨p, rfl⟩
    · rfl
    · show replGet (setC s (.replies p) l2) p = l2
      exact replGet_aset_same s p l2
  have hkeyeq : (setC s c l2).repl.map (fun e => e.1) = s.repl.map (fun e => e.1) := by
    rcases hct with rfl | ⟨p, rfl⟩
    · rfl
    · show (aset s.repl p l2).map (fun e => e.1) = _
      rw [aset_keys]
      have hpk : p ∈ s.repl.map (fun e => e.1) := by
        cases hal : alook s.repl p with
        | none =>
          exfalso
          have : getC s (.replies p) = [] := by
            show (alook s.repl p).getD [] = []
            rw [hal]
            rfl
          rw [this] at hcnt
          simp at hcnt
        | some lv => exact alook_isSome_mem_keys _ _ _ hal
      rw [if_pos hpk]
  have hcounts : ∀ x : NodeId, x ≠ .m u → ∀ c2, (getC (setC s c l2) c2).count x
      = (getC s c2).count x := by
    intro x hx c2
    by_cases hcc : c2 = c
    · subst hcc
      rw [hgetsame]
      exact hoth x hx
    · rw [getC_setC_ne s c c2 l2 (fun hh => hcc hh.symm)]
  refine ⟨setC s c l2, hrn, setC_rf s c l2, ?_, ?_, ?_, hkeyeq, hcounts, ?_, ?_, ?_⟩
  · rcases hct with rfl | ⟨p, rfl⟩ <;> rfl
  · rcases hct with rfl | ⟨p, rfl⟩ <;> rfl
  · rcases hct with rfl | ⟨p, rfl⟩ <;> rfl
  · intro x hx
    rcases occOf_setC s c l2 x hkeys with hocc | ⟨k, hk, _⟩
    · have := hoth x hx
      omega
    · exfalso
      rcases hct with rfl | ⟨p, rfl⟩ <;> cases hk
  · rcases occOf_setC s c l2 (.m u) hkeys with hocc | ⟨k, hk, _⟩
    · omega
    · exfalso
      rcases hct with rfl | ⟨p, rfl⟩ <;> cases hk
  · intro w hw
    rcases hct with rfl | ⟨p, rfl⟩
    · show NodeId.c w ∈ l2
      have : 0 < l2.count (.c w) := by
        rw [hoth (.c w) (by simp)]
        exact List.count_pos_iff.2 hw
      exact List.count_pos_iff.1 this
    · exact hw

/-- A skipped pop under the loop invariant: the removal succeeds from a
live container, the placeholder leaves the forest entirely, and the
invariant carries to the shrunk collection. Comment occurrences and the
index are untouched. -/
theorem skip_preserve (s : FState) (h : List MoreObj) (item : MoreObj)
    (rest : List MoreObj) (hp : popMax h = some (item, rest)) (hInv : LoopInv s h) :
    ∃ s1, removeNode s item.uid = .ok s1 ∧ LoopInv s1 rest
      ∧ occOf s1 (.m item.uid) = 0
      ∧ s1.index = s.index ∧ s1.next = s.next ∧ s1.rf = s.rf ∧ s1.temps = s.temps
      ∧ (∀ u, occOf s (.m u) = 0 → occOf s1 (.m u) = 0)
      ∧ (∀ u, occOf s1 (.c u) = occOf s (.c u))
      ∧ (∀ u, s1.top.count (.c u) = s.top.count (.c u)) := by
  have hmem := popMax_mem h item rest hp
  obtain ⟨c, hrf, hcnt, hocc1, hct⟩ := hInv.hloc item hmem.1
  have hct2 : c = CRef.topLevel ∨ ∃ p, c = CRef.replies p := by
    rcases hct with h1 | ⟨p, h1, _⟩
    · exact Or.inl h1
    · exact Or.inr ⟨p, h1⟩
  obtain ⟨s1, hrn, hrfe, hidx, hnx, htm, hkeyeq, hcounts, hoccoth, hoccit, htopcm⟩ :=
    removeNode_effects s item.uid c hrf hcnt hInv.hrkeys hct2
  have hndrest := popMax_rest_nodup h item rest hp hInv.hnodup
  refine ⟨s1, hrn, ?_, by omega, hidx, hnx, hrfe, htm, ?_, ?_, ?_⟩
  · constructor
    · exact hndrest.1
    · intro mo hmo
      rw [hnx]
      exact hInv.hult mo (hmem.2 mo hmo)
    · rw [hkeyeq]
      exact hInv.hrkeys
    · intro e he
      rw [hnx]
      have hke : e.1 ∈ s1.repl.map (fun ee => ee.1) := List.mem_map_of_mem _ he
      rw [hkeyeq] at hke
      obtain ⟨e2, he2, heq⟩ := List.mem_map.1 hke
      rw [← heq]
      exact hInv.hrlt e2 he2
    · intro e he
      rw [hnx]
      rw [hidx] at he
      exact hInv.hilt e he
    · intro mo hmo
      obtain ⟨c2, hrf2, hcnt2, hocc2, hct2b⟩ := hInv.hloc mo (hmem.2 mo hmo)
      have hne : NodeId.m mo.uid ≠ NodeId.m item.uid := by
        intro hh
        have hh2 : mo.uid = item.uid := by injection hh
        exact hndrest.2 mo hmo hh2
      refine ⟨c2, by rw [hrfe]; exact hrf2, ?_, ?_, ?_⟩
      · rw [hcounts _ hne c2]
        exact hcnt2
      · rw [hoccoth _ hne]
        exact hocc2
      · rcases hct2b with h1 | ⟨p, h1, h2⟩
        · exact Or.inl h1
        · exact Or.inr ⟨p, h1, by rw [hidx]; exact h2⟩
    · intro u hu
      by_cases huit : u = item.uid
      · subst huit
        omega
      · have hzero : occOf s (.m u) = 0 := by
          refine hInv.hghost u ?_
          intro mo hmo
          obtain ⟨a, b, hsp1, hsp2, -, -⟩ := popMax_spec h item rest hp
          rw [hsp1] at hmo
          rcases List.mem_append.1 hmo with h1 | h2
          · exact hu mo (by rw [hsp2]; exact List.mem_append.2 (Or.inl h1))
          · rcases List.mem_cons.1 h2 with heq2 | h3
            · subst heq2
              intro heq
              exact huit heq.symm
            · exact hu mo (by rw [hsp2]; exact List.mem_append.2 (Or.inr h3))
        rw [hoccoth (.m u) (by
          intro heq
          apply huit
          injection heq)]
        exact hzero
    · rcases hInv.htopc with ⟨w, hw⟩ | hidx2
      · exact Or.inl ⟨w, htopcm w hw⟩
      · exact Or.inr (by rw [hidx]; exact hidx2)
  · intro u hu
    by_cases huit : u = item.uid
    · subst huit
      omega
    · rw [hoccoth (.m u) (by
        intro heq
        apply huit
        injection heq)]
      exact hu
  · intro u
    exact hoccoth (.c u) (by simp)
  · intro u
    exact hcounts (.c u) (by simp) CRef.topLevel

theorem applyGather_fields (s : FState) (g : List (Option Nat × MoreObj)) (fb : CRef) :
    (applyGather s g fb).top = s.top ∧ (applyGather s g fb).repl = s.repl
    ∧ (applyGather s g fb).index = s.index ∧ (applyGather s g fb).temps = s.temps
    ∧ (applyGather s g fb).next = s.next := by
  rw [applyGather_eq]
  exact ⟨rfl, rfl, rfl, rfl, rfl⟩

theorem fetchMid_fields (cfg : Cfg) (s : FState) (item : MoreObj) :
    (fetchMid cfg s item).top = s.top
    ∧ (fetchMid cfg s item).index = s.index
    ∧ (fetchMid cfg s item).next = (loadList (cfg.fetch item.name) s.next).2
    ∧ (fetchMid cfg s item).repl = s.repl ++ declList (fetchLns cfg s item)
    ∧ (fetchMid cfg s item).temps = s.temps ++ [(fetchLns cfg s item).map nodeIdOf] := by
  unfold fetchMid
  rw [applyGather_eq]
  exact ⟨rfl, rfl, rfl, rfl, rfl⟩

theorem fetchMid_rf_old (cfg : Cfg) (s : FState) (item : MoreObj) (u : Nat)
    (hu : ∀ pm ∈ fetchG cfg s item, pm.2.uid ≠ u) :
    alook (fetchMid cfg s item).rf u = alook s.rf u := by
  unfold fetchMid
  exact applyGather_rf_notmem _ _ _ u hu

theorem fetchMid_rf_mem (cfg : Cfg) (s : FState) (item : MoreObj) (po : Option Nat)
    (mo : MoreObj) (hm : (po, mo) ∈ fetchG cfg s item) :
    alook (fetchMid cfg s item).rf mo.uid = some (rfTarget (fetchFb cfg s item) po) := by
  unfold fetchMid
  exact applyGather_rf_mem _ _ _ po mo (fetchG_uids_nodup cfg s item) hm

theorem fetchMid_occ (cfg : Cfg) (s : FState) (item : MoreObj) (x : NodeId) :
    occOf (fetchMid cfg s item) x
      = occOf s x + occEntries (declList (fetchLns cfg s item)) x := by
  obtain ⟨h1, -, -, h4, -⟩ := fetchMid_fields cfg s item
  show (fetchMid cfg s item).top.count x
      + ((fetchMid cfg s item).repl.map (fun e => e.2.count x)).sum = _
  rw [h1, h4, List.map_append, List.sum_append]
  show _ = s.top.count x + (s.repl.map (fun e => e.2.count x)).sum + occEntries _ x
  rw [occEntries]
  omega

/-- Identities in a loaded batch sit in the fresh range. -/
theorem fetchLns_uid_range (cfg : Cfg) (s : FState) (item : MoreObj) (u : Nat)
    (hu : u ∈ uidsTs (fetchLns cfg s item)) :
    s.next ≤ u ∧ u < (loadList (cfg.fetch item.name) s.next).2 := by
  have hl := loadList_spec (cfg.fetch item.name) s.next
  simp only [fetchLns] at hu
  rw [hl.2] at hu
  rw [hl.1]
  rw [List.mem_range'_1] at hu
  omega

/-- Keys of the fresh declaration entries are fresh. -/
theorem fetchLns_declkey_range (cfg : Cfg) (s : FState) (item : MoreObj) (k : Nat)
    (hk : k ∈ (declList (fetchLns cfg s item)).map (fun e => e.1)) :
    s.next ≤ k ∧ k < (loadList (cfg.fetch item.name) s.next).2 :=
  fetchLns_uid_range cfg s item k ((declList_keys_sub (fetchLns cfg s item)).subset hk)

theorem fetchG_uid_range (cfg : Cfg) (s : FState) (item : MoreObj)
    (pm : Option Nat × MoreObj) (hm : pm ∈ fetchG cfg s item) :
    s.next ≤ pm.2.uid ∧ pm.2.uid < (loadList (cfg.fetch item.name) s.next).2 := by
  have hm2 : pm ∈ dfsMoresL none (fetchLns cfg s item) := by
    obtain ⟨po, mo⟩ := pm
    exact (fetchG_mem cfg s item po mo).1 hm
  refine fetchLns_uid_range cfg s item pm.2.uid ?_
  refine (dfsMoresL_uids_sub none (fetchLns cfg s item)).subset ?_
  exact List.mem_map_of_mem (fun pm => pm.2.uid) hm2

theorem fetchMid_replGet_old (cfg : Cfg) (s : FState) (item : MoreObj) (p : Nat)
    (hp : p < s.next) : replGet (fetchMid cfg s item) p = replGet s p := by
  obtain ⟨-, -, -, h4, -⟩ := fetchMid_fields cfg s item
  show (alook (fetchMid cfg s item).repl p).getD [] = _
  rw [h4]
  cases hal : alook s.repl p with
  | some lv =>
    rw [alook_append_left _ _ _ _ hal]
    show lv = (alook s.repl p).getD []
    rw [hal]
    rfl
  | none =>
    rw [alook_append, hal,
      alook_notmem (declList (fetchLns cfg s item)) p (by
        intro e he heq
        have hk := fetchLns_declkey_range cfg s item e.1
          (List.mem_map_of_mem (fun e => e.1) he)
        omega)]
    simp [replGet, hal]

/-- `_insert_comment` can only raise the duplicate or the assertion error. -/
theorem insertOne_err (s : FState) (n : LNode) (s1 : FState) (e : CErr)
    (h : insertOne s n = (s1, some e)) :
    e = CErr.duplicateReplace ∨ e = CErr.assertionError := by
  cases n with
  | more u nm c =>
    by_cases hd : (alook s.index nm).isSome
    · simp only [insertOne, if_pos hd, Prod.mk.injEq] at h
      exact Or.inl (Option.some.inj h.2).symm
    · simp only [insertOne, if_neg hd, Prod.mk.injEq] at h
      exact absurd h.2 (by simp)
  | comment u nm pid rt reps =>
    by_cases hd : (alook s.index nm).isSome
    · simp only [insertOne, if_pos hd, Prod.mk.injEq] at h
      exact Or.inl (Option.some.inj h.2).symm
    · cases rt with
      | true =>
        simp only [insertOne, if_neg hd] at h
        rw [if_pos trivial] at h
        simp only [Prod.mk.injEq] at h
        exact absurd h.2 (by simp)
      | false =>
        simp only [insertOne, if_neg hd, Bool.false_eq_true, if_false] at h
        cases hpu : alook ((nm, u) :: s.index) pid with
        | none =>
          rw [hpu] at h
          simp only [Prod.mk.injEq] at h
          exact Or.inr (Option.some.inj h.2).symm
        | some pu =>
          rw [hpu] at h
          simp only [Prod.mk.injEq] at h
          exact absurd h.2 (by simp)

/-- Batch insertion can only raise the duplicate or the assertion error. -/
theorem insertAll_err (lns : List LNode) : ∀ (s s1 : FState) (e : CErr),
    insertAll s lns = (s1, some e) →
    e = CErr.duplicateReplace ∨ e = CErr.assertionError := by
  induction lns with
  | nil =>
    intro s s1 e h
    simp only [insertAll, Prod.mk.injEq] at h
    exact absurd h.2 (by simp)
  | cons n rest ih =>
    intro s s1 e h
    have h2 : insertAll s (n :: rest)
        = match insertOne s n with
          | (s2, some e) => (s2, some e)
          | (s2, none) => insertAll s2 rest := rfl
    rw [h2] at h
    cases hone : insertOne s n with
    | mk s2 oe =>
      rw [hone] at h
      cases oe with
      | some e2 =>
        simp only [Prod.mk.injEq] at h
        have he : e2 = e := Option.some.inj h.2
        exact he ▸ insertOne_err s n s2 e2 hone
      | none => exact ih s2 s1 e h

/-- Placement of a parented placeholder within a loaded forest: its parent
keys a declared replies entry containing it. -/
theorem placeRootsL (ts : List LNode) : ∀ (p : Nat) (mo : MoreObj),
    (uidsTs ts).Nodup → (some p, mo) ∈ dfsMoresL none ts →
    ∃ l, alook (declList ts) p = some l ∧ NodeId.m mo.uid ∈ l := by
  induction ts with
  | nil => intro p mo _ hm; simp [dfsMoresL] at hm
  | cons t ts ih =>
    intro p mo hnd hm
    have hnd0 : (uidsT t ++ uidsTs ts).Nodup := hnd
    rw [List.nodup_append] at hnd0
    rcases List.mem_append.1 hm with h1 | h2
    · obtain ⟨l, hal, hmem⟩ := placeT t p mo hnd0.1 h1
      exact ⟨l, alook_append_left _ _ _ _ hal, hmem⟩
    · obtain ⟨l, hal, hmem⟩ := ih p mo hnd0.2.1 h2
      refine ⟨l, ?_, hmem⟩
      show alook (declTree t ++ declList ts) p = some l
      rw [alook_append_right]
      · exact hal
      · intro e he heq
        have hp1 : p ∈ uidsTs ts :=
          (declList_keys_sub ts).subset (alook_isSome_mem_keys _ p l hal)
        have hp2 : e.1 ∈ uidsT t :=
          (declTree_keys_sub t).subset (List.mem_map_of_mem (fun e => e.1) he)
        exact hnd0.2.2 hp2 (heq ▸ hp1)

/-- A previously allocated placeholder identity does not occur anywhere in
a freshly loaded batch. -/
theorem fetch_fresh_zero (cfg : Cfg) (s : FState) (item : MoreObj) (v : Nat)
    (hv : v < s.next) :
    ((fetchLns cfg s item).map nodeIdOf).count (.m v) = 0
      ∧ occEntries (declList (fetchLns cfg s item)) (.m v) = 0 := by
  have hocc := occ_dfs_list (fetchLns cfg s item) none v
  have hz : (dfsMoresL none (fetchLns cfg s item)).countP
      (fun pm => pm.2.uid == v) = 0 := by
    rw [countP_uid_eq_count, List.count_eq_zero]
    intro hmem
    obtain ⟨pm, hpm, heq⟩ := List.mem_map.1 hmem
    have hrange := fetchLns_uid_range cfg s item pm.2.uid
      ((dfsMoresL_uids_sub none (fetchLns cfg s item)).subset
        (List.mem_map_of_mem (fun pm => pm.2.uid) hpm))
    omega
  omega

/-- A gathered placeholder occurs exactly once across the loaded batch. -/
theorem fetchG_total (cfg : Cfg) (s : FState) (item : MoreObj) (po : Option Nat)
    (mo : MoreObj) (hm : (po, mo) ∈ fetchG cfg s item) :
    ((fetchLns cfg s item).map nodeIdOf).count (.m mo.uid)
      + occEntries (declList (fetchLns cfg s item)) (.m mo.uid) = 1 := by
  have hocc := occ_dfs_list (fetchLns cfg s item) none mo.uid
  have hm2 := (fetchG_mem cfg s item po mo).1 hm
  have hnd : ((dfsMoresL none (fetchLns cfg s item)).map
      (fun pm => pm.2.uid)).Nodup := by
    show ((dfsMoresL none (loadList (cfg.fetch item.name) s.next).1).map
      (fun pm => pm.2.uid)).Nodup
    exact dfsLoaded_uids_nodup _ _
  have h1 := countP_eq_one_of_mem _ po mo hnd hm2
  omega

/-- One entry's count is bounded by the count over all entries. -/
theorem entry_le_occEntries (entries : List (Nat × List NodeId)) (p : Nat)
    (l : List NodeId) (x : NodeId) (h : (p, l) ∈ entries) :
    l.count x ≤ occEntries entries x := by
  induction entries with
  | nil => simp at h
  | cons e es ih =>
    have hco : occEntries (e :: es) x = e.2.count x + occEntries es x := by
      simp [occEntries]
    rcases List.mem_cons.1 h with heq | h2
    · rw [hco, ← heq]
      exact Nat.le_add_right _ _
    · rw [hco]
      have := ih h2
      omega

/-- A replies-entry key can only come from a comment node at some level,
hence some top-level tree holds a comment. -/
theorem comment_of_declkey (ts : List LNode) :
    ∀ p, p ∈ (declList ts).map (fun e => e.1) →
    ∃ u2 nm2 pid2 rt2 reps2, LNode.comment u2 nm2 pid2 rt2 reps2 ∈ ts := by
  induction ts with
  | nil => intro p hp; simp [declList] at hp
  | cons t ts ih =>
    intro p hp
    cases t with
    | more u nm c =>
      have hp2 : p ∈ (declList ts).map (fun e => e.1) := hp
      obtain ⟨u2, nm2, pid2, rt2, reps2, hmem⟩ := ih p hp2
      exact ⟨u2, nm2, pid2, rt2, reps2, List.mem_cons_of_mem _ hmem⟩
    | comment u nm pid rt reps =>
      exact ⟨u, nm, pid, rt, reps, List.mem_cons_self _ _⟩

theorem popMax_mem_rev (h : List MoreObj) (item : MoreObj) (rest : List MoreObj)
    (hp : popMax h = some (item, rest)) : ∀ mo ∈ h, mo = item ∨ mo ∈ rest := by
  obtain ⟨a, b, rfl, rfl, -, -⟩ := popMax_spec h item rest hp
  intro mo hmo
  rcases List.mem_append.1 hmo with h1 | h2
  · exact Or.inr (List.mem_append.2 (Or.inl h1))
  · rcases List.mem_cons.1 h2 with rfl | h3
    · exact Or.inl rfl
    · exact Or.inr (List.mem_append.2 (Or.inr h3))

/-- While any placeholder is queued, the top-level list is populated, so
the gather fallback `parent_tree or tree` picks the forest's own list. -/
theorem inv_top_nonempty (s : FState) (h : List MoreObj) (item : MoreObj)
    (hm : item ∈ h) (hInv : LoopInv s h) : s.top ≠ [] := by
  obtain ⟨c, hrf, hcnt, hocc, hct⟩ := hInv.hloc item hm
  rcases hct with rfl | ⟨p, rfl, hidx⟩
  · intro he
    rw [show getC s CRef.topLevel = s.top from rfl, he] at hcnt
    simp at hcnt
  · rcases hInv.htopc with ⟨w, hw⟩ | hie
    · intro he
      rw [he] at hw
      simp at hw
    · exact absurd hie hidx

theorem fetchFb_topLevel (cfg : Cfg) (s : FState) (item : MoreObj)
    (hne : s.top ≠ []) : fetchFb cfg s item = CRef.topLevel := by
  unfold fetchFb
  rw [if_neg]
  intro he
  exact hne (List.isEmpty_iff.1 he)

/-- One fetch iteration of the `replace_more` loop preserves the loop
invariant and can only raise the duplicate or the assertion error; the
pushed placeholders are exactly the freshly allocated ones. -/
theorem fetch_preserve (cfg : Cfg) (s : FState) (h : List MoreObj) (item : MoreObj)
    (rest : List MoreObj) (hp : popMax h = some (item, rest)) (hInv : LoopInv s h)
    (hok : selfOkPL (cfg.fetch item.name) = true) :
    (∀ e, fetchStep cfg s item = .error e →
        e = CErr.duplicateReplace ∨ e = CErr.assertionError)
    ∧ ∀ ps s4, fetchStep cfg s item = .ok (ps, s4) →
        LoopInv s4 (rest ++ ps)
        ∧ s.next ≤ s4.next
        ∧ (∀ mo ∈ ps, s.next ≤ mo.uid ∧ mo.uid < s4.next) := by
  obtain ⟨hmtop, hmidx, hmnext, hmrepl, hmtemps⟩ := fetchMid_fields cfg s item
  have hls := loadList_spec (cfg.fetch item.name) s.next
  have hl1 := hls.1
  have hnextle : s.next ≤ (fetchMid cfg s item).next := by
    rw [hmnext, hl1]
    omega
  have hitem_mem : item ∈ h := (popMax_mem h item rest hp).1
  have hitem_lt : item.uid < s.next := hInv.hult item hitem_mem
  have hfb : fetchFb cfg s item = CRef.topLevel :=
    fetchFb_topLevel cfg s item (inv_top_nonempty s h item hitem_mem hInv)
  have hlnsnodup : (uidsTs (fetchLns cfg s item)).Nodup := by
    show (uidsTs (loadList (cfg.fetch item.name) s.next).1).Nodup
    rw [hls.2]
    exact List.nodup_range' _ _ _ one_pos
  have hkeysm : ((fetchMid cfg s item).repl.map (fun e => e.1)).Nodup := by
    rw [hmrepl, List.map_append, List.nodup_append]
    refine ⟨hInv.hrkeys, ?_, ?_⟩
    · exact List.Nodup.sublist (declList_keys_sub (fetchLns cfg s item)) hlnsnodup
    · intro a ha hb
      have h1 : a < s.next := by
        obtain ⟨e, he, heq⟩ := List.mem_map.1 ha
        rw [← heq]
        exact hInv.hrlt e he
      have h2 := fetchLns_declkey_range cfg s item a hb
      omega
  have hrltm : ∀ e ∈ (fetchMid cfg s item).repl, e.1 < (fetchMid cfg s item).next := by
    rw [hmrepl, hmnext]
    intro e he
    rcases List.mem_append.1 he with h1 | h2
    · have := hInv.hrlt e h1
      omega
    · have := fetchLns_declkey_range cfg s item e.1
        (List.mem_map_of_mem (fun e => e.1) h2)
      omega
  have hiltm : ∀ e ∈ (fetchMid cfg s item).index, e.2 < (fetchMid cfg s item).next := by
    rw [hmidx, hmnext]
    intro e he
    have := hInv.hilt e he
    omega
  have hultm : ∀ u ∈ uidsTs (fetchLns cfg s item), u < (fetchMid cfg s item).next := by
    intro u hu
    have := fetchLns_uid_range cfg s item u hu
    rw [hmnext]
    omega
  have hokm : ∀ t ∈ fetchLns cfg s item, rootSelfOk t :=
    fun t ht => loadList_rootSelfOk (cfg.fetch item.name) s.next hok t ht
  have hPm : (∃ w, NodeId.c w ∈ (fetchMid cfg s item).top)
      ∨ (fetchMid cfg s item).index = [] := by
    rw [hmtop, hmidx]
    exact hInv.htopc
  cases hins : insertAll (fetchMid cfg s item) (fetchLns cfg s item) with
  | mk s3 oe =>
    cases oe with
    | some e =>
      have hfs : fetchStep cfg s item = .error e := by
        unfold fetchStep
        split
        next e2 heq =>
          rw [hins] at heq
          injection heq with h1 h2
          injection h2 with h3
          rw [← h3]
        next s3b heq =>
          rw [hins] at heq
          injection heq with h1 h2
          exact absurd h2 (by simp)
      constructor
      · intro e2 herr
        rw [hfs] at herr
        have he2 : e = e2 := Except.error.inj herr
        exact he2 ▸ insertAll_err (fetchLns cfg s item) _ s3 e hins
      · intro ps s4 hok4
        rw [hfs] at hok4
        exact Except.noConfusion hok4
    | none =>
      obtain ⟨htm3, hnx3, htopm3, hreplm3, hocc3, htopc3k, hkeys3, hrlt3, hilt3,
        hidxne3, hidxc3, hPimp0⟩ :=
        insertAll_ok (fetchLns cfg s item) (fetchMid cfg s item) s3 hins
          hkeysm hrltm hiltm hultm
      have hP3 := hPimp0 hokm hPm
      have hrf3 : s3.rf = (fetchMid cfg s item).rf := by
        have h0 := insertAll_rf (fetchLns cfg s item) (fetchMid cfg s item)
        rw [hins] at h0
        exact h0
      obtain ⟨c0, hrf0, hcnt0, hocc0, hct0⟩ := hInv.hloc item hitem_mem
      have hfresh_ne : ∀ pm ∈ fetchG cfg s item, pm.2.uid ≠ item.uid := by
        intro pm hpm heq
        have := fetchG_uid_range cfg s item pm hpm
        omega
      have hrf_item : alook s3.rf item.uid = some c0 := by
        rw [hrf3, fetchMid_rf_old cfg s item item.uid hfresh_ne]
        exact hrf0
      have hfz := fetch_fresh_zero cfg s item item.uid hitem_lt
      have hrep_lt : ∀ (p v : Nat), (replGet s p).count (.m v) = 1 → p < s.next := by
        intro p v hc
        cases hal : alook s.repl p with
        | none =>
          rw [show replGet s p = [] from by simp [replGet, hal]] at hc
          simp at hc
        | some l =>
          exact hInv.hrlt (p, l) (alook_mem _ _ _ hal)
      have hcnt_item : (getC s3 c0).count (.m item.uid) = 1 := by
        rcases hct0 with rfl | ⟨p, rfl, hidx0⟩
        · show s3.top.count (.m item.uid) = 1
          rw [htopm3, hmtop, hfz.1, Nat.add_zero]
          exact hcnt0
        · show (replGet s3 p).count (.m item.uid) = 1
          rw [hreplm3, fetchMid_replGet_old cfg s item p (hrep_lt p item.uid hcnt0)]
          exact hcnt0
      have hct0b : c0 = CRef.topLevel ∨ ∃ p, c0 = CRef.replies p := by
        rcases hct0 with h1 | ⟨p, hp2, -⟩
        · exact Or.inl h1
        · exact Or.inr ⟨p, hp2⟩
      obtain ⟨s4b, hrn, hrf4, hidx4, hnx4, htm4, hkeys4, hcnt4, hocc4,
        hoccitem4, htopk4⟩ :=
        removeNode_effects s3 item.uid c0 hrf_item hcnt_item hkeys3 hct0b
      have hstep : fetchStep cfg s item
          = .ok ((fetchG cfg s item).map (fun pm => pm.2), s4b) := by
        unfold fetchStep
        split
        next e2 heq =>
          rw [hins] at heq
          injection heq with h1 h2
          exact absurd h2 (by simp)
        next s3b heq =>
          rw [hins] at heq
          injection heq with h1 h2
          subst h1
          rw [hrn]
      refine ⟨?_, ?_⟩
      · intro e herr
        rw [hstep] at herr
        exact Except.noConfusion herr
      · intro ps s4 hok4
        rw [hstep] at hok4
        have hpair := Except.ok.inj hok4
        injection hpair with hps hs4
        subst hps
        subst hs4
        have hpsb : ∀ mo ∈ (fetchG cfg s item).map (fun pm => pm.2),
            s.next ≤ mo.uid ∧ mo.uid < (fetchMid cfg s item).next := by
          intro mo hmo
          obtain ⟨pm, hpm, heq⟩ := List.mem_map.1 hmo
          rw [← heq, hmnext]
          exact fetchG_uid_range cfg s item pm hpm
        have hnx43 : s4b.next = (fetchMid cfg s item).next := hnx4.trans hnx3
        refine ⟨?_, by rw [hnx43]; exact hnextle, by rw [hnx43]; exact hpsb⟩
        refine ⟨?_, ?_, ?_, ?_, ?_, ?_, ?_, ?_⟩
        · rw [List.map_append, List.nodup_append]
          refine ⟨(popMax_rest_nodup h item rest hp hInv.hnodup).1, ?_, ?_⟩
          · rw [show (((fetchG cfg s item).map (fun pm => pm.2)).map (fun mo => mo.uid))
              = (fetchG cfg s item).map (fun pm => pm.2.uid) from by
                rw [List.map_map]
                rfl]
            exact fetchG_uids_nodup cfg s item
          · intro a ha hb
            obtain ⟨mo, hmo, heq⟩ := List.mem_map.1 ha
            have h1 : mo.uid < s.next :=
              hInv.hult mo ((popMax_mem h item rest hp).2 mo hmo)
            obtain ⟨mo2, hmo2, heq2⟩ := List.mem_map.1 hb
            have h2 := hpsb mo2 hmo2
            omega
        · intro mo hmo
          rw [hnx43]
          rcases List.mem_append.1 hmo with h1 | h2
          · have := hInv.hult mo ((popMax_mem h item rest hp).2 mo h1)
            omega
          · exact (hpsb mo h2).2
        · rw [hkeys4]
          exact hkeys3
        · intro e he
          have hke : e.1 ∈ s4b.repl.map (fun e => e.1) :=
            List.mem_map_of_mem (fun e => e.1) he
          rw [hkeys4] at hke
          obtain ⟨e2, he2, heq⟩ := List.mem_map.1 hke
          have := hrlt3 e2 he2
          rw [hnx43]
          omega
        · intro e he
          rw [hidx4] at he
          have := hilt3 e he
          rw [hnx43]
          omega
        · intro mo hmo
          rcases List.mem_append.1 hmo with hrest | hpsm
          · have hmo_h : mo ∈ h := (popMax_mem h item rest hp).2 mo hrest
            have hmo_lt : mo.uid < s.next := hInv.hult mo hmo_h
            have hmo_ne : mo.uid ≠ item.uid :=
              (popMax_rest_nodup h item rest hp hInv.hnodup).2 mo hrest
            have hxne : (NodeId.m mo.uid) ≠ (NodeId.m item.uid) := by
              intro hh
              exact hmo_ne (by injection hh)
            obtain ⟨c, hrfc, hcntc, hoccc, hctc⟩ := hInv.hloc mo hmo_h
            have hfzm := fetch_fresh_zero cfg s item mo.uid hmo_lt
            refine ⟨c, ?_, ?_, ?_, ?_⟩
            · rw [hrf4, hrf3, fetchMid_rf_old cfg s item mo.uid (by
                intro pm hpm heq
                have := fetchG_uid_range cfg s item pm hpm
                omega)]
              exact hrfc
            · rw [hcnt4 _ hxne]
              rcases hctc with rfl | ⟨p, rfl, hidxc⟩
              · show s3.top.count (.m mo.uid) = 1
                rw [htopm3, hmtop, hfzm.1, Nat.add_zero]
                exact hcntc
              · show (replGet s3 p).count (.m mo.uid) = 1
                rw [hreplm3, fetchMid_replGet_old cfg s item p (hrep_lt p mo.uid hcntc)]
                exact hcntc
            · rw [hocc4 _ hxne, hocc3, fetchMid_occ, hfzm.1, hfzm.2]
              omega
            · rcases hctc with rfl | ⟨p, rfl, hidxc⟩
              · exact Or.inl rfl
              · refine Or.inr ⟨p, rfl, ?_⟩
                rw [hidx4]
                apply hidxne3
                rw [hmidx]
                exact hidxc
          · obtain ⟨pm, hpm, heq⟩ := List.mem_map.1 hpsm
            obtain ⟨po, mo2⟩ := pm
            subst heq
            have hfr : s.next ≤ mo2.uid
                ∧ mo2.uid < (loadList (cfg.fetch item.name) s.next).2 :=
              fetchG_uid_range cfg s item (po, mo2) hpm
            have hxne : (NodeId.m mo2.uid) ≠ (NodeId.m item.uid) := by
              intro hh
              have h2 : mo2.uid = item.uid := by injection hh
              omega
            have hocc_s0 : occOf s (.m mo2.uid) = 0 := hInv.hghost mo2.uid (by
              intro mo3 hmo3 heq3
              have := hInv.hult mo3 hmo3
              omega)
            have htop_s0 : s.top.count (.m mo2.uid) = 0 := by
              have hdef : occOf s (.m mo2.uid)
                  = s.top.count (.m mo2.uid) + occEntries s.repl (.m mo2.uid) := rfl
              omega
            have htot := fetchG_total cfg s item po mo2 hpm
            have hrfm : alook s4b.rf mo2.uid = some (rfTarget CRef.topLevel po) := by
              rw [hrf4, hrf3]
              have h2 := fetchMid_rf_mem cfg s item po mo2 hpm
              rw [hfb] at h2
              exact h2
            cases po with
            | none =>
              have hroot : NodeId.m mo2.uid ∈ (fetchLns cfg s item).map nodeIdOf :=
                dfsMoresL_root (fetchLns cfg s item) mo2
                  ((fetchG_mem cfg s item none mo2).1 hpm)
              have hroot1 : ((fetchLns cfg s item).map nodeIdOf).count (.m mo2.uid)
                  = 1 := by
                have hpos : 0 < ((fetchLns cfg s item).map nodeIdOf).count
                    (.m mo2.uid) := List.count_pos_iff.2 hroot
                omega
              have hent0 : occEntries (declList (fetchLns cfg s item)) (.m mo2.uid)
                  = 0 := by omega
              refine ⟨CRef.topLevel, hrfm, ?_, ?_, Or.inl rfl⟩
              · rw [hcnt4 _ hxne]
                show s3.top.count (.m mo2.uid) = 1
                rw [htopm3, hmtop, hroot1, htop_s0]
              · rw [hocc4 _ hxne, hocc3, fetchMid_occ, hroot1, hent0, hocc_s0]
            | some p =>
              have hm2 := (fetchG_mem cfg s item (some p) mo2).1 hpm
              obtain ⟨l, haldecl, hmeml⟩ :=
                placeRootsL (fetchLns cfg s item) p mo2 hlnsnodup hm2
              have hpkey : p ∈ (declList (fetchLns cfg s item)).map (fun e => e.1) :=
                alook_isSome_mem_keys _ p l haldecl
              have hpfr := fetchLns_declkey_range cfg s item p hpkey
              have hmidrepl : replGet (fetchMid cfg s item) p = l := by
                show (alook (fetchMid cfg s item).repl p).getD [] = l
                rw [hmrepl, alook_append, alook_notmem s.repl p (by
                  intro e he heq
                  have := hInv.hrlt e he
                  omega), haldecl]
                rfl
              have hlcnt : l.count (.m mo2.uid) = 1 := by
                have hle := entry_le_occEntries (declList (fetchLns cfg s item)) p l
                  (.m mo2.uid) (alook_mem _ _ _ haldecl)
                have hpos : 0 < l.count (.m mo2.uid) := List.count_pos_iff.2 hmeml
                omega
              refine ⟨CRef.replies p, hrfm, ?_, ?_, Or.inr ⟨p, rfl, ?_⟩⟩
              · rw [hcnt4 _ hxne]
                show (replGet s3 p).count (.m mo2.uid) = 1
                rw [hreplm3, hmidrepl]
                exact hlcnt
              · rw [hocc4 _ hxne, hocc3, fetchMid_occ, hocc_s0]
                omega
              · rw [hidx4]
                apply hidxc3
                exact comment_of_declkey (fetchLns cfg s item) p hpkey
        · intro u hu
          by_cases hui : u = item.uid
          · subst hui
            have h3 : occOf s3 (.m item.uid) = 1 := by
              rw [hocc3, fetchMid_occ, hfz.1, hfz.2]
              omega
            omega
          · have hxne : (NodeId.m u) ≠ (NodeId.m item.uid) := by
              intro hh
              exact hui (by injection hh)
            rw [hocc4 _ hxne, hocc3, fetchMid_occ]
            have hs0 : occOf s (.m u) = 0 := hInv.hghost u (by
              intro mo3 hmo3
              rcases popMax_mem_rev h item rest hp mo3 hmo3 with rfl | hr
              · exact fun heq => hui heq.symm
              · exact hu mo3 (List.mem_append.2 (Or.inl hr)))
            have hdfs0 : ((fetchLns cfg s item).map nodeIdOf).count (.m u)
                + occEntries (declList (fetchLns cfg s item)) (.m u) = 0 := by
              have hocc := occ_dfs_list (fetchLns cfg s item) none u
              have hz : (dfsMoresL none (fetchLns cfg s item)).countP
                  (fun pm => pm.2.uid == u) = 0 := by
                rw [countP_uid_eq_count, List.count_eq_zero]
                intro hmem
                obtain ⟨pm2, hpm2, heq2⟩ := List.mem_map.1 hmem
                obtain ⟨po2, mo4⟩ := pm2
                have hin : (po2, mo4) ∈ fetchG cfg s item :=
                  (fetchG_mem cfg s item po2 mo4).2 hpm2
                have hmm : mo4 ∈ (fetchG cfg s item).map (fun pm => pm.2) :=
                  List.mem_map_of_mem (fun pm => pm.2) hin
                exact hu mo4 (List.mem_append.2 (Or.inr hmm)) heq2
              omega
            rw [hs0]
            omega
        · rcases hP3 with ⟨w, hw⟩ | hie
          · exact Or.inl ⟨w, htopk4 w hw⟩
          · exact Or.inr (hidx4.trans hie)

/-- The loop invariant holds on entry to the `replace_more` loop: after the
initial deserialization and `_gather_more_comments(self._comments)`, every
gathered placeholder's `_remove_from` names the live container holding its
unique occurrence. -/
theorem init_inv (init : List PNode) :
    LoopInv (applyGather (initState init) (gatherInit init) CRef.topLevel)
      ((gatherInit init).map (fun pm => pm.2)) := by
  have hls := loadList_spec init 0
  have hfields := applyGather_fields (initState init) (gatherInit init) CRef.topLevel
  have htops : (applyGather (initState init) (gatherInit init) CRef.topLevel).top
      = (loadList init 0).1.map nodeIdOf := hfields.1
  have hrepls : (applyGather (initState init) (gatherInit init) CRef.topLevel).repl
      = declList (loadList init 0).1 := hfields.2.1
  have hidxs : (applyGather (initState init) (gatherInit init) CRef.topLevel).index
      = regList (loadList init 0).1 := hfields.2.2.1
  have hnexts : (applyGather (initState init) (gatherInit init) CRef.topLevel).next
      = (loadList init 0).2 := hfields.2.2.2.2
  have hlnsnodup : (uidsTs (loadList init 0).1).Nodup := by
    rw [hls.2]
    exact List.nodup_range' _ _ _ one_pos
  have hgnodup : ((gatherInit init).map (fun pm => pm.2.uid)).Nodup :=
    gatherLoaded_uids_nodup init 0
  have hmemiff : ∀ (po : Option Nat) (mo : MoreObj),
      (po, mo) ∈ gatherInit init ↔ (po, mo) ∈ dfsMoresL none (loadList init 0).1 := by
    intro po mo
    have hperm := gatherQ_perm ((loadList init 0).1.map
      (fun t => ((none : Option Nat), t)))
    rw [dfsQ_mapP] at hperm
    exact hperm.mem_iff
  have huidlt : ∀ u ∈ uidsTs (loadList init 0).1, u < (loadList init 0).2 := by
    intro u hu
    rw [hls.2, List.mem_range'_1] at hu
    rw [hls.1]
    omega
  have hocc_def : ∀ x, occOf (applyGather (initState init) (gatherInit init)
        CRef.topLevel) x
      = ((loadList init 0).1.map nodeIdOf).count x
        + occEntries (declList (loadList init 0).1) x := by
    intro x
    show (applyGather (initState init) (gatherInit init) CRef.topLevel).top.count x
      + ((applyGather (initState init) (gatherInit init) CRef.topLevel).repl.map
          (fun e => e.2.count x)).sum = _
    rw [htops, hrepls]
    rfl
  have hreplget : ∀ p, replGet (applyGather (initState init) (gatherInit init)
        CRef.topLevel) p = (alook (declList (loadList init 0).1) p).getD [] := by
    intro p
    show (alook (applyGather (initState init) (gatherInit init)
        CRef.topLevel).repl p).getD [] = _
    rw [hrepls]
  have htotal : ∀ (po : Option Nat) (mo : MoreObj), (po, mo) ∈ gatherInit init →
      ((loadList init 0).1.map nodeIdOf).count (.m mo.uid)
        + occEntries (declList (loadList init 0).1) (.m mo.uid) = 1 := by
    intro po mo hm
    have hocc := occ_dfs_list (loadList init 0).1 none mo.uid
    have h1 := countP_eq_one_of_mem _ po mo (dfsLoaded_uids_nodup init 0)
      ((hmemiff po mo).1 hm)
    omega
  refine ⟨?_, ?_, ?_, ?_, ?_, ?_, ?_, ?_⟩
  · rw [show (((gatherInit init).map (fun pm => pm.2)).map (fun mo => mo.uid))
      = (gatherInit init).map (fun pm => pm.2.uid) from by
        rw [List.map_map]
        rfl]
    exact hgnodup
  · intro mo hmo
    obtain ⟨pm, hpm, heq⟩ := List.mem_map.1 hmo
    obtain ⟨po, mo2⟩ := pm
    have heq2 : mo2 = mo := heq
    subst heq2
    rw [hnexts]
    have hu : mo2.uid ∈ uidsTs (loadList init 0).1 :=
      (dfsMoresL_uids_sub none (loadList init 0).1).subset
        (List.mem_map_of_mem (fun pm => pm.2.uid) ((hmemiff po mo2).1 hpm))
    exact huidlt _ hu
  · rw [hrepls]
    exact List.Nodup.sublist (declList_keys_sub (loadList init 0).1) hlnsnodup
  · intro e he
    rw [hrepls] at he
    rw [hnexts]
    exact huidlt e.1 ((declList_keys_sub (loadList init 0).1).subset
      (List.mem_map_of_mem (fun e => e.1) he))
  · intro e he
    rw [hidxs] at he
    rw [hnexts]
    exact huidlt e.2 ((regList_vals_sub (loadList init 0).1).subset
      (List.mem_map_of_mem (fun e => e.2) he))
  · intro mo hmo
    obtain ⟨pm, hpm, heq⟩ := List.mem_map.1 hmo
    obtain ⟨po, mo2⟩ := pm
    have heq2 : mo2 = mo := heq
    subst heq2
    have hrf : alook (applyGather (initState init) (gatherInit init)
        CRef.topLevel).rf mo2.uid = some (rfTarget CRef.topLevel po) :=
      applyGather_rf_mem (gatherInit init) (initState init) CRef.topLevel po mo2
        hgnodup hpm
    have htot := htotal po mo2 hpm
    cases po with
    | none =>
      have hroot : NodeId.m mo2.uid ∈ (loadList init 0).1.map nodeIdOf :=
        dfsMoresL_root (loadList init 0).1 mo2 ((hmemiff none mo2).1 hpm)
      have hroot1 : ((loadList init 0).1.map nodeIdOf).count (.m mo2.uid) = 1 := by
        have hpos := List.count_pos_iff.2 hroot
        omega
      refine ⟨CRef.topLevel, hrf, ?_, ?_, Or.inl rfl⟩
      · show (applyGather (initState init) (gatherInit init)
          CRef.topLevel).top.count (.m mo2.uid) = 1
        rw [htops]
        exact hroot1
      · rw [hocc_def]
        omega
    | some p =>
      obtain ⟨l, haldecl, hmeml⟩ := placeRootsL (loadList init 0).1 p mo2 hlnsnodup
        ((hmemiff (some p) mo2).1 hpm)
      have hlcnt : l.count (.m mo2.uid) = 1 := by
        have hle := entry_le_occEntries (declList (loadList init 0).1) p l
          (.m mo2.uid) (alook_mem _ _ _ haldecl)
        have hpos := List.count_pos_iff.2 hmeml
        omega
      refine ⟨CRef.replies p, hrf, ?_, ?_, Or.inr ⟨p, rfl, ?_⟩⟩
      · show (replGet (applyGather (initState init) (gatherInit init)
          CRef.topLevel) p).count (.m mo2.uid) = 1
        rw [hreplget p, haldecl]
        exact hlcnt
      · rw [hocc_def]
        omega
      · rw [hidxs]
        intro hnil
        have hd := regList_nil_decl (loadList init 0).1 hnil
        rw [hd] at haldecl
        exact absurd haldecl (by simp [alook])
  · intro u hu
    rw [hocc_def]
    have hz : (dfsMoresL none (loadList init 0).1).countP
        (fun pm => pm.2.uid == u) = 0 := by
      rw [countP_uid_eq_count, List.count_eq_zero]
      intro hmem
      obtain ⟨pm2, hpm2, heq2⟩ := List.mem_map.1 hmem
      obtain ⟨po2, mo4⟩ := pm2
      have hin : (po2, mo4) ∈ gatherInit init := (hmemiff po2 mo4).2 hpm2
      exact hu mo4 (List.mem_map_of_mem (fun pm => pm.2) hin) heq2
    have hocc := occ_dfs_list (loadList init 0).1 none u
    omega
  · by_cases hreg : regList (loadList init 0).1 = []
    · exact Or.inr (hidxs.trans hreg)
    · obtain ⟨w, hw⟩ := regList_comment_root (loadList init 0).1 hreg
      refine Or.inl ⟨w, ?_⟩
      rw [htops]
      exact hw

theorem countFetched_append (a b : List CEv) :
    countFetched (a ++ b) = countFetched a + countFetched b := by
  simp [countFetched, List.filter_append]

/-- Budget arithmetic of a completed loop run: with a set budget `r`, the
number of fetched events grows by at most `max r 0`. -/
theorem loopF_budget (cfg : Cfg) :
    ∀ (fuel : Nat) (h : List MoreObj) (r : Int) (s : FState)
      (sk : List MoreObj) (tr : List CEv) (res : List MoreObj) (sF : FState)
      (trF : List CEv),
    loopF cfg fuel h (some r) s sk tr = some (.ok (res, sF, trF)) →
    (countFetched trF : Int) ≤ countFetched tr + max r 0 := by
  intro fuel
  induction fuel with
  | zero =>
    intro h r s sk tr res sF trF hrun
    cases hp : popMax h with
    | none =>
      have hnil : h = [] := (popMax_none h).1 hp
      subst hnil
      simp only [loopF, stepF, popMax] at hrun
      simp only [Option.some.injEq, Except.ok.injEq, Prod.mk.injEq] at hrun
      rw [← hrun.2.2]
      have hm := le_max_right r (0 : Int)
      omega
    | some p =>
      obtain ⟨item, rest⟩ := p
      by_cases hsc : skipCond (some r) cfg.threshold item.count
      · cases hrm : removeNode s item.uid with
        | error e => simp [loopF, stepF, hp, hsc, hrm] at hrun
        | ok s1 => simp [loopF, stepF, hp, hsc, hrm] at hrun
      · cases hf : fetchStep cfg s item with
        | error e => simp [loopF, stepF, hp, hsc, hf] at hrun
        | ok pr =>
          obtain ⟨ps, s1⟩ := pr
          simp [loopF, stepF, hp, hsc, hf] at hrun
  | succ fuel ih =>
    intro h r s sk tr res sF trF hrun
    cases hp : popMax h with
    | none =>
      have hnil : h = [] := (popMax_none h).1 hp
      subst hnil
      simp only [loopF, stepF, popMax] at hrun
      simp only [Option.some.injEq, Except.ok.injEq, Prod.mk.injEq] at hrun
      rw [← hrun.2.2]
      have hm := le_max_right r (0 : Int)
      omega
    | some p =>
      obtain ⟨item, rest⟩ := p
      by_cases hsc : skipCond (some r) cfg.threshold item.count
      · cases hrm : removeNode s item.uid with
        | error e => simp [loopF, stepF, hp, hsc, hrm] at hrun
        | ok s1 =>
          simp only [loopF, stepF, hp, hsc, if_true, hrm] at hrun
          have hih := ih rest r s1 (sk ++ [item]) (tr ++ [.skipped item])
            res sF trF hrun
          rw [countFetched_append] at hih
          have hz : countFetched [CEv.skipped item] = 0 := rfl
          omega
      · cases hf : fetchStep cfg s item with
        | error e => simp [loopF, stepF, hp, hsc, hf] at hrun
        | ok pr =>
          obtain ⟨ps, s1⟩ := pr
          have hscf : skipCond (some r) cfg.threshold item.count = false := by
            cases hx : skipCond (some r) cfg.threshold item.count
            · rfl
            · exact absurd hx hsc
          have hr0 : 0 < r := by
            have hx : (decide (r ≤ 0)
                || decide ((item.count : Int) < cfg.threshold)) = false := hscf
            rw [Bool.or_eq_false_iff] at hx
            have := of_decide_eq_false hx.1
            omega
          simp only [loopF, stepF, hp, hscf, Bool.false_eq_true, if_false, hf,
            Option.map_some'] at hrun
          have hih := ih (rest ++ ps) (r - 1) s1 sk (tr ++ [.fetched item])
            res sF trF hrun
          rw [countFetched_append] at hih
          have ho : countFetched [CEv.fetched item] = 1 := rfl
          have hm1 : max r 0 = r := max_eq_left (le_of_lt hr0)
          have hm2 : max (r - 1) 0 = r - 1 := max_eq_left (by omega)
          omega

/-- A run with `limit = 0` pops and skips every queued placeholder: given
enough fuel it always completes, returns them all as skipped with no fetch
event, and leaves every comment and the identity index untouched. -/
theorem loop0 (cfg : Cfg) :
    ∀ (fuel : Nat) (h : List MoreObj) (s : FState) (sk : List MoreObj)
      (tr : List CEv), LoopInv s h → h.length ≤ fuel →
    ∃ (q : List MoreObj) (sF : FState) (te : List CEv),
      loopF cfg fuel h (some 0) s sk tr = some (.ok (sk ++ q, sF, tr ++ te))
      ∧ q.Perm h
      ∧ (∀ ev ∈ te, ∃ mo ∈ h, ev = CEv.skipped mo)
      ∧ countFetched te = 0
      ∧ sF.index = s.index
      ∧ (∀ u, occOf sF (.c u) = occOf s (.c u))
      ∧ (∀ u, sF.top.count (.c u) = s.top.count (.c u))
      ∧ (∀ u, occOf sF (.m u) = 0) := by
  intro fuel
  induction fuel with
  | zero =>
    intro h s sk tr hInv hlen
    have hnil : h = [] := List.length_eq_zero.1 (Nat.le_zero.1 hlen)
    subst hnil
    refine ⟨[], s, [], ?_, List.Perm.refl _, by simp, rfl, rfl,
      fun u => rfl, fun u => rfl, fun u => hInv.hghost u (by simp)⟩
    simp only [loopF, stepF, popMax, List.append_nil]
  | succ fuel ih =>
    intro h s sk tr hInv hlen
    cases hp : popMax h with
    | none =>
      have hnil : h = [] := (popMax_none h).1 hp
      subst hnil
      refine ⟨[], s, [], ?_, List.Perm.refl _, by simp, rfl, rfl,
        fun u => rfl, fun u => rfl, fun u => hInv.hghost u (by simp)⟩
      simp only [loopF, stepF, popMax, List.append_nil]
    | some p =>
      obtain ⟨item, rest⟩ := p
      have hsc : skipCond (some 0) cfg.threshold item.count = true := by
        simp [skipCond]
      obtain ⟨s1, hrm, hInv1, hocc0, hidx1, hnx1, hrf1, htm1, hpres, hoccc1, htopc1⟩ :=
        skip_preserve s h item rest hp hInv
      have hlen1 : rest.length ≤ fuel := by
        obtain ⟨a, b, heq1, heq2, -, -⟩ := popMax_spec h item rest hp
        subst heq1
        subst heq2
        simp at hlen ⊢
        omega
      obtain ⟨q, sF, te, hrun, hperm, hev, hcf, hidx, hoccc, htopc, hoccm⟩ :=
        ih rest s1 (sk ++ [item]) (tr ++ [CEv.skipped item]) hInv1 hlen1
      refine ⟨item :: q, sF, CEv.skipped item :: te, ?_, ?_, ?_, ?_, ?_, ?_, ?_, hoccm⟩
      · simp only [loopF, stepF, hp, hsc, if_true, hrm]
        rw [hrun]
        simp
      · obtain ⟨a, b, heq1, heq2, -, -⟩ := popMax_spec h item rest hp
        subst heq1
        subst heq2
        exact (hperm.cons item).trans List.perm_middle.symm
      · intro ev hev2
        rcases List.mem_cons.1 hev2 with rfl | h2
        · exact ⟨item, (popMax_mem h item rest hp).1, rfl⟩
        · obtain ⟨mo, hmo, heqe⟩ := hev ev h2
          exact ⟨mo, (popMax_mem h item rest hp).2 mo hmo, heqe⟩
      · rw [show CEv.skipped item :: te = [CEv.skipped item] ++ te from rfl,
          countFetched_append, hcf]
        rfl
      · exact hidx.trans hidx1
      · intro u
        exact (hoccc u).trans (hoccc1 u)
      · intro u
        exact (htopc u).trans (htopc1 u)

/-- C2: with a non-None limit `n`, a completed `replace_more` run performs
at most `max n 0` fetch calls (the budget check of line 198 decrements once
per fetch, line 205); and with `limit = 0` the run always completes (given
fuel), performs zero fetch calls, returns every originally gathered
placeholder - all of them skipped - and adds no Comment to the forest
(comment occurrences at top level and overall, and the identity index, are
unchanged). -/
theorem replace_more_budget (fetch : String → List PNode) (threshold : Int)
    (init : List PNode) :
    (∀ (n : Int) (fuel : Nat) (res : List MoreObj) (sF : FState) (trF : List CEv),
      replaceMore fetch (some n) threshold init fuel = some (.ok (res, sF, trF)) →
      (countFetched trF : Int) ≤ max n 0)
    ∧ ∀ fuel, (gatherInit init).length ≤ fuel →
      ∃ (res : List MoreObj) (sF : FState) (trF : List CEv),
        replaceMore fetch (some 0) threshold init fuel = some (.ok (res, sF, trF))
        ∧ res.Perm ((gatherInit init).map (fun pm => pm.2))
        ∧ countFetched trF = 0
        ∧ (∀ ev ∈ trF, ∃ mo, ev = CEv.skipped mo)
        ∧ sF.index = (initState init).index
        ∧ (∀ u, occOf sF (.c u) = occOf (initState init) (.c u))
        ∧ (∀ u, sF.top.count (.c u) = (initState init).top.count (.c u)) := by
  constructor
  · intro n fuel res sF trF hrun
    simp only [replaceMore] at hrun
    have hb := loopF_budget ⟨fetch, threshold⟩ fuel
      ((gatherInit init).map (fun pm => pm.2)) n
      (applyGather (initState init) (gatherInit init) CRef.topLevel) [] []
      res sF trF hrun
    have hz : countFetched ([] : List CEv) = 0 := rfl
    omega
  · intro fuel hfuel
    have hInv := init_inv init
    have hlen : ((gatherInit init).map (fun pm => pm.2)).length ≤ fuel := by
      rw [List.length_map]
      exact hfuel
    obtain ⟨q, sF, te, hrun, hperm, hev, hcf, hidx, hoccc, htopc, hoccm⟩ :=
      loop0 ⟨fetch, threshold⟩ fuel ((gatherInit init).map (fun pm => pm.2))
        (applyGather (initState init) (gatherInit init) CRef.topLevel) [] []
        hInv hlen
    refine ⟨[] ++ q, sF, [] ++ te, ?_, ?_, ?_, ?_, ?_, ?_, ?_⟩
    · show replaceMore fetch (some 0) threshold init fuel = _
      simp only [replaceMore]
      exact hrun
    · simpa using hperm
    · simpa using hcf
    · intro ev hev2
      obtain ⟨mo, hmo, heq⟩ := hev ev (by simpa using hev2)
      exact ⟨mo, heq⟩
    · rw [hidx]
      exact (applyGather_fields (initState init) (gatherInit init) CRef.topLevel).2.2.1
    · intro u
      rw [hoccc u]
      show occOf (applyGather (initState init) (gatherInit init) CRef.topLevel)
        (.c u) = occOf (initState init) (.c u)
      rw [applyGather_eq]
      rfl
    · intro u
      rw [htopc u]
      show (applyGather (initState init) (gatherInit init) CRef.topLevel).top.count
        (.c u) = (initState init).top.count (.c u)
      rw [applyGather_eq]

/-- C2 witness: the limit-0 characterization evaluated on a one-placeholder
forest. -/
theorem replace_more_budget_witness :
    ∃ (res : List MoreObj) (sF : FState) (trF : List CEv),
      replaceMore (fun _ => []) (some 0) 0 [PNode.more "m1" 5] 1
          = some (.ok (res, sF, trF))
        ∧ res.Perm ((gatherInit [PNode.more "m1" 5]).map (fun pm => pm.2))
        ∧ countFetched trF = 0
        ∧ (∀ ev ∈ trF, ∃ mo, ev = CEv.skipped mo)
        ∧ sF.index = (initState [PNode.more "m1" 5]).index
        ∧ (∀ u, occOf sF (.c u) = occOf (initState [PNode.more "m1" 5]) (.c u))
        ∧ (∀ u, sF.top.count (.c u)
            = (initState [PNode.more "m1" 5]).top.count (.c u)) :=
  (replace_more_budget (fun _ => []) 0 [PNode.more "m1" 5]).2 1 (by decide)

/-- The placeholder a loop event is about. -/
def evMo : CEv → MoreObj
  | .fetched mo => mo
  | .skipped mo => mo

/-- Terminal-state induction for the `replace_more` loop: under the
self-parent sanity condition on every fetch result, the loop never raises
the removal errors (`ValueError` from `list.remove`, `AttributeError` from
an unset `_remove_from`), every placeholder is popped at most once (event
identities stay pairwise distinct), and a normal exit leaves no placeholder
anywhere in the forest. -/
theorem loopR (cfg : Cfg) (hok : ∀ nm, selfOkPL (cfg.fetch nm) = true) :
    ∀ (fuel : Nat) (h : List MoreObj) (rem : Option Int) (s : FState)
      (sk : List MoreObj) (tr : List CEv)
      (out : Except CErr (List MoreObj × FState × List CEv)),
    loopF cfg fuel h rem s sk tr = some out →
    LoopInv s h →
    (tr.map (fun e => (evMo e).uid)).Nodup →
    (∀ u ∈ tr.map (fun e => (evMo e).uid), u < s.next ∧ ∀ mo ∈ h, mo.uid ≠ u) →
    (out ≠ .error CErr.valueError ∧ out ≠ .error CErr.attributeError)
    ∧ ∀ res sF trF, out = .ok (res, sF, trF) →
        (trF.map (fun e => (evMo e).uid)).Nodup
        ∧ (∀ u, occOf sF (.m u) = 0) := by
  intro fuel
  induction fuel with
  | zero =>
    intro h rem s sk tr out hrun hInv hnd hbd
    cases hp : popMax h with
    | none =>
      have hnil : h = [] := (popMax_none h).1 hp
      subst hnil
      simp only [loopF, stepF, popMax] at hrun
      have hout := Option.some.inj hrun
      subst hout
      refine ⟨⟨by simp, by simp⟩, ?_⟩
      intro res sF trF heq
      have hpr := Except.ok.inj heq
      injection hpr with h1 h2
      injection h2 with h3 h4
      subst h3
      subst h4
      exact ⟨hnd, fun u => hInv.hghost u (by simp)⟩
    | some p =>
      obtain ⟨item, rest⟩ := p
      by_cases hsc : skipCond rem cfg.threshold item.count
      · cases hrm : removeNode s item.uid with
        | error e =>
          obtain ⟨s1, hrm2, -⟩ := skip_preserve s h item rest hp hInv
          rw [hrm2] at hrm
          exact Except.noConfusion hrm
        | ok s1 => simp [loopF, stepF, hp, hsc, hrm] at hrun
      · cases hf : fetchStep cfg s item with
        | error e =>
          have he := (fetch_preserve cfg s h item rest hp hInv (hok item.name)).1 e hf
          have hscf : skipCond rem cfg.threshold item.count = false := by
            cases hx : skipCond rem cfg.threshold item.count
            · rfl
            · exact absurd hx hsc
          simp only [loopF, stepF, hp, hscf, Bool.false_eq_true, if_false, hf,
            Option.some.injEq] at hrun
          subst hrun
          refine ⟨⟨?_, ?_⟩, ?_⟩
          · intro hc
            injection hc with h2
            rcases he with rfl | rfl <;> exact CErr.noConfusion h2
          · intro hc
            injection hc with h2
            rcases he with rfl | rfl <;> exact CErr.noConfusion h2
          · intro res sF trF heq
            exact Except.noConfusion heq
        | ok pr =>
          obtain ⟨ps, s1⟩ := pr
          simp [loopF, stepF, hp, hsc, hf] at hrun
  | succ fuel ih =>
    intro h rem s sk tr out hrun hInv hnd hbd
    cases hp : popMax h with
    | none =>
      have hnil : h = [] := (popMax_none h).1 hp
      subst hnil
      simp only [loopF, stepF, popMax] at hrun
      have hout := Option.some.inj hrun
      subst hout
      refine ⟨⟨by simp, by simp⟩, ?_⟩
      intro res sF trF heq
      have hpr := Except.ok.inj heq
      injection hpr with h1 h2
      injection h2 with h3 h4
      subst h3
      subst h4
      exact ⟨hnd, fun u => hInv.hghost u (by simp)⟩
    | some p =>
      obtain ⟨item, rest⟩ := p
      have hitem_lt := hInv.hult item (popMax_mem h item rest hp).1
      by_cases hsc : skipCond rem cfg.threshold item.count
      · cases hrm : removeNode s item.uid with
        | error e =>
          obtain ⟨s1, hrm2, -⟩ := skip_preserve s h item rest hp hInv
          rw [hrm2] at hrm
          exact Except.noConfusion hrm
        | ok s1 =>
          obtain ⟨s1b, hrm2, hInv1, hocc0, hidx1, hnx1, hrf1, htm1, hpres,
            hoccc1, htopc1⟩ := skip_preserve s h item rest hp hInv
          rw [hrm2] at hrm
          have hs1 : s1b = s1 := Except.ok.inj hrm
          subst hs1
          simp only [loopF, stepF, hp, hsc, if_true, hrm2] at hrun
          have hnd' : ((tr ++ [CEv.skipped item]).map
              (fun e => (evMo e).uid)).Nodup := by
            rw [List.map_append, List.nodup_append]
            refine ⟨hnd, by simp, ?_⟩
            intro a ha hb
            simp only [List.map_cons, List.map_nil, List.mem_singleton, evMo] at hb
            exact ((hbd a ha).2 item (popMax_mem h item rest hp).1) hb.symm
          have hbd' : ∀ u ∈ (tr ++ [CEv.skipped item]).map
              (fun e => (evMo e).uid),
              u < s1b.next ∧ ∀ mo ∈ rest, mo.uid ≠ u := by
            intro u hu
            rw [List.map_append] at hu
            rcases List.mem_append.1 hu with h1 | h2
            · obtain ⟨hlt, hne⟩ := hbd u h1
              rw [hnx1]
              exact ⟨hlt, fun mo hmo =>
                hne mo ((popMax_mem h item rest hp).2 mo hmo)⟩
            · simp only [List.map_cons, List.map_nil, List.mem_singleton, evMo] at h2
              subst h2
              rw [hnx1]
              exact ⟨hitem_lt, fun mo hmo =>
                (popMax_rest_nodup h item rest hp hInv.hnodup).2 mo hmo⟩
          exact ih rest rem s1b (sk ++ [item]) (tr ++ [CEv.skipped item]) out
            hrun hInv1 hnd' hbd'
      · cases hf : fetchStep cfg s item with
        | error e =>
          have he := (fetch_preserve cfg s h item rest hp hInv (hok item.name)).1 e hf
          have hscf : skipCond rem cfg.threshold item.count = false := by
            cases hx : skipCond rem cfg.threshold item.count
            · rfl
            · exact absurd hx hsc
          simp only [loopF, stepF, hp, hscf, Bool.false_eq_true, if_false, hf,
            Option.some.injEq] at hrun
          subst hrun
          refine ⟨⟨?_, ?_⟩, ?_⟩
          · intro hc
            injection hc with h2
            rcases he with rfl | rfl <;> exact CErr.noConfusion h2
          · intro hc
            injection hc with h2
            rcases he with rfl | rfl <;> exact CErr.noConfusion h2
          · intro res sF trF heq
            exact Except.noConfusion heq
        | ok pr =>
          obtain ⟨ps, s1⟩ := pr
          have hscf : skipCond rem cfg.threshold item.count = false := by
            cases hx : skipCond rem cfg.threshold item.count
            · rfl
            · exact absurd hx hsc
          obtain ⟨hInv1, hnle, hpsb⟩ :=
            (fetch_preserve cfg s h item rest hp hInv (hok item.name)).2 ps s1 hf
          simp only [loopF, stepF, hp, hscf, Bool.false_eq_true, if_false, hf] at hrun
          have hnd' : ((tr ++ [CEv.fetched item]).map
              (fun e => (evMo e).uid)).Nodup := by
            rw [List.map_append, List.nodup_append]
            refine ⟨hnd, by simp, ?_⟩
            intro a ha hb
            simp only [List.map_cons, List.map_nil, List.mem_singleton, evMo] at hb
            exact ((hbd a ha).2 item (popMax_mem h item rest hp).1) hb.symm
          have hbd' : ∀ u ∈ (tr ++ [CEv.fetched item]).map
              (fun e => (evMo e).uid),
              u < s1.next ∧ ∀ mo ∈ rest ++ ps, mo.uid ≠ u := by
            intro u hu
            rw [List.map_append] at hu
            rcases List.mem_append.1 hu with h1 | h2
            · obtain ⟨hlt, hne⟩ := hbd u h1
              refine ⟨by omega, ?_⟩
              intro mo hmo
              rcases List.mem_append.1 hmo with hr | hpm
              · exact hne mo ((popMax_mem h item rest hp).2 mo hr)
              · have := (hpsb mo hpm).1
                omega
            · simp only [List.map_cons, List.map_nil, List.mem_singleton, evMo] at h2
              subst h2
              refine ⟨by omega, ?_⟩
              intro mo hmo
              rcases List.mem_append.1 hmo with hr | hpm
              · exact (popMax_rest_nodup h item rest hp hInv.hnodup).2 mo hr
              · have := (hpsb mo hpm).1
                omega
          exact ih (rest ++ ps) (rem.map (fun r => r - 1)) s1 sk
            (tr ++ [CEv.fetched item]) out hrun hInv1 hnd' hbd'

/-- C9 counterexample: a fetched non-root comment naming itself as parent is
threaded into its own replies instead of the top level, so a later fetch
sees an empty top-level list and the gather fallback `parent_tree or tree`
degrades to the throwaway `new_comments` list: placeholder 4's
`_remove_from` is the second throwaway list (`CRef.temp 2`), its removal
quietly edits that dead list, and after the run completes normally (empty
return, every placeholder fetched - trace [0, 1, 3, 4]) the placeholder
node 4 is still present in the forest's top-level sequence. -/
theorem replace_more_terminal_cex :
    (replaceMore
        (fun nm => if nm = "m1" then [PNode.comment "a" "a" false [PNode.more "m3" 1]]
          else if nm = "m3" then [PNode.more "m4" 1] else [])
        none 0 [PNode.more "m1" 5, PNode.more "m2" 3] 10).map
      (fun r => match r with
        | .ok (res, sF, tr) => some (res, decide (NodeId.m 4 ∈ sF.top),
            alook sF.rf 4,
            tr.filterMap (fun e => match e with
              | CEv.fetched mo => some mo.uid
              | CEv.skipped _ => none))
        | .error _ => none)
      = some (some ([], true, some (CRef.temp 2), [0, 1, 3, 4])) := by
  rfl

/-- C9 (amended): when no fetched non-root comment names itself as parent
(`selfOkPL` on every fetch result - the degenerate case refuted by the
counterexample), every placeholder popped by a completed `replace_more` run
reaches exactly one terminal state: the removal of line 200/216 always
finds its target alive and holding the placeholder (the run can never fail
with the removal errors `ValueError`/`AttributeError`), no placeholder is
popped twice (the event identities are pairwise distinct), and at normal
exit no placeholder node remains anywhere in the forest - in particular
none of the returned (skipped) placeholders does. -/
theorem replace_more_terminal (fetch : String → List PNode) (limit : Option Int)
    (threshold : Int) (init : List PNode) (fuel : Nat)
    (hok : ∀ nm, selfOkPL (fetch nm) = true)
    (out : Except CErr (List MoreObj × FState × List CEv))
    (hrun : replaceMore fetch limit threshold init fuel = some out) :
    (out ≠ .error CErr.valueError ∧ out ≠ .error CErr.attributeError)
    ∧ ∀ res sF trF, out = .ok (res, sF, trF) →
        (trF.map (fun e => (evMo e).uid)).Nodup
        ∧ (∀ u, occOf sF (.m u) = 0)
        ∧ (∀ mo ∈ res, occOf sF (.m mo.uid) = 0) := by
  simp only [replaceMore] at hrun
  have hmain := loopR ⟨fetch, threshold⟩ hok fuel
    ((gatherInit init).map (fun pm => pm.2)) limit
    (applyGather (initState init) (gatherInit init) CRef.topLevel) [] [] out hrun
    (init_inv init) (by simp) (by simp)
  refine ⟨hmain.1, ?_⟩
  intro res sF trF heq
  obtain ⟨hnd, hocc⟩ := hmain.2 res sF trF heq
  exact ⟨hnd, hocc, fun mo _ => hocc mo.uid⟩

/-- C9 witness: the amended theorem evaluated on a one-placeholder forest
with an empty-returning collaborator. -/
theorem replace_more_terminal_witness :
    ∃ out, replaceMore (fun _ => []) none 0 [PNode.more "m1" 5] 2 = some out
      ∧ ((out ≠ .error CErr.valueError ∧ out ≠ .error CErr.attributeError)
        ∧ ∀ res sF trF, out = .ok (res, sF, trF) →
            (trF.map (fun e => (evMo e).uid)).Nodup
            ∧ (∀ u, occOf sF (.m u) = 0)
            ∧ (∀ mo ∈ res, occOf sF (.m mo.uid) = 0)) :=
  ⟨_, rfl, replace_more_terminal (fun _ => []) none 0 [PNode.more "m1" 5] 2
    (fun _ => rfl) _ rfl⟩

/-- The part of the loop invariant needed when no placeholder is ever
pushed mid-run (comment-only fetches): identities distinct and allocated,
replies map well-formed, every queued placeholder's `_remove_from` a live
container holding its unique occurrence, no stray placeholder. -/
structure MfInv (s : FState) (h : List MoreObj) : Prop where
  hnodup : (h.map (fun mo => mo.uid)).Nodup
  hult : ∀ mo ∈ h, mo.uid < s.next
  hrkeys : (s.repl.map (fun e => e.1)).Nodup
  hrlt : ∀ e ∈ s.repl, e.1 < s.next
  hilt : ∀ e ∈ s.index, e.2 < s.next
  hloc : ∀ mo ∈ h, ∃ c, alook s.rf mo.uid = some c
      ∧ (getC s c).count (.m mo.uid) = 1
      ∧ occOf s (.m mo.uid) = 1
      ∧ (c = CRef.topLevel ∨ ∃ p, c = CRef.replies p)
  hghost : ∀ u, (∀ mo ∈ h, mo.uid ≠ u) → occOf s (.m u) = 0

theorem loopInv_toMf (s : FState) (h : List MoreObj) (hInv : LoopInv s h) :
    MfInv s h := by
  refine ⟨hInv.hnodup, hInv.hult, hInv.hrkeys, hInv.hrlt, hInv.hilt, ?_, hInv.hghost⟩
  intro mo hmo
  obtain ⟨c, h1, h2, h3, h4⟩ := hInv.hloc mo hmo
  refine ⟨c, h1, h2, h3, ?_⟩
  rcases h4 with h5 | ⟨p, hp, -⟩
  · exact Or.inl h5
  · exact Or.inr ⟨p, hp⟩

/-- A comment-only fetch iteration preserves the weak invariant and pushes
nothing; no self-parent sanity is needed because the gather fallback is
never consulted. -/
theorem fetch_preserve_mf (cfg : Cfg) (s : FState) (h : List MoreObj)
    (item : MoreObj) (rest : List MoreObj) (hp : popMax h = some (item, rest))
    (hMf : MfInv s h) (hmf : moreFreePL (cfg.fetch item.name) = true) :
    ∀ (ps : List MoreObj) (s4 : FState), fetchStep cfg s item = .ok (ps, s4) →
      ps = [] ∧ MfInv s4 rest := by
  intro ps s4 hf
  obtain ⟨hmtop, hmidx, hmnext, hmrepl, hmtemps⟩ := fetchMid_fields cfg s item
  have hls := loadList_spec (cfg.fetch item.name) s.next
  have hl1 := hls.1
  have hnextle : s.next ≤ (fetchMid cfg s item).next := by
    rw [hmnext, hl1]
    omega
  have hfgnil : fetchG cfg s item = [] := fetchG_moreFree cfg s item hmf
  have hitem_mem : item ∈ h := (popMax_mem h item rest hp).1
  have hitem_lt : item.uid < s.next := hMf.hult item hitem_mem
  have hlnsnodup : (uidsTs (fetchLns cfg s item)).Nodup := by
    show (uidsTs (loadList (cfg.fetch item.name) s.next).1).Nodup
    rw [hls.2]
    exact List.nodup_range' _ _ _ one_pos
  have hkeysm : ((fetchMid cfg s item).repl.map (fun e => e.1)).Nodup := by
    rw [hmrepl, List.map_append, List.nodup_append]
    refine ⟨hMf.hrkeys, ?_, ?_⟩
    · exact List.Nodup.sublist (declList_keys_sub (fetchLns cfg s item)) hlnsnodup
    · intro a ha hb
      have h1 : a < s.next := by
        obtain ⟨e, he, heq⟩ := List.mem_map.1 ha
        rw [← heq]
        exact hMf.hrlt e he
      have h2 := fetchLns_declkey_range cfg s item a hb
      omega
  have hrltm : ∀ e ∈ (fetchMid cfg s item).repl, e.1 < (fetchMid cfg s item).next := by
    rw [hmrepl, hmnext]
    intro e he
    rcases List.mem_append.1 he with h1 | h2
    · have := hMf.hrlt e h1
      omega
    · have := fetchLns_declkey_range cfg s item e.1
        (List.mem_map_of_mem (fun e => e.1) h2)
      omega
  have hiltm : ∀ e ∈ (fetchMid cfg s item).index, e.2 < (fetchMid cfg s item).next := by
    rw [hmidx, hmnext]
    intro e he
    have := hMf.hilt e he
    omega
  have hultm : ∀ u ∈ uidsTs (fetchLns cfg s item), u < (fetchMid cfg s item).next := by
    intro u hu
    have := fetchLns_uid_range cfg s item u hu
    rw [hmnext]
    omega
  obtain ⟨s3, hins, hrm, hpseq⟩ := fetchStep_ok_inv cfg s item ps s4 hf
  have hps : ps = [] := by
    rw [hpseq, hfgnil]
    rfl
  obtain ⟨htm3, hnx3, htopm3, hreplm3, hocc3, htopc3k, hkeys3, hrlt3, hilt3,
    hidxne3, hidxc3, hPimp0⟩ :=
    insertAll_ok (fetchLns cfg s item) (fetchMid cfg s item) s3 hins
      hkeysm hrltm hiltm hultm
  have hrf3 : s3.rf = (fetchMid cfg s item).rf := by
    have h0 := insertAll_rf (fetchLns cfg s item) (fetchMid cfg s item)
    rw [hins] at h0
    exact h0
  have hrfold : ∀ u, alook s3.rf u = alook s.rf u := by
    intro u
    rw [hrf3]
    refine fetchMid_rf_old cfg s item u ?_
    intro pm hpm
    rw [hfgnil] at hpm
    exact absurd hpm (by simp)
  -- the whole freshly loaded batch contains no placeholder reference
  have hdfs0 : ∀ u, ((fetchLns cfg s item).map nodeIdOf).count (.m u)
      + occEntries (declList (fetchLns cfg s item)) (.m u) = 0 := by
    intro u
    have hocc := occ_dfs_list (fetchLns cfg s item) none u
    have hnil : dfsMoresL none (fetchLns cfg s item) = [] :=
      dfsMoresL_moreFree (cfg.fetch item.name) s.next none hmf
    rw [hnil] at hocc
    simpa using hocc
  have hocc3all : ∀ u, occOf s3 (.m u) = occOf s (.m u) := by
    intro u
    rw [hocc3, fetchMid_occ]
    have := hdfs0 u
    omega
  obtain ⟨c0, hrf0, hcnt0, hocc0, hct0⟩ := hMf.hloc item hitem_mem
  have hrep_lt : ∀ (p v : Nat), (replGet s p).count (.m v) = 1 → p < s.next := by
    intro p v hc
    cases hal : alook s.repl p with
    | none =>
      rw [show replGet s p = [] from by simp [replGet, hal]] at hc
      simp at hc
    | some l =>
      exact hMf.hrlt (p, l) (alook_mem _ _ _ hal)
  have hfz := fetch_fresh_zero cfg s item item.uid hitem_lt
  have hcnt_item : (getC s3 c0).count (.m item.uid) = 1 := by
    rcases hct0 with rfl | ⟨p, rfl⟩
    · show s3.top.count (.m item.uid) = 1
      rw [htopm3, hmtop, hfz.1, Nat.add_zero]
      exact hcnt0
    · show (replGet s3 p).count (.m item.uid) = 1
      rw [hreplm3, fetchMid_replGet_old cfg s item p (hrep_lt p item.uid hcnt0)]
      exact hcnt0
  obtain ⟨s4b, hrn, hrf4, hidx4, hnx4, htm4, hkeys4, hcnt4, hocc4,
    hoccitem4, htopk4⟩ :=
    removeNode_effects s3 item.uid c0 (by rw [hrfold]; exact hrf0) hcnt_item
      hkeys3 hct0
  have hs4 : s4b = s4 := by
    rw [hrn] at hrm
    exact Except.ok.inj hrm
  subst hs4
  refine ⟨hps, ?_, ?_, ?_, ?_, ?_, ?_, ?_⟩
  · exact (popMax_rest_nodup h item rest hp hMf.hnodup).1
  · intro mo hmo
    have := hMf.hult mo ((popMax_mem h item rest hp).2 mo hmo)
    have hn : s4b.next = (fetchMid cfg s item).next := hnx4.trans hnx3
    omega
  · rw [hkeys4]
    exact hkeys3
  · intro e he
    have hke : e.1 ∈ s4b.repl.map (fun e => e.1) :=
      List.mem_map_of_mem (fun e => e.1) he
    rw [hkeys4] at hke
    obtain ⟨e2, he2, heq⟩ := List.mem_map.1 hke
    have := hrlt3 e2 he2
    have hn : s4b.next = (fetchMid cfg s item).next := hnx4.trans hnx3
    omega
  · intro e he
    rw [hidx4] at he
    have := hilt3 e he
    have hn : s4b.next = (fetchMid cfg s item).next := hnx4.trans hnx3
    omega
  · intro mo hmo
    have hmo_h : mo ∈ h := (popMax_mem h item rest hp).2 mo hmo
    have hmo_lt : mo.uid < s.next := hMf.hult mo hmo_h
    have hmo_ne : mo.uid ≠ item.uid :=
      (popMax_rest_nodup h item rest hp hMf.hnodup).2 mo hmo
    have hxne : (NodeId.m mo.uid) ≠ (NodeId.m item.uid) := by
      intro hh
      exact hmo_ne (by injection hh)
    obtain ⟨c, hrfc, hcntc, hoccc, hctc⟩ := hMf.hloc mo hmo_h
    have hfzm := fetch_fresh_zero cfg s item mo.uid hmo_lt
    refine ⟨c, ?_, ?_, ?_, hctc⟩
    · rw [hrf4, hrfold]
      exact hrfc
    · rw [hcnt4 _ hxne]
      rcases hctc with rfl | ⟨p, rfl⟩
      · show s3.top.count (.m mo.uid) = 1
        rw [htopm3, hmtop, hfzm.1, Nat.add_zero]
        exact hcntc
      · show (replGet s3 p).count (.m mo.uid) = 1
        rw [hreplm3, fetchMid_replGet_old cfg s item p (hrep_lt p mo.uid hcntc)]
        exact hcntc
    · rw [hocc4 _ hxne, hocc3all]
      exact hoccc
  · intro u hu
    by_cases hui : u = item.uid
    · subst hui
      have h3 : occOf s3 (.m item.uid) = 1 := by
        rw [hocc3all]
        exact hocc0
      omega
    · have hxne : (NodeId.m u) ≠ (NodeId.m item.uid) := by
        intro hh
        exact hui (by injection hh)
      rw [hocc4 _ hxne, hocc3all]
      refine hMf.hghost u ?_
      intro mo3 hmo3
      rcases popMax_mem_rev h item rest hp mo3 hmo3 with rfl | hr
      · exact fun heq => hui heq.symm
      · exact hu mo3 hr

/-- Run induction for `limit = None`, `threshold = 0`, comment-only fetches:
a completed loop never skips (so it returns the untouched `skipped`
accumulator) and leaves no placeholder occurrence anywhere. -/
theorem loopMf (cfg : Cfg) (hmf : ∀ nm, moreFreePL (cfg.fetch nm) = true)
    (hth : cfg.threshold = 0) :
    ∀ (fuel : Nat) (h : List MoreObj) (s : FState) (sk : List MoreObj)
      (tr : List CEv) (res : List MoreObj) (sF : FState) (trF : List CEv),
    loopF cfg fuel h none s sk tr = some (.ok (res, sF, trF)) →
    MfInv s h →
    res = sk ∧ (∀ u, occOf sF (.m u) = 0) := by
  intro fuel
  induction fuel with
  | zero =>
    intro h s sk tr res sF trF hrun hMf
    cases hp : popMax h with
    | none =>
      have hnil : h = [] := (popMax_none h).1 hp
      subst hnil
      simp only [loopF, stepF, popMax] at hrun
      simp only [Option.some.injEq, Except.ok.injEq, Prod.mk.injEq] at hrun
      obtain ⟨h1, h2, -⟩ := hrun
      subst h1
      subst h2
      exact ⟨rfl, fun u => hMf.hghost u (by simp)⟩
    | some p =>
      obtain ⟨item, rest⟩ := p
      have hsce : skipCond none cfg.threshold item.count = false := by
        rw [hth]
        show (false || decide ((item.count : Int) < 0)) = false
        have h0 : ¬ ((item.count : Int) < 0) := Int.not_lt.2 (Int.natCast_nonneg _)
        simp [h0]
      cases hf : fetchStep cfg s item with
      | error e => simp [loopF, stepF, hp, hsce, hf] at hrun
      | ok pr =>
        obtain ⟨ps, s1⟩ := pr
        simp [loopF, stepF, hp, hsce, hf] at hrun
  | succ fuel ih =>
    intro h s sk tr res sF trF hrun hMf
    cases hp : popMax h with
    | none =>
      have hnil : h = [] := (popMax_none h).1 hp
      subst hnil
      simp only [loopF, stepF, popMax] at hrun
      simp only [Option.some.injEq, Except.ok.injEq, Prod.mk.injEq] at hrun
      obtain ⟨h1, h2, -⟩ := hrun
      subst h1
      subst h2
      exact ⟨rfl, fun u => hMf.hghost u (by simp)⟩
    | some p =>
      obtain ⟨item, rest⟩ := p
      have hsce : skipCond none cfg.threshold item.count = false := by
        rw [hth]
        show (false || decide ((item.count : Int) < 0)) = false
        have h0 : ¬ ((item.count : Int) < 0) := Int.not_lt.2 (Int.natCast_nonneg _)
        simp [h0]
      cases hf : fetchStep cfg s item with
      | error e => simp [loopF, stepF, hp, hsce, hf] at hrun
      | ok pr =>
        obtain ⟨ps, s1⟩ := pr
        obtain ⟨hps, hMf1⟩ :=
          fetch_preserve_mf cfg s h item rest hp hMf (hmf item.name) ps s1 hf
        subst hps
        simp only [loopF, stepF, hp, hsce, Bool.false_eq_true, if_false, hf,
          List.append_nil] at hrun
        exact ih rest s1 sk (tr ++ [CEv.fetched item]) res sF trF hrun hMf1

/-- Every element of a flatten's output sits in the top-level list or in
some comment's replies list of the state it was computed from. -/
theorem bfsListF_mem (s : FState) :
    ∀ (fuel : Nat) (q l : List NodeId), bfsListF s fuel q = some l →
    ∀ x ∈ l, x ∈ q ∨ ∃ p, x ∈ replGet s p := by
  intro fuel
  induction fuel with
  | zero =>
    intro q l hb x hx
    cases q with
    | nil =>
      simp only [bfsListF] at hb
      have hl : l = [] := (Option.some.inj hb).symm
      subst hl
      simp at hx
    | cons n rest => simp [bfsListF] at hb
  | succ fuel ih =>
    intro q l hb x hx
    cases q with
    | nil =>
      simp only [bfsListF] at hb
      have hl : l = [] := (Option.some.inj hb).symm
      subst hl
      simp at hx
    | cons n rest =>
      cases n with
      | m u =>
        simp only [bfsListF] at hb
        cases hbr : bfsListF s fuel rest with
        | none => rw [hbr] at hb; simp at hb
        | some l2 =>
          rw [hbr] at hb
          simp only [Option.map_some'] at hb
          have hl : l = NodeId.m u :: l2 := (Option.some.inj hb).symm
          subst hl
          rcases List.mem_cons.1 hx with rfl | h2
          · exact Or.inl (List.mem_cons_self _ _)
          · rcases ih rest l2 hbr x h2 with h3 | h3
            · exact Or.inl (List.mem_cons_of_mem _ h3)
            · exact Or.inr h3
      | c u =>
        simp only [bfsListF] at hb
        cases hbr : bfsListF s fuel (rest ++ replGet s u) with
        | none => rw [hbr] at hb; simp at hb
        | some l2 =>
          rw [hbr] at hb
          simp only [Option.map_some'] at hb
          have hl : l = NodeId.c u :: l2 := (Option.some.inj hb).symm
          subst hl
          rcases List.mem_cons.1 hx with rfl | h2
          · exact Or.inl (List.mem_cons_self _ _)
          · rcases ih (rest ++ replGet s u) l2 hbr x h2 with h3 | h3
            · rcases List.mem_append.1 h3 with h4 | h4
              · exact Or.inl (List.mem_cons_of_mem _ h4)
              · exact Or.inr ⟨u, h4⟩
            · exact Or.inr h3

/-- A node present in a live container is counted by `occOf`. -/
theorem occOf_pos_of_mem_container (s : FState) (x : NodeId)
    (hm : x ∈ s.top ∨ ∃ p, x ∈ replGet s p) : 0 < occOf s x := by
  rcases hm with h1 | ⟨p, h2⟩
  · have := List.count_pos_iff.2 h1
    show 0 < s.top.count x + occEntries s.repl x
    omega
  · cases hal : alook s.repl p with
    | none =>
      rw [show replGet s p = [] from by simp [replGet, hal]] at h2
      simp at h2
    | some l =>
      have hl : replGet s p = l := by simp [replGet, hal]
      rw [hl] at h2
      have hc := List.count_pos_iff.2 h2
      have hle := entry_le_occEntries s.repl p l x (alook_mem _ _ _ hal)
      show 0 < s.top.count x + occEntries s.repl x
      omega

/-- C6: with `limit = None` and `threshold = 0` and a fetch collaborator
returning only Comment nodes (no nested placeholder), a normally completed
`replace_more` (lines 133-218) returns the empty sequence - the budget
check never trips with no cap and a count below threshold is impossible at
threshold 0, so nothing is ever skipped - and any subsequent flatten of the
forest contains zero placeholder nodes. -/
theorem replace_more_full_resolution (fetch : String → List PNode)
    (init : List PNode) (fuel : Nat)
    (hmf : ∀ nm, moreFreePL (fetch nm) = true)
    (res : List MoreObj) (sF : FState) (trF : List CEv)
    (hrun : replaceMore fetch none 0 init fuel = some (.ok (res, sF, trF))) :
    res = [] ∧ ∀ (fl : Nat) (l : List NodeId), forestList sF fl = some l →
      ∀ u, NodeId.m u ∉ l := by
  simp only [replaceMore] at hrun
  obtain ⟨hres, hocc⟩ := loopMf ⟨fetch, 0⟩ hmf rfl fuel
    ((gatherInit init).map (fun pm => pm.2))
    (applyGather (initState init) (gatherInit init) CRef.topLevel) [] []
    res sF trF hrun (loopInv_toMf _ _ (init_inv init))
  refine ⟨hres, ?_⟩
  intro fl l hfl u hmem
  have hin := bfsListF_mem sF fl sF.top l hfl (.m u) hmem
  have hpos := occOf_pos_of_mem_container sF (.m u) hin
  have := hocc u
  omega

/-- C6 witness: a forest with one placeholder whose fetch returns a single
root comment; the completed run returns `[]` and the flatten holds no
placeholder. -/
theorem replace_more_full_resolution_witness :
    ([] : List MoreObj) = []
      ∧ ∀ (fl : Nat) (l : List NodeId), forestList
          (match replaceMore (fun _ => [PNode.comment "c1" "t3" true []]) none 0
              [PNode.more "m1" 1] 2 with
            | some (.ok (_, sF, _)) => sF
            | _ => initState []) fl = some l →
          ∀ u, NodeId.m u ∉ l := by
  have h := replace_more_full_resolution (fun _ => [PNode.comment "c1" "t3" true []])
    [PNode.more "m1" 1] 2 (fun _ => rfl) [] (match replaceMore
      (fun _ => [PNode.comment "c1" "t3" true []]) none 0 [PNode.more "m1" 1] 2 with
        | some (.ok (_, sF, _)) => sF
        | _ => initState []) [CEv.fetched ⟨0, "m1", 1⟩] (by rfl)
  exact h

/-- C8 counterexample: the fallback removal target of a parentless
placeholder is not always the forest's top-level sequence. Placeholder 4 is
the sole - and parentless - placeholder of the "m3" fetch's returned trees
(first conjunct); in the completed run below (the self-parent degenerate
that empties the top level before that fetch), it is gathered, pushed and
later fetched (trace [0, 1, 3, 4]), but its removal target is the second
throwaway `new_comments` list (`CRef.temp 2`), because line 31's
`parent_tree or tree` degrades under Python truthiness when
`self._comments` is empty - not the top-level sequence the claim asserts. -/
theorem nested_discovery_fallback_cex :
    dfsMoresL none (loadList [PNode.more "m4" 1] 4).1 = [(none, ⟨4, "m4", 1⟩)]
    ∧ (replaceMore
        (fun nm => if nm = "m1" then [PNode.comment "a" "a" false [PNode.more "m3" 1]]
          else if nm = "m3" then [PNode.more "m4" 1] else [])
        none 0 [PNode.more "m1" 5, PNode.more "m2" 3] 10).map
      (fun r => match r with
        | .ok (_, sF, tr) => some (alook sF.rf 4,
            tr.filterMap (fun e => match e with
              | CEv.fetched mo => some mo.uid
              | CEv.skipped _ => none))
        | .error _ => none)
      = some (some (some (CRef.temp 2), [0, 1, 3, 4]))
    ∧ CRef.temp 2 ≠ CRef.topLevel := by
  refine ⟨rfl, rfl, ?_⟩
  intro hc
  exact CRef.noConfusion hc
